import Mathlib

/-!
# Verification of the declarr reconciliation engine (`declarr/arr.py`)

This file gives a shallow embedding of the reconciliation engine of the
`declarr` repository (source: `src/declarr/arr.py`) and proves, or refutes,
the frozen claims about it.

Modelling conventions:

* JSON-like Python values are modelled by the inductive type `Val`.
  Python dicts are association lists `List (String × Val)` in insertion
  order with unique keys; `lookup`/`aset` implement indexing and
  assignment, `pyMerge` implements the Python double-splat dict merge
  (second argument wins on conflicting keys, first argument's key order
  is preserved).
* Fallible Python code (KeyError, TypeError, a non-2xx HTTP response, a
  `min` of an empty sequence) is modelled with `Except Err` for pure
  code and with the state-and-error monad `M` for code that issues
  requests.
* The engine's side effects are recorded as an event trace: each HTTP
  request issued becomes an `Ev.req` event, and the start of the
  deferred-deletion drain loop at the end of `sync` is recorded by the
  marker event `Ev.drain`.  The remote server is an oracle: `Oracle.resp`
  gives the parsed body answered to a request and `Oracle.ok` tells
  whether the response status was below 300.  The only server state the
  engine re-reads after writing within one run is the tag collection,
  which is therefore carried in the state `St` instead of the oracle.
-/

/-- A JSON-like value as handled by the Python source: `None`, numbers
(only integers occur), strings, booleans, arrays and objects.  Objects
are insertion-ordered association lists, mirroring Python dicts. -/
inductive Val where
  | null : Val
  | int (n : Int) : Val
  | str (s : String) : Val
  | bool (b : Bool) : Val
  | list (xs : List Val) : Val
  | dict (d : List (String × Val)) : Val
  deriving Repr

mutual

def Val.decEq : (a b : Val) → Decidable (a = b)
  | .null, .null => .isTrue rfl
  | .int m, .int n =>
    match (inferInstance : Decidable (m = n)) with
    | .isTrue h => .isTrue (by rw [h])
    | .isFalse h => .isFalse (fun hh => h (Val.int.inj hh))
  | .str s, .str t =>
    match (inferInstance : Decidable (s = t)) with
    | .isTrue h => .isTrue (by rw [h])
    | .isFalse h => .isFalse (fun hh => h (Val.str.inj hh))
  | .bool x, .bool y =>
    match (inferInstance : Decidable (x = y)) with
    | .isTrue h => .isTrue (by rw [h])
    | .isFalse h => .isFalse (fun hh => h (Val.bool.inj hh))
  | .list xs, .list ys =>
    match Val.decEqList xs ys with
    | .isTrue h => .isTrue (by rw [h])
    | .isFalse h => .isFalse (fun hh => h (Val.list.inj hh))
  | .dict xs, .dict ys =>
    match Val.decEqDict xs ys with
    | .isTrue h => .isTrue (by rw [h])
    | .isFalse h => .isFalse (fun hh => h (Val.dict.inj hh))
  | .null, .int _ => .isFalse nofun
  | .null, .str _ => .isFalse nofun
  | .null, .bool _ => .isFalse nofun
  | .null, .list _ => .isFalse nofun
  | .null, .dict _ => .isFalse nofun
  | .int _, .null => .isFalse nofun
  | .int _, .str _ => .isFalse nofun
  | .int _, .bool _ => .isFalse nofun
  | .int _, .list _ => .isFalse nofun
  | .int _, .dict _ => .isFalse nofun
  | .str _, .null => .isFalse nofun
  | .str _, .int _ => .isFalse nofun
  | .str _, .bool _ => .isFalse nofun
  | .str _, .list _ => .isFalse nofun
  | .str _, .dict _ => .isFalse nofun
  | .bool _, .null => .isFalse nofun
  | .bool _, .int _ => .isFalse nofun
  | .bool _, .str _ => .isFalse nofun
  | .bool _, .list _ => .isFalse nofun
  | .bool _, .dict _ => .isFalse nofun
  | .list _, .null => .isFalse nofun
  | .list _, .int _ => .isFalse nofun
  | .list _, .str _ => .isFalse nofun
  | .list _, .bool _ => .isFalse nofun
  | .list _, .dict _ => .isFalse nofun
  | .dict _, .null => .isFalse nofun
  | .dict _, .int _ => .isFalse nofun
  | .dict _, .str _ => .isFalse nofun
  | .dict _, .bool _ => .isFalse nofun
  | .dict _, .list _ => .isFalse nofun

def Val.decEqList : (xs ys : List Val) → Decidable (xs = ys)
  | [], [] => .isTrue rfl
  | [], _ :: _ => .isFalse nofun
  | _ :: _, [] => .isFalse nofun
  | x :: xs, y :: ys =>
    match Val.decEq x y with
    | .isFalse h => .isFalse (fun hh => h (List.cons.inj hh).1)
    | .isTrue h1 =>
      match Val.decEqList xs ys with
      | .isTrue h2 => .isTrue (by rw [h1, h2])
      | .isFalse h => .isFalse (fun hh => h (List.cons.inj hh).2)

def Val.decEqDict : (xs ys : List (String × Val)) → Decidable (xs = ys)
  | [], [] => .isTrue rfl
  | [], _ :: _ => .isFalse nofun
  | _ :: _, [] => .isFalse nofun
  | (k1, v1) :: xs, (k2, v2) :: ys =>
    match (inferInstance : Decidable (k1 = k2)) with
    | .isFalse h => .isFalse (fun hh => h (congrArg Prod.fst (List.cons.inj hh).1))
    | .isTrue hk =>
      match Val.decEq v1 v2 with
      | .isFalse h => .isFalse (fun hh => h (congrArg Prod.snd (List.cons.inj hh).1))
      | .isTrue hv =>
        match Val.decEqDict xs ys with
        | .isTrue h2 => .isTrue (by rw [hk, hv, h2])
        | .isFalse h => .isFalse (fun hh => h (List.cons.inj hh).2)

end

instance : DecidableEq Val := Val.decEq

/-- A Python dict with string keys: an insertion-ordered association list. -/
abbrev Dict := List (String × Val)

/-- Python dict indexing `d[k]` / `d.get(k)` (first binding wins; a
well-formed dict has unique keys).  Generic over the value type so the
same function serves the tag map (string to id). -/
def alook {β : Type} (d : List (String × β)) (k : String) : Option β :=
  match d with
  | [] => none
  | (k2, v) :: rest => if k2 = k then some v else alook rest k

/-- Python dict assignment `d[k] = v`: replaces the value in place when
the key is present (keeping its position) and appends otherwise. -/
def aset {β : Type} (d : List (String × β)) (k : String) (v : β) : List (String × β) :=
  if (alook d k).isSome then
    d.map (fun p => if p.1 = k then (k, v) else p)
  else
    d ++ [(k, v)]

/-- The Python dict merge written as a double-splat literal, as in the
source's update body at `arr.py:316`: keys of `a` keep their
position, values from `b` win on conflicts, keys only in `b` are
appended in `b`'s order. -/
def pyMerge (a b : Dict) : Dict :=
  a.map (fun p => (p.1, ((alook b p.1).getD p.2))) ++
    b.filter (fun p => (alook a p.1).isNone)

theorem alook_sizeOf {da : List (String × Val)} {k : String} {v : Val}
    (h : alook da k = some v) : sizeOf v < sizeOf da := by
  induction da with
  | nil => simp [alook] at h
  | cons p rest ih =>
    obtain ⟨k2, v2⟩ := p
    by_cases hk : k2 = k
    · simp [alook, hk] at h
      subst h
      simp
      omega
    · simp [alook, hk] at h
      have := ih h
      simp
      omega

mutual

/-- Modelled from the spec: `declarr.utils.deep_merge` is not under
`src/`.  The spec describes it as a recursive merge in which the first
argument wins on leaf conflicts and nested mappings are merged
recursively (spec sections 4.4 step 5 and 4.5: "schema is base, merged
entry wins", "node wins on leaf conflicts").  Keys of the base keep
their order, keys only in the winner are appended. -/
def deep_merge (a b : Val) : Val :=
  match a, b with
  | .dict da, .dict db =>
    .dict (deep_merge_base da db ++
      da.filter (fun q => (alook db q.1).isNone))
  | a, _ => a
termination_by sizeOf a + sizeOf b

/-- Helper for `deep_merge`: the base dict `db` with every value merged
under the matching winner value from `da`. -/
def deep_merge_base (da : List (String × Val)) : List (String × Val) → List (String × Val)
  | [] => []
  | (k, vb) :: rest =>
    (k, match h : alook da k with
        | some va => deep_merge va vb
        | none => vb) :: deep_merge_base da rest
termination_by l => sizeOf da + sizeOf l
decreasing_by
  all_goals simp
  all_goals (have hs := alook_sizeOf h; omega)

end

/-- Modelled from the spec: `declarr.utils.unique` is not under `src/`.
The spec (section 4.2) only says the collected labels are deduplicated;
modelled as order-preserving first-occurrence deduplication. -/
def unique (xs : List Val) : List Val :=
  xs.foldl (fun acc x => if x ∈ acc then acc else acc ++ [x]) []

/-- Modelled from the spec: `declarr.utils.del_keys` is not under `src/`.
Used at `arr.py:371` to strip the top-level `presets` key from a schema
entry; modelled as removal of the named top-level keys. -/
def del_keys (d : Dict) (ks : List String) : Dict :=
  d.filter (fun p => decide (p.1 ∉ ks))

/-- The errors the engine can raise: a missing dict key, a wrong runtime
type, Python `ValueError` (empty `min`), and a non-2xx HTTP response
(`arr.py:238`). -/
inductive Err where
  | keyError (k : String)
  | typeError (msg : String)
  | valueError (msg : String)
  | requestError (path : String)
  deriving DecidableEq, Repr

instance {ε α : Type} [DecidableEq ε] [DecidableEq α] : DecidableEq (Except ε α) :=
  fun a b =>
    match a, b with
    | .ok x, .ok y =>
      match decEq x y with
      | .isTrue h => .isTrue (by rw [h])
      | .isFalse h => .isFalse (fun hh => h (Except.ok.inj hh))
    | .error x, .error y =>
      match decEq x y with
      | .isTrue h => .isTrue (by rw [h])
      | .isFalse h => .isFalse (fun hh => h (Except.error.inj hh))
    | .ok _, .error _ => .isFalse nofun
    | .error _, .ok _ => .isFalse nofun

/-- `str(v)` as used by the source's f-string path interpolation
(`arr.py:300,315`); only integer and string ids occur in practice. -/
def pyStr : Val → String
  | .int n => toString n
  | .str s => s
  | .bool b => if b then "True" else "False"
  | .null => "None"
  | .list _ => "<list>"
  | .dict _ => "<dict>"

/-- `v[k]` on a value expected to be a dict: `KeyError`/`TypeError`
semantics. -/
def indexVal (v : Val) (k : String) : Except Err Val :=
  match v with
  | .dict d =>
    match alook d k with
    | some x => .ok x
    | none => .error (.keyError k)
  | _ => .error (.typeError "value is not a mapping")

def asDict : Val → Except Err Dict
  | .dict d => .ok d
  | _ => .error (.typeError "value is not a mapping")

def asList : Val → Except Err (List Val)
  | .list xs => .ok xs
  | _ => .error (.typeError "value is not a list")

def asStr : Val → Except Err String
  | .str s => .ok s
  | _ => .error (.typeError "value is not a string")

def asInt : Val → Except Err Int
  | .int n => .ok n
  | _ => .error (.typeError "value is not an integer")

/-- Modelled from the spec: `declarr.utils.to_dict` is not under `src/`.
The spec (section 4.3 step 1) says existing resources are indexed by the
natural key; modelled as the Python dict comprehension keyed by `x[key]`
(later duplicates override earlier ones).  Natural keys are strings for
every resource type the engine manages. -/
def to_dict (xs : List Val) (key : String) : Except Err Dict :=
  xs.foldlM
    (fun acc x =>
      match x with
      | .dict d =>
        match alook d key with
        | some (.str s) => .ok (aset acc s x)
        | some _ => .error (.typeError "natural key is not a string")
        | none => .error (.keyError key)
      | _ => .error (.typeError "resource is not a mapping"))
    []

/-- Modelled from the spec: `declarr.utils.map_values` is not under
`src/`; it maps a function of key and value over a dict's values,
keeping keys and order.  This is the fallible variant: the comprehension
is eager, so the first raising entry aborts the whole call. -/
def map_values (d : Dict) (f : String → Val → Except Err Val) : Except Err Dict :=
  match d with
  | [] => .ok []
  | (k, v) :: rest => do
    let v2 ← f k v
    let rest2 ← map_values rest f
    pure ((k, v2) :: rest2)

/-- The wire encoding of a contract field mapping (`arr.py:401-404`):
each field becomes a record with a `name` key, plus a `value` key
exactly when the value is not `None`. -/
def fields_to_wire (fields : Dict) : List Val :=
  fields.map (fun p =>
    if p.2 = Val.null then Val.dict [("name", .str p.1)]
    else Val.dict [("name", .str p.1), ("value", p.2)])

/-- One step of the wire-format field decoding: insert the record's
`name`-keyed binding, taking the record's `value` or `None` when
absent. -/
def wire_field_step (acc : Dict) (x : Val) : Except Err Dict :=
  match x with
  | .dict d =>
    match alook d "name" with
    | some (.str s) => .ok (aset acc s ((alook d "value").getD .null))
    | some _ => .error (.typeError "field name is not a string")
    | none => .error (.keyError "name")
  | _ => .error (.typeError "field is not a mapping")

/-- The mapping decoding of a wire-format field list (`arr.py:347,374`):
a dict comprehension keyed by each record's `name`, taking the record's
`value` or `None` when absent. -/
def wire_to_fields (xs : List Val) : Except Err Dict :=
  xs.foldlM wire_field_step []

/-! ## Requests, events, engine state and the effect monad -/

/-- HTTP methods used by the engine. -/
inductive Method where
  | get
  | post
  | put
  | delete
  deriving DecidableEq, Repr

/-- One HTTP request as logged and sent by `_base_req` (`arr.py:222`):
method, path relative to the API root, and the JSON body (the source
replaces a `None` body by an empty object before sending). -/
structure Req where
  method : Method
  path : String
  body : Val
  deriving DecidableEq, Repr

/-- An entry of the engine's observable trace: either an issued HTTP
request, or the marker recording that the deferred-deletion drain loop
at the end of `sync` (`arr.py:662`) was reached. -/
inductive Ev where
  | req (r : Req)
  | drain
  deriving DecidableEq, Repr

/-- The mutable run state of one `ArrSyncEngine` invocation: the trace of
events so far, the deferred-deletion queue (`self.deferred_deletes`),
the remote server's tag collection (label and id, in creation order; the
one piece of server state the engine re-reads after writing), the next
fresh server tag id, and the resolved tag map (`self.tag_map`). -/
structure St where
  events : List Ev
  deferred : List (String × Val)
  tags : List (String × Int)
  nextTagId : Int
  tagMap : List (String × Int)
  deriving DecidableEq, Repr

/-- The remote server as seen through every path other than `/tag`:
`resp` is the parsed response body and `ok` tells whether the response
status was below 300 (`arr.py:233`). -/
structure Oracle where
  resp : Req → Val
  ok : Req → Bool

/-- Result of running an engine fragment: normal return or a raised
exception. -/
inductive Res (α : Type) where
  | ok (a : α)
  | err (e : Err)
  deriving DecidableEq, Repr

/-- The engine's effect monad: state passing plus exceptions.  Unlike
`Except`, an error keeps the state reached so far, mirroring Python,
where side effects performed before a raise persist. -/
def M (α : Type) : Type := St → Res α × St

def M.pure {α : Type} (a : α) : M α := fun s => (.ok a, s)

def M.bind {α β : Type} (x : M α) (f : α → M β) : M β := fun s =>
  match x s with
  | (.ok a, s1) => f a s1
  | (.err e, s1) => (.err e, s1)

instance : Monad M where
  pure := M.pure
  bind := M.bind

/-- Raise an exception. -/
def M.throw {α : Type} (e : Err) : M α := fun s => (.err e, s)

/-- Run a pure fallible computation inside `M`. -/
def M.ofExcept {α : Type} : Except Err α → M α
  | .ok a => M.pure a
  | .error e => M.throw e

/-- Issue one HTTP request through the oracle: the request is appended
to the trace unconditionally (it was sent), then a non-2xx status
raises, as in `_base_req` (`arr.py:238`). -/
def request (o : Oracle) (m : Method) (p : String) (b : Val) : M Val := fun s =>
  let r : Req := ⟨m, p, b⟩
  let s1 := { s with events := s.events ++ [.req r] }
  if o.ok r then (.ok (o.resp r), s1) else (.err (.requestError p), s1)

def getReq (o : Oracle) (p : String) : M Val := request o .get p (.dict [])

def postReq (o : Oracle) (p : String) (b : Val) : M Val := request o .post p b

def putReq (o : Oracle) (p : String) (b : Val) : M Val := request o .put p b

def deleteReq (o : Oracle) (p : String) : M Val := request o .delete p (.dict [])

/-- `deferr_delete` (`arr.py:254`): append the pair to the queue; no
request is issued. -/
def deferr_delete (p : String) (b : Val) : M Unit := fun s =>
  (.ok (), { s with deferred := s.deferred ++ [(p, b)] })

/-- `GET /tag`: answered from the tag collection carried in the state;
the request itself is traced and can fail like any other. -/
def getTagsReq (o : Oracle) : M (List (String × Int)) := fun s =>
  let r : Req := ⟨.get, "/tag", .dict []⟩
  let s1 := { s with events := s.events ++ [.req r] }
  if o.ok r then (.ok s1.tags, s1) else (.err (.requestError "/tag"), s1)

/-- `POST /tag` with a label body: on success the server appends the tag
with a fresh id. -/
def postTagReq (o : Oracle) (label : String) : M Unit := fun s =>
  let r : Req := ⟨.post, "/tag", .dict [("label", .str label)]⟩
  let s1 := { s with events := s.events ++ [.req r] }
  if o.ok r then
    (.ok (), { s1 with
      tags := s1.tags ++ [(label, s1.nextTagId)],
      nextTagId := s1.nextTagId + 1 })
  else (.err (.requestError "/tag"), s1)

/-- Read the resolved tag map (`self.tag_map`). -/
def getTagMap : M (List (String × Int)) := fun s => (.ok s.tagMap, s)

/-- Read the deferred-deletion queue. -/
def getDeferred : M (List (String × Val)) := fun s => (.ok s.deferred, s)

/-- Overwrite the resolved tag map (`self.tag_map = ...`). -/
def setTagMap (m : List (String × Int)) : M Unit := fun s =>
  (.ok (), { s with tagMap := m })

/-! ## `sync_tags` (`arr.py:260-284`) -/

/-- `y.get("tags", [])` for one resource entry, as read by `sync_tags`
(`arr.py:269`): missing key means the empty list; a present non-list
value makes the later in-place list extension raise. -/
def entryTags (y : Val) : Except Err (List Val) :=
  match y with
  | .dict d =>
    match alook d "tags" with
    | some (.list ts) => .ok ts
    | some _ => .error (.typeError "tags is not a list")
    | none => .ok []
  | _ => .error (.typeError "resource entry is not a mapping")

/-- The nested tag labels gathered by the loop at `arr.py:263-269` for
one top-level collection key: skipped when the key is absent or `None`,
otherwise the concatenation of every entry's `tags` list. -/
def collectFrom (cfg : Dict) (k : String) : Except Err (List Val) :=
  match alook cfg k with
  | none => .ok []
  | some .null => .ok []
  | some (.dict d) => d.foldlM (fun acc p => do pure (acc ++ (← entryTags p.2))) []
  | some _ => .error (.typeError "collection is not a mapping")

/-- The Lidarr-only `defaultTags` sum at `arr.py:271-275`: `rootFolder`
is indexed directly (KeyError when absent) and every entry must carry a
`defaultTags` list (the source's `x.get("defaultTags")` with no default
makes `sum` raise otherwise). -/
def lidarrDefaultTags (cfg : Dict) : Except Err (List Val) :=
  match alook cfg "rootFolder" with
  | none => .error (.keyError "rootFolder")
  | some (.dict d) =>
    d.foldlM
      (fun acc p =>
        match p.2 with
        | .dict x =>
          match alook x "defaultTags" with
          | some (.list ts) => .ok (acc ++ ts)
          | some _ => .error (.typeError "defaultTags is not a list")
          | none => .error (.typeError "defaultTags missing")
        | _ => .error (.typeError "rootFolder entry is not a mapping"))
      []
  | some _ => .error (.typeError "rootFolder is not a mapping")

/-- The nested (non-top-level) tag labels `sync_tags` appends to the
top-level list: the four scanned collections in loop order, plus the
Lidarr `defaultTags`.  Notifications are not scanned. -/
def nested_tags (ty : String) (cfg : Dict) : Except Err (List Val) := do
  let t1 ← collectFrom cfg "indexer"
  let t2 ← collectFrom cfg "indexerProxy"
  let t3 ← collectFrom cfg "downloadClient"
  let t4 ← collectFrom cfg "applications"
  let t5 ← if ty = "lidarr" then lidarrDefaultTags cfg else pure []
  pure (t1 ++ t2 ++ t3 ++ t4 ++ t5)

/-- The top-level `tag` list (`arr.py:261`): `self.cfg.get("tag", [])`. -/
def topTags (cfg : Dict) : Except Err (List Val) :=
  match alook cfg "tag" with
  | some (.list ts) => .ok ts
  | none => .ok []
  | some _ => .error (.typeError "tag is not a list")

/-- All tag labels referenced by the configuration as `sync_tags`
collects them: the top-level list followed by the nested ones. -/
def collect_tags (ty : String) (cfg : Dict) : Except Err (List Val) := do
  let base ← topTags cfg
  let rest ← nested_tags ty cfg
  pure (base ++ rest)

/-- Python `str.lower()` on the character sequence (ASCII case folding,
written over the character list so that it evaluates inside the
kernel). -/
def strLower (s : String) : String := ⟨s.data.map Char.toLower⟩

/-- `tag.lower()`: tag labels must be strings. -/
def lowerVal : Val → Except Err String
  | .str s => .ok (strLower s)
  | _ => .error (.typeError "tag label is not a string")

/-- The lower-cased label list the creation loop iterates
(`arr.py:278`): note that `unique` runs on the raw labels, before
lower-casing. -/
def tag_labels (tags : List Val) : Except Err (List String) :=
  (unique tags).mapM lowerVal

/-- The caller-visible effect of `sync_tags` on the desired
configuration.  `tags = self.cfg.get("tag", [])` (`arr.py:261`) binds
`tags` to the very list object stored in the caller's configuration
when the key is present, and the following `tags += ...` statements
extend that list in place; so after `sync_tags` the caller's `tag`
entry has every nested label appended.  When the `tag` key is absent
the default `[]` is a fresh list and the configuration is untouched. -/
def sync_tags_cfg_after (ty : String) (cfg : Dict) : Except Err Dict :=
  match alook cfg "tag" with
  | none => do
    let _ ← nested_tags ty cfg
    pure cfg
  | some (.list orig) => do
    let rest ← nested_tags ty cfg
    pure (aset cfg "tag" (.list (orig ++ rest)))
  | some _ => .error (.typeError "tag is not a list")

/-- The creation loop (`arr.py:278-280`): post each lower-cased
deduplicated label that is not among the labels fetched before the
loop.  The membership list is not refreshed between iterations. -/
def postMissingTags (o : Oracle) (existingLabels : List String) : List String → M Unit
  | [] => M.pure ()
  | t :: rest => do
    if t ∈ existingLabels then M.pure () else postTagReq o t
    postMissingTags o existingLabels rest

/-- The final tag map (`arr.py:284`): a dict comprehension from label to
id over the re-fetched collection, later entries overriding earlier
ones. -/
def buildTagMap (ts : List (String × Int)) : List (String × Int) :=
  ts.foldl (fun acc p => aset acc p.1 p.2) []

/-- `sync_tags` (`arr.py:260-284`): collect every referenced label,
fetch the existing tags, create the missing lower-cased labels, then
re-fetch and store the label-to-id map. -/
def sync_tags (o : Oracle) (ty : String) (cfg : Dict) : M Unit := do
  let tags ← M.ofExcept (collect_tags ty cfg)
  let existing ← getTagsReq o
  let labels ← M.ofExcept (tag_labels tags)
  postMissingTags o (existing.map Prod.fst) labels
  let ts ← getTagsReq o
  setTagMap (buildTagMap ts)

/-- The bodies of the tag-creation requests `sync_tags` issues, as a
pure function of the raw collected labels and the labels existing on
the server before the loop. -/
def sync_tags_posts (tags : List Val) (existingLabels : List String) : Except Err (List String) := do
  let ls ← tag_labels tags
  pure (ls.filter (fun t => t ∉ existingLabels))

/-! ## `sync_resources` (`arr.py:286-324`) -/

/-- The deferred-deletion sweep shared by `sync_resources`
(`arr.py:298-300`) and `sync_contracts` (`arr.py:408-410`): every
existing resource whose natural key is absent from the desired dict is
enqueued as `path/{id}` with no body. -/
def queueDeletes (path : String) (c : Dict) : List (String × Val) → M Unit
  | [] => M.pure ()
  | (name, dat) :: rest => do
    if (alook c name).isNone then do
      let idv ← M.ofExcept (indexVal dat "id")
      deferr_delete (path ++ "/" ++ pyStr idv) .null
    else M.pure ()
    queueDeletes path c rest

/-- The name injection at `arr.py:303-309`: a dict literal that places
the natural key first, so an explicit `name` attribute in the entry
still wins. -/
def inject_name (k : String) (v : Val) : Except Err Val :=
  match v with
  | .dict d => .ok (.dict (pyMerge [("name", .str k)] d))
  | _ => .error (.typeError "resource attributes are not a mapping")

/-- The body of one iteration of the apply loop (`arr.py:313-319`):
update with the overlaid body when a same-key existing resource is
present, create otherwise. -/
def sync_resources_attempt (o : Oracle) (path : String) (existing : Dict)
    (name : String) (dat : Val) : M Val :=
  match alook existing name with
  | some e => do
    let eid ← M.ofExcept (indexVal e "id")
    let eD ← M.ofExcept (asDict e)
    let datD ← M.ofExcept (asDict dat)
    putReq o (path ++ "/" ++ pyStr eid) (.dict (pyMerge eD datD))
  | none => postReq o path dat

/-- The apply loop of `sync_resources` (`arr.py:311-324`): per desired
entry, run the attempt; any exception is re-raised unless
`allow_error` is set, in which case it is logged and the loop
continues. -/
def sync_resources_apply (o : Oracle) (path : String) (existing : Dict)
    (allow_error : Bool) : List (String × Val) → M Unit
  | [] => M.pure ()
  | (name, dat) :: rest => fun s =>
    match sync_resources_attempt o path existing name dat s with
    | (.ok _, s1) => sync_resources_apply o path existing allow_error rest s1
    | (.err e, s1) =>
      if allow_error then sync_resources_apply o path existing allow_error rest s1
      else (.err e, s1)

/-- `sync_resources` (`arr.py:286-324`): `None` means unmanaged (no-op);
otherwise fetch and index the existing collection, enqueue deletions
for undesired keys, apply the per-type defaults and the name injection
to every desired entry, then run the create/update loop. -/
def sync_resources (o : Oracle) (path : String) (cfg : Val)
    (defaults : String → Val → Except Err Val) (allow_error : Bool)
    (key : String) : M Unit :=
  match cfg with
  | .null => M.pure ()
  | .dict c => do
    let resp ← getReq o path
    let respL ← M.ofExcept (asList resp)
    let existing ← M.ofExcept (to_dict respL key)
    queueDeletes path c existing
    let c1 ← M.ofExcept (map_values c defaults)
    let c2 ← M.ofExcept (map_values c1 inject_name)
    sync_resources_apply o path existing allow_error c2
  | _ => M.throw (.typeError "desired collection is not a mapping")

/-! ## `sync_contracts` (`arr.py:330-419`) -/

/-- The conversion applied to each fetched resource and schema entry
(`arr.py:343-349,371-377`): replace the wire-format `fields` list by a
name-to-value mapping. -/
def fields_to_map (v : Val) : Except Err Val :=
  match v with
  | .dict d =>
    match alook d "fields" with
    | some (.list fs) => do
      let fm ← wire_to_fields fs
      pure (.dict (pyMerge d [("fields", .dict fm)]))
    | some _ => .error (.typeError "fields is not a list")
    | none => .error (.keyError "fields")
  | _ => .error (.typeError "resource is not a mapping")

/-- The `enable`/`name` injection at `arr.py:355-362` and `384-391`: a
dict literal placing the defaults first, so explicit entry values win. -/
def inject_enable_name (k : String) (v : Val) : Except Err Val :=
  match v with
  | .dict d => .ok (.dict (pyMerge [("enable", .bool true), ("name", .str k)] d))
  | _ => .error (.typeError "entry is not a mapping")

/-- One schema entry's conversion (`arr.py:366-378`): map the field
list, then strip the non-portable `presets` key. -/
def schema_entry_conv (v : Val) : Except Err Val := do
  let c ← fields_to_map v
  match c with
  | .dict d => pure (.dict (del_keys d ["presets"]))
  | _ => .error (.typeError "schema entry is not a mapping")

/-- The schema overlay at `arr.py:379-382`: each merged entry is
deep-merged over the schema entry selected by its `scheme_key`
attribute value; a missing attribute or an unknown implementation value
raises. -/
def schema_merge (schema : Dict) (skey1 : String) (v : Val) : Except Err Val :=
  match v with
  | .dict d =>
    match alook d skey1 with
    | some (.str ks) =>
      match alook schema ks with
      | some sv => .ok (deep_merge v sv)
      | none => .error (.keyError ks)
    | some other => .error (.keyError (pyStr other))
    | none => .error (.keyError skey1)
  | _ => .error (.typeError "entry is not a mapping")

/-- Tag reference resolution (`arr.py:397-400`): string labels are
looked up lower-cased in the tag map, non-strings pass through. -/
def resolve_tags (tagMap : List (String × Int)) (ts : List Val) : Except Err (List Val) :=
  ts.mapM (fun t =>
    match t with
    | .str s =>
      match alook tagMap (strLower s) with
      | some i => .ok (.int i)
      | none => .error (.keyError (strLower s))
    | x => .ok x)

/-- The final per-entry conversion (`arr.py:393-406`): resolve the tag
references and turn the field mapping back into the wire-format list. -/
def finalize_obj (tagMap : List (String × Int)) (_name : String) (obj : Val) : Except Err Val :=
  match obj with
  | .dict d => do
    let ts ←
      match alook d "tags" with
      | some (.list ts) => resolve_tags tagMap ts
      | some _ => .error (.typeError "tags is not a list")
      | none => .ok []
    let fm ←
      match alook d "fields" with
      | some (.dict fm) => .ok fm
      | some _ => .error (.typeError "fields is not a mapping")
      | none => .ok []
    pure (.dict (pyMerge d [("tags", .list ts), ("fields", .list (fields_to_wire fm))]))
  | _ => .error (.typeError "entry is not a mapping")

/-- The apply loop of `sync_contracts` (`arr.py:412-417`): full-replace
update for desired entries with an existing same-name resource, create
otherwise.  No partial-failure tolerance at this level. -/
def sync_contracts_apply (o : Oracle) (path : String) (existing : Dict) :
    List (String × Val) → M Unit
  | [] => M.pure ()
  | (name, dat) :: rest => do
    (match alook existing name with
     | some e => do
       let eid ← M.ofExcept (indexVal e "id")
       let _ ← putReq o (path ++ "/" ++ pyStr eid) dat
       M.pure ()
     | none => do
       let _ ← postReq o path dat
       M.pure ())
    sync_contracts_apply o path existing rest

/-- `sync_contracts` (`arr.py:330-419`): the schema-backed
reconciliation pipeline.  `None` means unmanaged; otherwise fetch and
convert the existing collection, overlay desired entries over existing
ones, inject `enable`/`name`, fetch and convert the schema, overlay
each entry over its schema entry, re-inject `enable`/`name`, apply the
caller's defaults, resolve tags and re-encode fields, enqueue deletions
for undesired existing keys, and run the create/update loop. -/
def sync_contracts (o : Oracle) (path : String) (cfg : Val)
    (defaults : String → Val → Except Err Val) (skey : String × String) : M Unit :=
  match cfg with
  | .null => M.pure ()
  | .dict c => do
    let resp ← getReq o path
    let respL ← M.ofExcept (asList resp)
    let existing0 ← M.ofExcept (to_dict respL "name")
    let existing ← M.ofExcept (map_values existing0 (fun _ v => fields_to_map v))
    let c1 ← M.ofExcept (map_values c
      (fun k v => .ok (deep_merge v ((alook existing k).getD (.dict [])))))
    let c2 ← M.ofExcept (map_values c1 inject_enable_name)
    let sresp ← getReq o (path ++ "/schema")
    let srespL ← M.ofExcept (asList sresp)
    let schema0 ← M.ofExcept (to_dict srespL skey.1)
    let schema ← M.ofExcept (map_values schema0 (fun _ v => schema_entry_conv v))
    let c3 ← M.ofExcept (map_values c2 (fun _ v => schema_merge schema skey.2 v))
    let c4 ← M.ofExcept (map_values c3 inject_enable_name)
    let c5 ← M.ofExcept (map_values c4 defaults)
    let tm ← getTagMap
    let c6 ← M.ofExcept (map_values c5 (finalize_obj tm))
    queueDeletes path c6 existing
    sync_contracts_apply o path existing c6
  | _ => M.throw (.typeError "desired collection is not a mapping")

/-! ## `recursive_sync` (`arr.py:424-453`) -/

/-- `isinstance(x, (dict, list))`. -/
def isContainer : Val → Bool
  | .dict _ => true
  | .list _ => true
  | _ => false

/-- The list branch of `recursive_sync` (`arr.py:425-429`): each element
is created at the resource path independently. -/
def postEach (o : Oracle) (resource : String) : List Val → M Unit
  | [] => M.pure ()
  | b :: rest => do
    let _ ← postReq o resource b
    postEach o resource rest

mutual

/-- `recursive_sync` (`arr.py:424-453`): lists post each element; a
mapping with at least one non-container value or an explicit `__req`
marker is treated as one resource (fetch the current value, deep-merge
the node over it with the marker stripped, put once); a mapping of only
containers recurses into each child under `resource/key`.  A
non-container node cannot be iterated and raises. -/
def recursive_sync (o : Oracle) (obj : Val) (resource : String) : M Unit :=
  match obj with
  | .list xs => postEach o resource xs
  | .dict d =>
    if d.any (fun p => ! isContainer p.2) || (alook d "__req").isSome then do
      let cur ← getReq o resource
      let _ ← putReq o resource (deep_merge (.dict (del_keys d ["__req"])) cur)
      M.pure ()
    else recursive_sync_children o resource d
  | _ => M.throw (.typeError "settings node is not iterable")
termination_by sizeOf obj

/-- The recursion over a settings mapping's children. -/
def recursive_sync_children (o : Oracle) (resource : String) :
    List (String × Val) → M Unit
  | [] => M.pure ()
  | (k, v) :: rest => do
    recursive_sync o v (resource ++ "/" ++ k)
    recursive_sync_children o resource rest
termination_by l => sizeOf l

end

/-! ## The Prowlarr profile helpers (`arr.py:493-538`) -/

/-- The filtered name-to-id app-profile map (`arr.py:505-510`): one
entry per fetched profile, restricted, when `appProfile` is declared,
to the declared names (`None` keeps everything; key membership for a
mapping, element membership for a list). -/
def build_profile_map (xs : List Val) (declared : Val) : Except Err (List (String × Val)) :=
  xs.foldlM
    (fun acc x => do
      let nmv ← indexVal x "name"
      let nm ← asStr nmv
      let keep ←
        match declared with
        | .null => Except.ok true
        | .dict dd => Except.ok (alook dd nm).isSome
        | .list l => Except.ok (decide (Val.str nm ∈ l))
        | _ => Except.error (.typeError "appProfile is not a collection")
      if keep then do
        let idv ← indexVal x "id"
        pure (aset acc nm idv)
      else pure acc)
    []

/-- Python `min` over the profile map's id values: raises `ValueError`
on an empty sequence, `TypeError` on non-integers. -/
def minVals : List Val → Except Err Val
  | [] => .error (.valueError "min() arg is an empty sequence")
  | x :: xs => do
    let i ← asInt x
    let is_ ← xs.mapM asInt
    pure (.int (is_.foldl min i))

/-- `gen_profile_id` (`arr.py:512-527`): the default id is the minimum
id in the (restricted) profile map, computed before any branch, so an
empty map always raises; an absent `appProfileId` gets the default, an
integer id is kept only when it is among the map's ids, and a string id
is looked up by name. -/
def gen_profile_id (profile_map : List (String × Val)) (v : Val) : Except Err Val := do
  let ids := profile_map.map Prod.snd
  let defaultId ← minVals ids
  match v with
  | .dict d =>
    match alook d "appProfileId" with
    | none => pure defaultId
    | some (.int i) => pure (if Val.int i ∈ ids then .int i else defaultId)
    | some (.str s) =>
      match alook profile_map s with
      | some x => pure x
      | none => Except.error (.keyError s)
    | some other => Except.error (.keyError (pyStr other))
  | _ => Except.error (.typeError "indexer entry is not a mapping")

/-- The indexer defaults closure (`arr.py:530-537`): the entry with its
`appProfileId` replaced by `gen_profile_id`'s result. -/
def indexer_defaults (profile_map : List (String × Val)) (_k : String) (v : Val) :
    Except Err Val := do
  let pid ← gen_profile_id profile_map v
  match v with
  | .dict d => pure (.dict (pyMerge d [("appProfileId", pid)]))
  | _ => Except.error (.typeError "indexer entry is not a mapping")

/-- The Prowlarr app-profile defaults closure (`arr.py:496-503`). -/
def appProfile_defaults (_k : String) (v : Val) : Except Err Val :=
  match v with
  | .dict d =>
    .ok (.dict (pyMerge
      [("enableRss", .bool true), ("enableAutomaticSearch", .bool true),
       ("enableInteractiveSearch", .bool true), ("minimumSeeders", .int 1)] d))
  | _ => .error (.typeError "appProfile entry is not a mapping")

/-! ## The orchestrator `sync` (`arr.py:455-666`) -/

/-- The unmanaged-by-default top-level keys merged under the caller's
configuration at `arr.py:463-481` (note the source's `indexerProxie`
spelling in the defaults, while the Prowlarr phase later indexes
`indexerProxy`). -/
def cfg_defaults : Dict :=
  [("downloadClient", .null), ("appProfile", .null), ("applications", .null),
   ("indexer", .null), ("indexerProxie", .null),
   ("qualityDefinition", .dict []),
   ("customFormat", .null), ("qualityProfile", .null),
   ("rootFolder", .null),
   ("importList", .null), ("notification", .null)]

/-- `self.cfg = \x7b **defaults, **self.cfg \x7d`: the caller's entries win. -/
def apply_cfg_defaults (cfg : Dict) : Dict := pyMerge cfg_defaults cfg

/-- `self.cfg[k]`: direct indexing of the top-level configuration. -/
def idx (cfg : Dict) (k : String) : Except Err Val :=
  match alook cfg k with
  | some v => .ok v
  | none => .error (.keyError k)

/-- The startup health check (`arr.py:459`): a raw request outside
`_base_req`, aborting the run on failure. -/
def pingReq (o : Oracle) : M Unit := do
  let _ ← request o .get "/ping" (.dict [])
  M.pure ()

/-- The quality-definition loop (`arr.py:550-554`): direct
put-by-existing-title, no create or delete. -/
def qdLoop (o : Oracle) (qmap : Dict) : List (String × Val) → M Unit
  | [] => M.pure ()
  | (name, x) :: rest => do
    let q ← M.ofExcept
      (match alook qmap name with
       | some q => .ok q
       | none => .error (.keyError name))
    let qid ← M.ofExcept (indexVal q "id")
    let _ ← putReq o ("/qualityDefinition/" ++ pyStr qid) (deep_merge x q)
    qdLoop o qmap rest

/-- The quality-definition phase (`arr.py:544-554`). -/
def qualityDefPhase (o : Oracle) (qd : Val) : M Unit := do
  let resp ← getReq o "/qualityDefinition"
  let respL ← M.ofExcept (asList resp)
  let qmap ← M.ofExcept (to_dict respL "title")
  match qd with
  | .dict d => qdLoop o qmap d
  | _ => M.throw (.typeError "qualityDefinition is not a mapping")

/-- `gen_formats_items` (`arr.py:571-583`): one name/format/score record
per fetched custom format, scored from the profile's `formatItems` by
name with default score 0. -/
def gen_formats_items (formats : List Val) (v : Val) : Except Err Val := do
  let fi ← indexVal v "formatItems"
  let fiL ← asList fi
  let ism ← to_dict fiL "name"
  let items ← formats.mapM (fun d => do
    let nm ← indexVal d "name"
    let fid ← indexVal d "id"
    let nms ← asStr nm
    let score ←
      match alook ism nms with
      | some e => indexVal e "score"
      | none => Except.ok (.int 0)
    pure (Val.dict [("name", nm), ("format", fid), ("score", score)]))
  pure (.list items)

/-- The quality-profile defaults closure (`arr.py:585-592`). -/
def qp_defaults (formats : List Val) (_k : String) (v : Val) : Except Err Val := do
  let items ← gen_formats_items formats v
  match v with
  | .dict d => pure (.dict (pyMerge d [("formatItems", items)]))
  | _ => Except.error (.typeError "qualityProfile entry is not a mapping")

/-- The immediate root-folder deletions of the Sonarr/Radarr block
(`arr.py:600-603`): existing folders whose path is undesired are
deleted at once, not deferred. -/
def rfDeleteLoop (o : Oracle) (c : Dict) : List (String × Val) → M Unit
  | [] => M.pure ()
  | (name, dat) :: rest => do
    if (alook c name).isNone then do
      let idv ← M.ofExcept (indexVal dat "id")
      let _ ← deleteReq o ("/rootFolder/" ++ pyStr idv)
      M.pure ()
    else M.pure ()
    rfDeleteLoop o c rest

/-- The root-folder creations of the Sonarr/Radarr block
(`arr.py:605-607`): only missing paths are created; nothing is
updated. -/
def rfPostLoop (o : Oracle) (existing : Dict) : List (String × Val) → M Unit
  | [] => M.pure ()
  | (name, dat) :: rest => do
    if (alook existing name).isNone then do
      let _ ← postReq o "/rootFolder" dat
      M.pure ()
    else M.pure ()
    rfPostLoop o existing rest

/-- The Sonarr/Radarr root-folder phase (`arr.py:595-607`): the desired
value is a sequence of paths (iterating a mapping would use its keys),
re-keyed into one `path` record each. -/
def rootFolderPhase (o : Oracle) (rf : Val) : M Unit := do
  let names ← M.ofExcept
    (match rf with
     | .list xs => xs.mapM asStr
     | .dict d => .ok (d.map Prod.fst)
     | _ => .error (.typeError "rootFolder is not iterable"))
  let c : Dict := names.foldl (fun acc s => aset acc s (Val.dict [("path", .str s)])) []
  let resp ← getReq o "/rootFolder"
  let respL ← M.ofExcept (asList resp)
  let existing ← M.ofExcept (to_dict respL "path")
  rfDeleteLoop o c existing
  rfPostLoop o existing c

/-- A name-to-id dict comprehension over a fetched collection
(`arr.py:615-622`). -/
def nameIdMap (xs : List Val) : Except Err (List (String × Val)) :=
  xs.foldlM
    (fun acc x => do
      let nmv ← indexVal x "name"
      let nm ← asStr nmv
      let idv ← indexVal x "id"
      pure (aset acc nm idv))
    []

/-- The Lidarr root-folder defaults closure (`arr.py:626-640`): resolve
the entry's `tags` into `defaultTags` and replace the default
quality/metadata profile names by their ids (a missing name raises). -/
def lidarr_root_defaults (tagMap : List (String × Int)) (qpm mpm : List (String × Val))
    (_k : String) (v : Val) : Except Err Val :=
  match v with
  | .dict d => do
    let ts ←
      match alook d "tags" with
      | some (.list ts) => resolve_tags tagMap ts
      | some _ => .error (.typeError "tags is not a list")
      | none => .ok []
    let qv ←
      match alook d "defaultQualityProfileId" with
      | some x => Except.ok x
      | none => Except.error (.keyError "defaultQualityProfileId")
    let qk ← asStr qv
    let qid ←
      match alook qpm qk with
      | some x => Except.ok x
      | none => Except.error (.keyError qk)
    let mv ←
      match alook d "defaultMetadataProfileId" with
      | some x => Except.ok x
      | none => Except.error (.keyError "defaultMetadataProfileId")
    let mk_ ← asStr mv
    let mid ←
      match alook mpm mk_ with
      | some x => Except.ok x
      | none => Except.error (.keyError mk_)
    pure (.dict (pyMerge d
      [("defaultTags", .list ts), ("defaultQualityProfileId", qid),
       ("defaultMetadataProfileId", mid)]))
  | _ => .error (.typeError "rootFolder entry is not a mapping")

/-- The Lidarr root-folder phase (`arr.py:609-642`). -/
def lidarrRootPhase (o : Oracle) (cfg : Dict) : M Unit := do
  let qresp ← getReq o "/qualityprofile"
  let qrespL ← M.ofExcept (asList qresp)
  let qpm ← M.ofExcept (nameIdMap qrespL)
  let mresp ← getReq o "/metadataprofile"
  let mrespL ← M.ofExcept (asList mresp)
  let mpm ← M.ofExcept (nameIdMap mrespL)
  let tm ← getTagMap
  let rf ← M.ofExcept (idx cfg "rootFolder")
  sync_resources o "/rootFolder" rf (lidarr_root_defaults tm qpm mpm) false "name"

/-- The drain loop body (`arr.py:662-666`): one delete per queued entry
in enqueue order; every individual failure is swallowed, so the request
is traced and the loop continues regardless of the response. -/
def drainLoop : List (String × Val) → M Unit
  | [] => M.pure ()
  | (p, b) :: rest => fun s =>
    let bb := if b = Val.null then Val.dict [] else b
    let s1 := { s with events := s.events ++ [.req ⟨.delete, p, bb⟩] }
    drainLoop rest s1

/-- The deferred-deletion drain: the marker event records that the loop
at `arr.py:662` was reached, then every queued entry is deleted. -/
def drainPhase : M Unit := do
  fun s => (.ok (), { s with events := s.events ++ [.drain] })
  let q ← getDeferred
  drainLoop q

/-- The Prowlarr-only phase block (`arr.py:493-542`). -/
def prowlarrPhase (o : Oracle) (cfg : Dict) : M Unit := do
  let ap ← M.ofExcept (idx cfg "appProfile")
  sync_resources o "/appprofile" ap appProfile_defaults false "name"
  let presp ← getReq o "/appprofile"
  let prespL ← M.ofExcept (asList presp)
  let pm ← M.ofExcept (build_profile_map prespL ap)
  let ix ← M.ofExcept (idx cfg "indexer")
  sync_contracts o "/indexer" ix (indexer_defaults pm) ("name", "indexerName")
  let apps ← M.ofExcept (idx cfg "applications")
  sync_contracts o "/applications" apps (fun _ v => .ok v) ("implementation", "implementation")
  let ipx ← M.ofExcept (idx cfg "indexerProxy")
  sync_contracts o "/indexerProxy" ipx (fun _ v => .ok v) ("implementation", "implementation")

/-- The Sonarr/Radarr custom-format and quality-profile block
(`arr.py:562-593`). -/
def formatProfilePhase (o : Oracle) (cfg : Dict) : M Unit := do
  let cf ← M.ofExcept (idx cfg "customFormat")
  sync_resources o "/customformat" cf (fun _ v => .ok v) true "name"
  let formats ← getReq o "/customformat"
  let formatsL ← M.ofExcept (asList formats)
  let qp ← M.ofExcept (idx cfg "qualityProfile")
  sync_resources o "/qualityprofile" qp (qp_defaults formatsL) true "name"

/-- The full `sync` run (`arr.py:455-666`) for one server type.  The
Format/Profile Compiler is the opaque pure transformation `compileF`
(spec section 6), applied only for Sonarr and Radarr.  Every phase runs
in sequence; nothing catches a phase's exception, so a raise skips all
remaining phases, including the drain loop. -/
def sync (o : Oracle) (ty : String) (compileF : Dict → Dict) (cfg0 : Dict) : M Unit := do
  pingReq o
  let cfg1 := apply_cfg_defaults cfg0
  let cfg := if ty = "sonarr" ∨ ty = "radarr" then compileF cfg1 else cfg1
  sync_tags o ty cfg
  let dc ← M.ofExcept (idx cfg "downloadClient")
  sync_contracts o "/downloadClient" dc (fun _ v => .ok v) ("implementation", "implementation")
  if ty = "prowlarr" then prowlarrPhase o cfg else M.pure ()
  if ty = "sonarr" ∨ ty = "radarr" ∨ ty = "lidarr" then do
    let qd ← M.ofExcept (idx cfg "qualityDefinition")
    qualityDefPhase o qd
  else M.pure ()
  if ty = "sonarr" ∨ ty = "radarr" then formatProfilePhase o cfg else M.pure ()
  if ty = "sonarr" ∨ ty = "radarr" then do
    let rf ← M.ofExcept (idx cfg "rootFolder")
    if rf = Val.null then M.pure () else rootFolderPhase o rf
  else M.pure ()
  if ty = "lidarr" then lidarrRootPhase o cfg else M.pure ()
  let nt ← M.ofExcept (idx cfg "notification")
  sync_contracts o "/notification" nt (fun _ v => .ok v) ("implementation", "implementation")
  let cv ← M.ofExcept (idx cfg "config")
  recursive_sync o cv "/config"
  drainPhase

/-! ## Trace notation helpers -/

/-- The traced `GET /tag` event. -/
def getTagEv : Ev := .req ⟨.get, "/tag", .dict []⟩

/-- The traced tag-creation event for one label. -/
def postEv (t : String) : Ev := .req ⟨.post, "/tag", .dict [("label", .str t)]⟩

/-- The server tags created for a label list, ids consecutive from `n`. -/
def tagAppend (n : Int) : List String → List (String × Int)
  | [] => []
  | t :: ts => (t, n) :: tagAppend (n + 1) ts

/-- The `id` attribute of a fetched resource (total; fetched resources
indexed by `to_dict` are mappings carrying their server id). -/
def resId (v : Val) : Val :=
  match v with
  | .dict d => (alook d "id").getD .null
  | _ => .null

/-- The underlying dict of a mapping value (total). -/
def dictOf : Val → Dict
  | .dict d => d
  | _ => []

/-- The request the apply loop of `sync_resources` (`arr.py:311-319`)
issues for one prepared desired entry: an update of `path/{id}` with
the existing attributes overlaid by the desired ones when a same-key
existing resource is present, a create otherwise. -/
def plannedReq (p : String) (existing : Dict) (k : String) (v : Val) : Req :=
  match alook existing k with
  | some e => ⟨.put, p ++ "/" ++ pyStr (resId e), .dict (pyMerge (dictOf e) (dictOf v))⟩
  | none => ⟨.post, p, v⟩

/-- The deferred deletions enqueued by the sweep at `arr.py:298-300`:
one `path/{id}` entry per existing resource whose key is absent from
the desired dict. -/
def plannedDeletes (p : String) (c : Dict) (existing : Dict) : List (String × Val) :=
  (existing.filter (fun q => (alook c q.1).isNone)).map
    (fun q => (p ++ "/" ++ pyStr (resId q.2), Val.null))

/-- The request the apply loop of `sync_contracts` (`arr.py:412-417`)
issues for one finalized desired entry: a full-replace update of
`path/{id}` when a same-name existing resource is present, a create
otherwise. -/
def contractReq (p : String) (existing : Dict) (k : String) (v : Val) : Req :=
  match alook existing k with
  | some e => ⟨.put, p ++ "/" ++ pyStr (resId e), v⟩
  | none => ⟨.post, p, v⟩

/-- The traced `GET` event for a collection path. -/
def getEv (p : String) : Ev := .req ⟨.get, p, .dict []⟩

/-- `m`, run from `s`, returns normally with value `a` in state `s2`. -/
def RunsTo {α : Type} (m : M α) (s : St) (a : α) (s2 : St) : Prop :=
  m s = (.ok a, s2)

/-- `m`, run from `s`, raises `e` leaving state `s2`. -/
def FailsTo {α : Type} (m : M α) (s : St) (e : Err) (s2 : St) : Prop :=
  m s = (.err e, s2)

/-! ## Trace classification for the whole-run temporal claims -/

/-- Structural character-list prefix test, written so that it evaluates
inside the kernel. -/
def listStarts : List Char → List Char → Bool
  | [], _ => true
  | _ :: _, [] => false
  | a :: as, b :: bs => a = b && listStarts as bs

/-- `pre` is a string prefix of `s`. -/
def strStarts (pre s : String) : Bool := listStarts pre.data s.data

/-- The property every event emitted before the drain loop satisfies:
it is an issued request (never the drain marker), and when it is a
deletion it targets an immediate `/rootFolder/{id}` path - the
Sonarr/Radarr root-folder block (`arr.py:600-603`) is the only code
that deletes before the drain. -/
def phaseOk (e : Ev) : Bool :=
  match e with
  | .drain => false
  | .req r =>
    match r.method with
    | .delete => strStarts "/rootFolder/" r.path
    | _ => true

/-- `m` only ever appends events satisfying `P` to the trace, whether it
returns or raises. -/
def EmitsOnly {α : Type} (m : M α) (P : Ev → Bool) : Prop :=
  ∀ s : St, ∃ δ : List Ev, ((m s).2).events = s.events ++ δ ∧ ∀ e ∈ δ, P e = true

/-- The trace shape of (a suffix of) `sync`: every emitted event before
the drain marker satisfies `phaseOk`, and the drain marker is emitted
exactly once when the run returns normally and never when it raises. -/
def SyncShape (m : M Unit) : Prop :=
  ∀ s : St, ∃ δ : List Ev, ((m s).2).events = s.events ++ δ ∧
    (∀ e ∈ δ.takeWhile (fun e => e != Ev.drain), phaseOk e = true) ∧
    (match (m s).1 with
     | .ok _ => δ.count Ev.drain = 1
     | .err _ => δ.count Ev.drain = 0)

/-- The tail of `sync` from the notification phase (`arr.py:651-666`). -/
def syncTail6 (o : Oracle) (cfg : Dict) : M Unit := do
  let nt ← M.ofExcept (idx cfg "notification")
  sync_contracts o "/notification" nt (fun _ v => Except.ok v)
    ("implementation", "implementation")
  let cv ← M.ofExcept (idx cfg "config")
  recursive_sync o cv "/config"
  drainPhase

/-- The tail of `sync` from the Lidarr root-folder phase. -/
def syncTail5 (o : Oracle) (ty : String) (cfg : Dict) : M Unit :=
  if ty = "lidarr" then (do lidarrRootPhase o cfg; syncTail6 o cfg)
  else (do M.pure (); syncTail6 o cfg)

/-- The tail of `sync` from the Sonarr/Radarr root-folder phase. -/
def syncTail4 (o : Oracle) (ty : String) (cfg : Dict) : M Unit :=
  if ty = "sonarr" ∨ ty = "radarr" then (do
    let rf ← M.ofExcept (idx cfg "rootFolder")
    if rf = Val.null then (do M.pure (); syncTail5 o ty cfg)
    else (do rootFolderPhase o rf; syncTail5 o ty cfg))
  else (do M.pure (); syncTail5 o ty cfg)

/-- The tail of `sync` from the custom-format/quality-profile phase. -/
def syncTail3 (o : Oracle) (ty : String) (cfg : Dict) : M Unit :=
  if ty = "sonarr" ∨ ty = "radarr" then (do formatProfilePhase o cfg; syncTail4 o ty cfg)
  else (do M.pure (); syncTail4 o ty cfg)

/-- The tail of `sync` from the quality-definition phase. -/
def syncTail2 (o : Oracle) (ty : String) (cfg : Dict) : M Unit :=
  if ty = "sonarr" ∨ ty = "radarr" ∨ ty = "lidarr" then (do
    let qd ← M.ofExcept (idx cfg "qualityDefinition")
    qualityDefPhase o qd
    syncTail3 o ty cfg)
  else (do M.pure (); syncTail3 o ty cfg)

/-- The tail of `sync` from the Prowlarr phase. -/
def syncTail1 (o : Oracle) (ty : String) (cfg : Dict) : M Unit :=
  if ty = "prowlarr" then (do prowlarrPhase o cfg; syncTail2 o ty cfg)
  else (do M.pure (); syncTail2 o ty cfg)

/-! ## Basic lemmas about the dict and monad operations -/

theorem bind_def {α β : Type} (x : M α) (f : α → M β) : x >>= f = M.bind x f := rfl

theorem pure_def {α : Type} (a : α) : (pure a : M α) = M.pure a := rfl

theorem alook_append {β : Type} (a b : List (String × β)) (k : String) :
    alook (a ++ b) k = match alook a k with
      | some v => some v
      | none => alook b k := by
  induction a with
  | nil => simp [alook]
  | cons p rest ih =>
    by_cases hk : p.1 = k
    · obtain ⟨k2, v2⟩ := p
      simp_all [alook]
    · obtain ⟨k2, v2⟩ := p
      simp_all [alook]

theorem alook_mem {β : Type} {d : List (String × β)} {k : String} {v : β}
    (h : alook d k = some v) : (k, v) ∈ d := by
  induction d with
  | nil => simp [alook] at h
  | cons p rest ih =>
    obtain ⟨k2, v2⟩ := p
    by_cases hk : k2 = k
    · simp [alook, hk] at h
      subst hk
      subst h
      exact List.mem_cons_self _ _
    · simp [alook, hk] at h
      exact List.mem_cons_of_mem _ (ih h)

theorem alook_eq_none {β : Type} {d : List (String × β)} {k : String} :
    alook d k = none ↔ k ∉ d.map Prod.fst := by
  induction d with
  | nil => simp [alook]
  | cons p rest ih =>
    obtain ⟨k2, v2⟩ := p
    by_cases hk : k2 = k
    · simp [alook, hk]
    · simp [alook, hk, ih]
      intro h
      exact fun hh => hk hh.symm

theorem alook_isSome_mem {β : Type} {d : List (String × β)} {k : String} :
    (alook d k).isSome ↔ k ∈ d.map Prod.fst := by
  rw [← @Decidable.not_not (k ∈ d.map Prod.fst) _, ← alook_eq_none]
  cases h : alook d k <;> simp [h]

theorem aset_absent {β : Type} {d : List (String × β)} {k : String} (v : β)
    (h : alook d k = none) : aset d k v = d ++ [(k, v)] := by
  simp [aset, h]

/-- Replacing the binding at `k` throughout, as `aset` does for a
present key: the lookup at `k` yields the new value. -/
theorem alook_map_set {β : Type} (d : List (String × β)) (k : String) (v : β)
    (h : (alook d k).isSome) :
    alook (d.map (fun p => if p.1 = k then (k, v) else p)) k = some v := by
  induction d with
  | nil => simp [alook] at h
  | cons p rest ih =>
    obtain ⟨k2, v2⟩ := p
    by_cases hk : k2 = k
    · subst hk
      simp only [List.map_cons, if_true]
      simp [alook]
    · have h2 : (alook rest k).isSome := by simpa [alook, hk] using h
      simp only [List.map_cons]
      rw [if_neg hk]
      simp [alook, hk, ih h2]

/-- Looking up the key just set. -/
theorem alook_aset_self {β : Type} (d : List (String × β)) (k : String) (v : β) :
    alook (aset d k v) k = some v := by
  by_cases h : (alook d k).isSome
  · simp only [aset, h, if_true]
    exact alook_map_set d k v h
  · rw [Option.not_isSome_iff_eq_none] at h
    simp only [aset, h, Option.isSome_none, Bool.false_eq_true, if_false]
    rw [alook_append]
    simp [h, alook]

/-- Rewriting the binding at `k` to the value it already holds is the
identity on a dict with unique keys. -/
theorem map_set_id {β : Type} {d : List (String × β)} {k : String} {v : β}
    (hnd : (d.map Prod.fst).Nodup) (h : alook d k = some v) :
    d.map (fun p => if p.1 = k then (k, v) else p) = d := by
  induction d with
  | nil => simp
  | cons p rest ih =>
    obtain ⟨k2, v2⟩ := p
    simp only [List.map_cons, List.nodup_cons] at hnd
    by_cases hk : k2 = k
    · subst hk
      simp only [alook, if_pos rfl] at h
      have hv : v2 = v := by injection h
      subst hv
      simp only [List.map_cons, if_true]
      congr 1
      have hrest : List.map (fun p => if p.1 = k2 then (k2, v2) else p) rest
          = List.map id rest := by
        apply List.map_congr_left
        intro p hp
        have hne : p.1 ≠ k2 := by
          intro hh
          exact hnd.1 (hh ▸ List.mem_map_of_mem Prod.fst hp)
        simp [hne]
      rw [hrest, List.map_id]
    · simp only [alook, hk, if_false] at h
      simp only [List.map_cons]
      rw [if_neg hk]
      rw [ih hnd.2 h]

/-- Setting a key to the value it already holds (unique keys) is the
identity. -/
theorem aset_self {β : Type} {d : List (String × β)} {k : String} {v : β}
    (hnd : (d.map Prod.fst).Nodup) (h : alook d k = some v) : aset d k v = d := by
  have hs : (alook d k).isSome := by simp [h]
  simp only [aset, hs, if_true]
  exact map_set_id hnd h

/-! ## Claim C8: the contract field round-trip -/

theorem wire_field_step_enc (acc : Dict) (k : String) (v : Val) :
    wire_field_step acc (if v = Val.null then Val.dict [("name", .str k)]
      else Val.dict [("name", .str k), ("value", v)]) = .ok (aset acc k v) := by
  by_cases hv : v = Val.null
  · subst hv
    simp [wire_field_step, alook]
  · simp only [hv, if_false]
    simp [wire_field_step, alook, hv]

theorem wire_roundtrip_aux (m : Dict) : ∀ acc : Dict,
    (∀ k, k ∈ m.map Prod.fst → alook acc k = none) → (m.map Prod.fst).Nodup →
    List.foldlM wire_field_step acc (fields_to_wire m) = .ok (acc ++ m) := by
  induction m with
  | nil =>
    intro acc _ _
    simp only [fields_to_wire, List.map_nil, List.foldlM_nil, List.append_nil]
    rfl
  | cons p rest ih =>
    intro acc hdisj hnd
    obtain ⟨k, v⟩ := p
    simp only [fields_to_wire, List.map_cons, List.foldlM_cons]
    have hstep := wire_field_step_enc acc k v
    rw [hstep]
    have hk : alook acc k = none := hdisj k (by simp)
    rw [aset_absent v hk]
    simp only [List.map_cons, List.nodup_cons] at hnd
    have := ih (acc ++ [(k, v)])
      (by
        intro k2 hk2
        rw [alook_append]
        have h1 : alook acc k2 = none := hdisj k2 (by simp [hk2])
        have hne : k ≠ k2 := by
          intro hh
          exact hnd.1 (hh ▸ hk2)
        simp [h1, alook, hne])
      hnd.2
    simp only [fields_to_wire] at this
    rw [show Except.ok (acc ++ [(k, v)]) = (pure (acc ++ [(k, v)]) : Except Err Dict) from rfl,
      pure_bind, this]
    simp

/-- C8: converting a field mapping to the wire-format ordered sequence
and back yields the original mapping for every mapping with unique
field names (in particular for every mapping with no null values), and
a null-valued field is encoded as a record with no `value` key, which
decodes back to a null-valued field. -/
theorem contract_field_roundtrip (m : Dict) (hnd : (m.map Prod.fst).Nodup) :
    wire_to_fields (fields_to_wire m) = .ok m ∧
    (∀ k v, (k, v) ∈ m → v = Val.null →
      Val.dict [("name", .str k)] ∈ fields_to_wire m) ∧
    (∀ k, fields_to_wire [(k, Val.null)] = [.dict [("name", .str k)]] ∧
      wire_to_fields [.dict [("name", .str k)]] = .ok [(k, Val.null)]) := by
  refine ⟨?_, ?_, ?_⟩
  · have := wire_roundtrip_aux m [] (by intro k _; simp [alook]) hnd
    simpa [wire_to_fields] using this
  · intro k v hmem hv
    subst hv
    have : (fun p => if p.2 = Val.null then Val.dict [("name", .str p.1)]
        else Val.dict [("name", .str p.1), ("value", p.2)]) (k, Val.null)
        ∈ fields_to_wire m := List.mem_map_of_mem _ hmem
    simpa [fields_to_wire] using this
  · intro k
    constructor
    · simp [fields_to_wire]
    · simp [wire_to_fields, wire_field_step, alook, aset]

/-- Witness for `contract_field_roundtrip` at a concrete two-field
mapping with one null field. -/
theorem contract_field_roundtrip_witness :
    wire_to_fields (fields_to_wire [("host", .str "qbit.local"), ("port", .null)])
      = .ok [("host", .str "qbit.local"), ("port", .null)] ∧
    Val.dict [("name", .str "port")] ∈
      fields_to_wire [("host", .str "qbit.local"), ("port", .null)] := by
  have h := contract_field_roundtrip [("host", .str "qbit.local"), ("port", .null)]
    (by decide)
  exact ⟨h.1, h.2.1 "port" Val.null (by decide) rfl⟩

/-! ## Claim C10: the Prowlarr default app-profile id -/

theorem foldl_min_le_self (is_ : List Int) (i : Int) : is_.foldl min i ≤ i := by
  induction is_ generalizing i with
  | nil => simp
  | cons a l ih =>
    simp only [List.foldl_cons]
    exact le_trans (ih (min i a)) (min_le_left _ _)

theorem foldl_min_le_mem (is_ : List Int) (i : Int) : ∀ j ∈ is_, is_.foldl min i ≤ j := by
  induction is_ generalizing i with
  | nil => simp
  | cons a l ih =>
    intro j hj
    simp only [List.foldl_cons]
    rcases List.mem_cons.mp hj with h | h
    · subst h
      exact le_trans (foldl_min_le_self l (min i j)) (min_le_right _ _)
    · exact ih (min i a) j h

theorem foldl_min_mem (is_ : List Int) (i : Int) :
    is_.foldl min i = i ∨ is_.foldl min i ∈ is_ := by
  induction is_ generalizing i with
  | nil => simp
  | cons a l ih =>
    simp only [List.foldl_cons]
    rcases ih (min i a) with h | h
    · rcases le_total i a with hia | hai
      · left
        rw [h, min_eq_left hia]
      · right
        rw [h, min_eq_right hai]
        exact List.mem_cons_self _ _
    · right
      exact List.mem_cons_of_mem _ h

theorem mapM_asInt (l : List Int) : (l.map Val.int).mapM asInt = .ok l := by
  induction l with
  | nil => rfl
  | cons a t ih =>
    rw [List.map_cons, List.mapM_cons, ih]
    rfl

theorem minVals_ints (i : Int) (is_ : List Int) :
    minVals ((i :: is_).map Val.int) = .ok (.int (is_.foldl min i)) := by
  rw [List.map_cons]
  show (do
    let j ← asInt (Val.int i)
    let js ← (is_.map Val.int).mapM asInt
    pure (Val.int (js.foldl min j)) : Except Err Val) = _
  rw [show asInt (Val.int i) = Except.ok i from rfl]
  rw [show (Except.ok i : Except Err Int) = pure i from rfl, pure_bind]
  rw [mapM_asInt]
  rfl

/-- C10: in the Prowlarr indexer phase, with the profile map built from
the server's app profiles restricted to the declared ones, an indexer
with no `appProfileId` or with an integer `appProfileId` that is not
among the retained ids is assigned the minimum retained id; an empty
retained set makes the defaults closure (and hence the phase) raise. -/
theorem gen_profile_id_assigns_min (xs : List Val) (declared : Val)
    (pm : List (String × Val)) (hpm : build_profile_map xs declared = .ok pm)
    (d : Dict) (k : String) :
    (pm = [] →
      gen_profile_id pm (.dict d) = .error (.valueError "min() arg is an empty sequence") ∧
      indexer_defaults pm k (.dict d) = .error (.valueError "min() arg is an empty sequence")) ∧
    (∀ i is_, pm.map Prod.snd = (i :: is_).map Val.int →
      (Val.int (is_.foldl min i) ∈ pm.map Prod.snd ∧
        (∀ j, Val.int j ∈ pm.map Prod.snd → is_.foldl min i ≤ j)) ∧
      (alook d "appProfileId" = none →
        gen_profile_id pm (.dict d) = .ok (.int (is_.foldl min i)) ∧
        indexer_defaults pm k (.dict d) =
          .ok (.dict (pyMerge d [("appProfileId", .int (is_.foldl min i))]))) ∧
      (∀ n, alook d "appProfileId" = some (.int n) → Val.int n ∉ pm.map Prod.snd →
        gen_profile_id pm (.dict d) = .ok (.int (is_.foldl min i)) ∧
        indexer_defaults pm k (.dict d) =
          .ok (.dict (pyMerge d [("appProfileId", .int (is_.foldl min i))])))) := by
  constructor
  · intro hempty
    subst hempty
    constructor
    · rfl
    · rfl
  · intro i is_ hids
    have hmem : Val.int (is_.foldl min i) ∈ pm.map Prod.snd := by
      rw [hids]
      rcases foldl_min_mem is_ i with h | h
      · rw [h]
        simp
      · simp only [List.map_cons, List.mem_cons]
        right
        exact List.mem_map_of_mem _ h
    have hle : ∀ j, Val.int j ∈ pm.map Prod.snd → is_.foldl min i ≤ j := by
      intro j hj
      rw [hids] at hj
      simp only [List.map_cons, List.mem_cons, List.mem_map] at hj
      rcases hj with hj | ⟨a, ha, hja⟩
      · have hji : j = i := by injection hj
        rw [hji]
        exact foldl_min_le_self is_ i
      · have haj : a = j := by injection hja
        rw [← haj]
        exact foldl_min_le_mem is_ i a ha
    have hmin : minVals (pm.map Prod.snd) = .ok (.int (is_.foldl min i)) := by
      rw [hids]
      exact minVals_ints i is_
    refine ⟨⟨hmem, hle⟩, ?_, ?_⟩
    · intro hnone
      have h1 : gen_profile_id pm (.dict d) = .ok (.int (is_.foldl min i)) := by
        simp only [gen_profile_id, hmin, hnone]
        rfl
      refine ⟨h1, ?_⟩
      simp only [indexer_defaults, h1]
      rfl
    · intro n hsome hnot
      have h1 : gen_profile_id pm (.dict d) = .ok (.int (is_.foldl min i)) := by
        simp only [gen_profile_id, hmin, hsome]
        simp [hnot]
      refine ⟨h1, ?_⟩
      simp only [indexer_defaults, h1]
      rfl

/-- Witness for `gen_profile_id_assigns_min`: two server profiles with
ids 7 and 3, both declared; an indexer with a stale integer id 9 is
assigned 3, and an indexer with no id is assigned 3. -/
theorem gen_profile_id_assigns_min_witness :
    gen_profile_id [("a", .int 7), ("b", .int 3)]
      (.dict [("appProfileId", .int 9)]) = .ok (.int 3) ∧
    gen_profile_id [("a", .int 7), ("b", .int 3)] (.dict []) = .ok (.int 3) := by
  have h := gen_profile_id_assigns_min
    [.dict [("name", .str "a"), ("id", .int 7)], .dict [("name", .str "b"), ("id", .int 3)]]
    (.dict [("a", .dict []), ("b", .dict [])])
    [("a", .int 7), ("b", .int 3)]
    (by decide)
    [("appProfileId", .int 9)] "i"
  have h2 := gen_profile_id_assigns_min
    [.dict [("name", .str "a"), ("id", .int 7)], .dict [("name", .str "b"), ("id", .int 3)]]
    (.dict [("a", .dict []), ("b", .dict [])])
    [("a", .int 7), ("b", .int 3)]
    (by decide)
    [] "i"
  constructor
  · exact ((h.2 7 [3] (by decide)).2.2 9 (by decide) (by decide)).1
  · exact ((h2.2 7 [3] (by decide)).2.1 (by decide)).1

/-! ## The RunsTo calculus -/

theorem RunsTo.bind {α β : Type} {x : M α} {f : α → M β} {s s1 s2 : St} {a : α} {b : β}
    (h1 : RunsTo x s a s1) (h2 : RunsTo (f a) s1 b s2) : RunsTo (x >>= f) s b s2 := by
  simp only [RunsTo, bind_def, M.bind] at *
  rw [h1]
  exact h2

theorem FailsTo.bind_left {α β : Type} {x : M α} {f : α → M β} {s s1 : St} {e : Err}
    (h1 : FailsTo x s e s1) : FailsTo (x >>= f) s e s1 := by
  simp only [FailsTo, bind_def, M.bind] at *
  rw [h1]

theorem FailsTo.bind_right {α β : Type} {x : M α} {f : α → M β} {s s1 s2 : St} {a : α} {e : Err}
    (h1 : RunsTo x s a s1) (h2 : FailsTo (f a) s1 e s2) : FailsTo (x >>= f) s e s2 := by
  simp only [RunsTo, FailsTo, bind_def, M.bind] at *
  rw [h1]
  exact h2

theorem RunsTo.pure_rt {α : Type} (a : α) (s : St) : RunsTo (M.pure a) s a s := rfl

theorem RunsTo.pure_rt' {α : Type} (a : α) (s : St) : RunsTo (pure a : M α) s a s := rfl

theorem RunsTo.ofExcept_rt {α : Type} {e : Except Err α} {a : α} (s : St) (h : e = .ok a) :
    RunsTo (M.ofExcept e) s a s := by
  rw [RunsTo, h]
  rfl

theorem FailsTo.ofExcept_ft {α : Type} {e : Except Err α} {er : Err} (s : St) (h : e = .error er) :
    FailsTo (M.ofExcept e) s er s := by
  rw [FailsTo, h]
  rfl

theorem FailsTo.throw {α : Type} (e : Err) (s : St) : FailsTo (M.throw e : M α) s e s := rfl

theorem RunsTo.req_rt {o : Oracle} {m : Method} {p : String} {b : Val} (s : St)
    (hok : o.ok ⟨m, p, b⟩ = true) :
    RunsTo (request o m p b) s (o.resp ⟨m, p, b⟩)
      { s with events := s.events ++ [.req ⟨m, p, b⟩] } := by
  simp [RunsTo, request, hok]

theorem RunsTo.getReq {o : Oracle} {p : String} (s : St)
    (hok : o.ok ⟨.get, p, .dict []⟩ = true) :
    RunsTo (getReq o p) s (o.resp ⟨.get, p, .dict []⟩)
      { s with events := s.events ++ [.req ⟨.get, p, .dict []⟩] } :=
  RunsTo.req_rt s hok

theorem RunsTo.putReq {o : Oracle} {p : String} {b : Val} (s : St)
    (hok : o.ok ⟨.put, p, b⟩ = true) :
    RunsTo (putReq o p b) s (o.resp ⟨.put, p, b⟩)
      { s with events := s.events ++ [.req ⟨.put, p, b⟩] } :=
  RunsTo.req_rt s hok

theorem RunsTo.postReq {o : Oracle} {p : String} {b : Val} (s : St)
    (hok : o.ok ⟨.post, p, b⟩ = true) :
    RunsTo (postReq o p b) s (o.resp ⟨.post, p, b⟩)
      { s with events := s.events ++ [.req ⟨.post, p, b⟩] } :=
  RunsTo.req_rt s hok

theorem FailsTo.req_ft {o : Oracle} {m : Method} {p : String} {b : Val} (s : St)
    (hbad : o.ok ⟨m, p, b⟩ = false) :
    FailsTo (request o m p b) s (.requestError p)
      { s with events := s.events ++ [.req ⟨m, p, b⟩] } := by
  simp [FailsTo, request, hbad]

theorem RunsTo.deferr {p : String} {b : Val} (s : St) :
    RunsTo (deferr_delete p b) s () { s with deferred := s.deferred ++ [(p, b)] } := rfl

theorem RunsTo.getTags {o : Oracle} (s : St) (hok : o.ok ⟨.get, "/tag", .dict []⟩ = true) :
    RunsTo (getTagsReq o) s s.tags { s with events := s.events ++ [getTagEv] } := by
  simp [RunsTo, getTagsReq, hok, getTagEv]

theorem RunsTo.postTag {o : Oracle} {t : String} (s : St)
    (hok : o.ok ⟨.post, "/tag", .dict [("label", .str t)]⟩ = true) :
    RunsTo (postTagReq o t) s ()
      { s with events := s.events ++ [postEv t],
               tags := s.tags ++ [(t, s.nextTagId)],
               nextTagId := s.nextTagId + 1 } := by
  simp [RunsTo, postTagReq, hok, postEv]

theorem RunsTo.getTagMap_rt (s : St) : RunsTo getTagMap s s.tagMap s := rfl

theorem RunsTo.getDeferred_rt (s : St) : RunsTo getDeferred s s.deferred s := rfl

theorem RunsTo.setTagMap_rt (m : List (String × Int)) (s : St) :
    RunsTo (setTagMap m) s () { s with tagMap := m } := rfl

/-! ## The run of `sync_tags` -/

theorem tagAppend_fst (ls : List String) : ∀ n : Int, (tagAppend n ls).map Prod.fst = ls := by
  induction ls with
  | nil => intro n; rfl
  | cons t ts ih =>
    intro n
    simp [tagAppend, ih]

theorem bind_ok_apply {α β : Type} {x : M α} {f : α → M β} {s s1 : St} {a : α}
    (h : x s = (.ok a, s1)) : (x >>= f) s = f a s1 := by
  simp only [bind_def, M.bind]
  rw [h]

theorem bind_err_apply {α β : Type} {x : M α} {f : α → M β} {s s1 : St} {e : Err}
    (h : x s = (.err e, s1)) : (x >>= f) s = (.err e, s1) := by
  simp only [bind_def, M.bind]
  rw [h]

theorem postMissingTags_run (o : Oracle) (ex : List String)
    (hok : ∀ r, o.ok r = true) : ∀ (ls : List String) (s : St),
    RunsTo (postMissingTags o ex ls) s ()
      { s with
        events := s.events ++ (ls.filter (fun t => t ∉ ex)).map postEv,
        tags := s.tags ++ tagAppend s.nextTagId (ls.filter (fun t => t ∉ ex)),
        nextTagId := s.nextTagId + (ls.filter (fun t => t ∉ ex)).length } := by
  intro ls
  induction ls with
  | nil =>
    intro s
    show postMissingTags o ex [] s = _
    simp only [postMissingTags, M.pure, List.filter_nil, List.map_nil, List.append_nil,
      tagAppend, List.length_nil]
    rw [show (s.nextTagId + ((0 : Nat) : Int)) = s.nextTagId from by omega]
  | cons t ts ih =>
    intro s
    show postMissingTags o ex (t :: ts) s = _
    simp only [postMissingTags]
    by_cases hmem : t ∈ ex
    · rw [if_pos hmem]
      rw [bind_ok_apply (show (M.pure () : M Unit) s = (.ok (), s) from rfl)]
      rw [ih s]
      simp [List.filter_cons, hmem]
    · rw [if_neg hmem]
      have hp := @RunsTo.postTag o t s (hok _)
      rw [RunsTo] at hp
      rw [bind_ok_apply hp]
      rw [ih { s with events := s.events ++ [postEv t], tags := s.tags ++ [(t, s.nextTagId)], nextTagId := s.nextTagId + 1 }]
      have hfil : ((t :: ts).filter (fun t => t ∉ ex)) = t :: (ts.filter (fun t => t ∉ ex)) := by
        simp [List.filter_cons, hmem]
      rw [hfil]
      simp only [Prod.mk.injEq, St.mk.injEq, List.map_cons, List.length_cons, tagAppend]
      simp [List.append_assoc]
      omega

theorem sync_tags_run (o : Oracle) (ty : String) (cfg : Dict) (s : St)
    (hok : ∀ r, o.ok r = true) (tags : List Val) (labels : List String)
    (hc : collect_tags ty cfg = .ok tags) (hl : tag_labels tags = .ok labels) :
    RunsTo (sync_tags o ty cfg) s ()
      { s with
        events := s.events ++ [getTagEv]
          ++ (labels.filter (fun t => t ∉ s.tags.map Prod.fst)).map postEv ++ [getTagEv],
        tags := s.tags
          ++ tagAppend s.nextTagId (labels.filter (fun t => t ∉ s.tags.map Prod.fst)),
        nextTagId := s.nextTagId
          + (labels.filter (fun t => t ∉ s.tags.map Prod.fst)).length,
        tagMap := buildTagMap (s.tags
          ++ tagAppend s.nextTagId (labels.filter (fun t => t ∉ s.tags.map Prod.fst))) } := by
  show sync_tags o ty cfg s = _
  simp only [sync_tags]
  rw [bind_ok_apply (show M.ofExcept (collect_tags ty cfg) s = (.ok tags, s) from by
    rw [hc]; rfl)]
  have hg1 := @RunsTo.getTags o s (hok _)
  rw [RunsTo] at hg1
  rw [bind_ok_apply hg1]
  rw [bind_ok_apply (show M.ofExcept (tag_labels tags)
    { s with events := s.events ++ [getTagEv] }
      = (.ok labels, { s with events := s.events ++ [getTagEv] }) from by rw [hl]; rfl)]
  have hpost := postMissingTags_run o (s.tags.map Prod.fst) hok labels
    { s with events := s.events ++ [getTagEv] }
  rw [RunsTo] at hpost
  rw [bind_ok_apply hpost]
  have hg2 := @RunsTo.getTags o
    { s with
      events := (s.events ++ [getTagEv])
        ++ (labels.filter (fun t => t ∉ s.tags.map Prod.fst)).map postEv,
      tags := s.tags
        ++ tagAppend s.nextTagId (labels.filter (fun t => t ∉ s.tags.map Prod.fst)),
      nextTagId := s.nextTagId
        + (labels.filter (fun t => t ∉ s.tags.map Prod.fst)).length } (hok _)
  rw [RunsTo] at hg2
  rw [bind_ok_apply hg2]
  rw [show ∀ m s2, setTagMap m s2 = (Res.ok (), { s2 with tagMap := m }) from fun m s2 => rfl]

/-! ## Claim C9: tag deduplication and idempotence -/

/-- C9 is refuted as stated: with desired labels `"HD"` and `"hd"` and an
empty server tag collection, one `sync_tags` run issues two creation
requests with the same lower-cased label `"hd"`, because `unique` runs
on the raw labels before lower-casing and the existing-label list is
not refreshed between loop iterations. -/
theorem sync_tags_case_dup_counterexample :
    ((sync_tags ⟨fun _ => .dict [], fun _ => true⟩ "sonarr"
        [("tag", .list [.str "HD", .str "hd"])]
        ⟨[], [], [], 1, []⟩).2.events.count (postEv "hd")) = 2 := by
  decide

/-- C9 amended: `sync_tags` issues exactly one tag-creation request per
entry of the deduplicated raw label list whose lower-casing is not
among the labels fetched before the loop — so labels differing only in
case each trigger their own request for the same lower-cased label —
and a second run against the resulting server state issues zero
creation requests. -/
theorem sync_tags_idempotent_dedup (o : Oracle) (ty : String) (cfg : Dict) (s : St)
    (hok : ∀ r, o.ok r = true) (tags : List Val) (labels : List String)
    (hc : collect_tags ty cfg = .ok tags) (hl : tag_labels tags = .ok labels) :
    (sync_tags o ty cfg s).2.events = s.events ++ [getTagEv]
      ++ (labels.filter (fun t => t ∉ s.tags.map Prod.fst)).map postEv ++ [getTagEv] ∧
    (sync_tags o ty cfg (sync_tags o ty cfg s).2).2.events
      = (sync_tags o ty cfg s).2.events ++ [getTagEv] ++ [getTagEv] := by
  have h1 := sync_tags_run o ty cfg s hok tags labels hc hl
  rw [RunsTo] at h1
  constructor
  · rw [h1]
  · have h2 := sync_tags_run o ty cfg (sync_tags o ty cfg s).2 hok tags labels hc hl
    rw [RunsTo] at h2
    rw [h2]
    have hfst : (sync_tags o ty cfg s).2.tags.map Prod.fst
        = s.tags.map Prod.fst ++ labels.filter (fun t => t ∉ s.tags.map Prod.fst) := by
      rw [h1]
      simp [tagAppend_fst]
    have hnil : labels.filter
        (fun t => t ∉ (sync_tags o ty cfg s).2.tags.map Prod.fst) = [] := by
      apply List.filter_eq_nil_iff.mpr
      intro t ht
      rw [hfst]
      simp only [decide_eq_true_eq, Decidable.not_not]
      by_cases hmem : t ∈ List.map Prod.fst s.tags
      · exact List.mem_append.mpr (Or.inl hmem)
      · refine List.mem_append.mpr (Or.inr ?_)
        rw [List.mem_filter]
        exact ⟨ht, by simp [hmem]⟩
    rw [hnil]
    simp

/-- Witness for `sync_tags_idempotent_dedup` at a concrete
configuration with labels `"HD"` and `"hd"` and an empty server. -/
theorem sync_tags_idempotent_dedup_witness :
    (sync_tags ⟨fun _ => .dict [], fun _ => true⟩ "sonarr"
        [("tag", .list [.str "HD", .str "hd"])] ⟨[], [], [], 1, []⟩).2.events
      = [getTagEv, postEv "hd", postEv "hd", getTagEv] ∧
    (sync_tags ⟨fun _ => .dict [], fun _ => true⟩ "sonarr"
        [("tag", .list [.str "HD", .str "hd"])]
        (sync_tags ⟨fun _ => .dict [], fun _ => true⟩ "sonarr"
          [("tag", .list [.str "HD", .str "hd"])] ⟨[], [], [], 1, []⟩).2).2.events
      = (sync_tags ⟨fun _ => .dict [], fun _ => true⟩ "sonarr"
          [("tag", .list [.str "HD", .str "hd"])] ⟨[], [], [], 1, []⟩).2.events
        ++ [getTagEv] ++ [getTagEv] := by
  have h := sync_tags_idempotent_dedup ⟨fun _ => .dict [], fun _ => true⟩ "sonarr"
    [("tag", .list [.str "HD", .str "hd"])] ⟨[], [], [], 1, []⟩
    (fun _ => rfl) [.str "HD", .str "hd"] ["hd", "hd"] (by decide) (by decide)
  refine ⟨?_, h.2⟩
  rw [h.1]
  decide

/-! ## Claim C6: tag-map coverage of the collected labels -/

theorem alook_cons {β : Type} (k2 : String) (v : β) (l : List (String × β)) (k : String) :
    alook ((k2, v) :: l) k = if k2 = k then some v else alook l k := rfl

theorem alook_map_set_other {β : Type} (d : List (String × β)) (k k2 : String) (v : β)
    (hne : k2 ≠ k) :
    alook (d.map (fun p => if p.1 = k then (k, v) else p)) k2 = alook d k2 := by
  induction d with
  | nil => rfl
  | cons p rest ih =>
    obtain ⟨k3, v3⟩ := p
    simp only [List.map_cons]
    by_cases hk : k3 = k
    · subst hk
      rw [if_pos rfl]
      have hne2 : ¬ k3 = k2 := fun hh => hne hh.symm
      simp only [alook_cons, if_neg hne2]
      exact ih
    · rw [if_neg hk]
      by_cases h2 : k3 = k2
      · simp only [alook_cons, if_pos h2]
      · simp only [alook_cons, if_neg h2]
        exact ih

theorem alook_aset_other {β : Type} (d : List (String × β)) (k k2 : String) (v : β)
    (hne : k2 ≠ k) : alook (aset d k v) k2 = alook d k2 := by
  by_cases h : (alook d k).isSome
  · simp only [aset, h, if_true]
    exact alook_map_set_other d k k2 v hne
  · rw [Option.not_isSome_iff_eq_none] at h
    simp only [aset, h, Option.isSome_none, Bool.false_eq_true, if_false]
    rw [alook_append]
    cases h2 : alook d k2 with
    | some v2 => rfl
    | none =>
      simp [alook]
      exact fun hh => hne hh.symm

/-- Key membership in the label-to-id dict comprehension. -/
theorem buildTagMap_keys (ts : List (String × Int)) (l : String) :
    (alook (buildTagMap ts) l).isSome ↔ l ∈ ts.map Prod.fst := by
  suffices h : ∀ acc : List (String × Int),
      (alook (ts.foldl (fun acc p => aset acc p.1 p.2) acc) l).isSome
        ↔ (alook acc l).isSome ∨ l ∈ ts.map Prod.fst by
    have := h []
    simpa [buildTagMap, alook] using this
  induction ts with
  | nil => intro acc; simp [alook]
  | cons p rest ih =>
    intro acc
    obtain ⟨k, v⟩ := p
    simp only [List.foldl_cons, List.map_cons, List.mem_cons]
    rw [ih (aset acc k v)]
    by_cases hk : l = k
    · subst hk
      simp [alook_aset_self]
    · rw [alook_aset_other acc k l v hk]
      constructor
      · rintro (h | h)
        · exact Or.inl h
        · exact Or.inr (Or.inr h)
      · rintro (h | h | h)
        · exact Or.inl h
        · exact absurd h hk
        · exact Or.inr h

/-- Membership is preserved by `unique`. -/
theorem mem_unique {x : Val} {xs : List Val} (h : x ∈ xs) : x ∈ unique xs := by
  suffices hgen : ∀ acc : List Val, x ∈ xs ∨ x ∈ acc →
      x ∈ xs.foldl (fun acc y => if y ∈ acc then acc else acc ++ [y]) acc from
    hgen [] (Or.inl h)
  clear h
  induction xs with
  | nil =>
    intro acc h
    rcases h with h | h
    · exact absurd h (List.not_mem_nil x)
    · exact h
  | cons y ys ih =>
    intro acc h
    simp only [List.foldl_cons]
    by_cases hy : y ∈ acc
    · rw [if_pos hy]
      apply ih
      rcases h with h | h
      · rcases List.mem_cons.mp h with h | h
        · exact Or.inr (h ▸ hy)
        · exact Or.inl h
      · exact Or.inr h
    · rw [if_neg hy]
      apply ih
      rcases h with h | h
      · rcases List.mem_cons.mp h with h | h
        · exact Or.inr (by simp [h])
        · exact Or.inl h
      · exact Or.inr (by simp [h])

/-- A successful `mapM` over `Except` sends every input to some output
in the result list. -/
theorem mapM_mem_except {α β : Type} (f : α → Except Err β) :
    ∀ (l : List α) (r : List β), l.mapM f = .ok r →
      ∀ x ∈ l, ∃ y, f x = .ok y ∧ y ∈ r := by
  intro l
  induction l with
  | nil =>
    intro r _ x hx
    exact absurd hx (List.not_mem_nil x)
  | cons a t ih =>
    intro r hr x hx
    rw [List.mapM_cons] at hr
    cases hfa : f a with
    | error e =>
      rw [hfa] at hr
      simp [Except.bind] at hr
      cases hr
    | ok b =>
      rw [hfa] at hr
      cases hrest : t.mapM f with
      | error e =>
        rw [hrest] at hr
        simp [Except.bind] at hr
        cases hr
      | ok rs =>
        rw [hrest] at hr
        have : r = b :: rs := by
          simp [Except.bind] at hr
          cases hr
          rfl
        subst this
        rcases List.mem_cons.mp hx with h | h
        · exact ⟨b, h ▸ hfa, List.mem_cons_self _ _⟩
        · obtain ⟨y, hy1, hy2⟩ := ih rs hrest x h
          exact ⟨y, hy1, List.mem_cons_of_mem _ hy2⟩

/-- C6 is refuted as stated: a tag label referenced only inside the
`notification` collection is not collected by `sync_tags` (the
collection loop scans only `indexer`, `indexerProxy`, `downloadClient`
and `applications`), so after `sync_tags` it has no entry in the
resulting tag map. -/
theorem notification_tags_uncollected_counterexample :
    collect_tags "sonarr"
        [("notification", .dict [("n", .dict [("tags", .list [.str "foo"])])])]
      = .ok [] ∧
    alook (sync_tags ⟨fun _ => .dict [], fun _ => true⟩ "sonarr"
        [("notification", .dict [("n", .dict [("tags", .list [.str "foo"])])])]
        ⟨[], [], [], 1, []⟩).2.tagMap "foo" = none := by
  decide

/-- C6 amended: after `sync_tags` runs, every label it collects — the
top-level `tag` list plus the `tags` fields of the `indexer`,
`indexerProxy`, `downloadClient` and `applications` collections, plus
the Lidarr `rootFolder` `defaultTags` — has, after lower-casing, an
entry in the resulting tag map; labels referenced only elsewhere (for
example in notifications) are not covered. -/
theorem sync_tags_map_covers_collected (o : Oracle) (ty : String) (cfg : Dict) (s : St)
    (hok : ∀ r, o.ok r = true) (tags : List Val) (labels : List String)
    (hc : collect_tags ty cfg = .ok tags) (hl : tag_labels tags = .ok labels) :
    ∀ v ∈ tags, ∃ l, lowerVal v = .ok l ∧
      (alook (sync_tags o ty cfg s).2.tagMap l).isSome := by
  intro v hv
  have hvu : v ∈ unique tags := mem_unique hv
  obtain ⟨l, hfl, hlmem⟩ := mapM_mem_except lowerVal (unique tags) labels hl v hvu
  refine ⟨l, hfl, ?_⟩
  have hrun := sync_tags_run o ty cfg s hok tags labels hc hl
  rw [RunsTo] at hrun
  rw [hrun]
  rw [buildTagMap_keys]
  rw [List.map_append, tagAppend_fst]
  by_cases hmem : l ∈ List.map Prod.fst s.tags
  · exact List.mem_append.mpr (Or.inl hmem)
  · refine List.mem_append.mpr (Or.inr ?_)
    rw [List.mem_filter]
    exact ⟨hlmem, by simp [hmem]⟩

/-- Witness for `sync_tags_map_covers_collected`: a configuration
referencing label `"HD"` in a download client; after the run the map
has an entry for `"hd"`. -/
theorem sync_tags_map_covers_collected_witness :
    ∃ l, lowerVal (.str "HD") = .ok l ∧
      (alook (sync_tags ⟨fun _ => .dict [], fun _ => true⟩ "sonarr"
          [("downloadClient", .dict [("a", .dict [("tags", .list [.str "HD"])])])]
          ⟨[], [], [], 1, []⟩).2.tagMap l).isSome := by
  exact sync_tags_map_covers_collected ⟨fun _ => .dict [], fun _ => true⟩ "sonarr"
    [("downloadClient", .dict [("a", .dict [("tags", .list [.str "HD"])])])]
    ⟨[], [], [], 1, []⟩ (fun _ => rfl) [.str "HD"] ["hd"] (by decide) (by decide)
    (.str "HD") (by decide)

/-! ## Claim C5: mutation of the caller's configuration -/

/-- C5 is refuted: `sync_tags` extends the caller's top-level `tag` list
object in place (`tags = self.cfg.get("tag", [])` aliases it and
`tags += ...` extends it), so after `sync` the caller's configuration
has changed: here the empty declared tag list has grown by the nested
label `"x"`. -/
theorem sync_mutates_cfg_counterexample :
    sync_tags_cfg_after "sonarr"
        [("tag", .list []),
         ("downloadClient", .dict [("a", .dict [("tags", .list [.str "x"])])])]
      = .ok [("tag", .list [.str "x"]),
             ("downloadClient", .dict [("a", .dict [("tags", .list [.str "x"])])])] ∧
    ([("tag", Val.list [.str "x"]),
      ("downloadClient", Val.dict [("a", .dict [("tags", .list [.str "x"])])])] : Dict)
      ≠ [("tag", .list []),
         ("downloadClient", .dict [("a", .dict [("tags", .list [.str "x"])])])] := by
  decide

/-- C5 amended: one `sync` invocation can mutate the caller's
configuration: `sync_tags` appends every collected nested tag label to
the caller's top-level `tag` list in place (and `recursive_sync` pops
`__req` markers from settings nodes).  The configuration is left
unchanged by `sync_tags` exactly when the `tag` key is absent or no
nested labels are collected. -/
theorem sync_tags_mutation_characterization (ty : String) (cfg cfg2 : Dict)
    (hnd : (cfg.map Prod.fst).Nodup)
    (h : sync_tags_cfg_after ty cfg = .ok cfg2) :
    cfg2 = cfg ↔ (alook cfg "tag" = none ∨ nested_tags ty cfg = .ok []) := by
  unfold sync_tags_cfg_after at h
  cases htag : alook cfg "tag" with
  | none =>
    rw [htag] at h
    cases hnt : nested_tags ty cfg with
    | error e =>
      rw [hnt] at h
      cases h
    | ok nt =>
      rw [hnt] at h
      simp only [Except.bind] at h
      have : cfg2 = cfg := by
        cases h
        rfl
      simp [this, htag]
  | some tv =>
    rw [htag] at h
    cases tv with
    | list orig =>
      cases hnt : nested_tags ty cfg with
      | error e =>
        rw [hnt] at h
        cases h
      | ok nt =>
        rw [hnt] at h
        simp only [Except.bind] at h
        have hc2 : cfg2 = aset cfg "tag" (.list (orig ++ nt)) := by
          cases h
          rfl
        constructor
        · intro heq
          right
          rw [heq] at hc2
          have halook := alook_aset_self cfg "tag" (Val.list (orig ++ nt))
          rw [← hc2, htag] at halook
          have hl : Val.list orig = Val.list (orig ++ nt) := by
            injection halook
          have happ : orig = orig ++ nt := Val.list.inj hl
          have hlen := congrArg List.length happ.symm
          simp [List.length_append] at hlen
          rw [hlen]
        · rintro (hcontra | hok2)
          · cases hcontra
          · have hnil : nt = [] := by
              injection hok2
            rw [hc2, hnil, List.append_nil]
            exact aset_self hnd htag
    | null => cases h
    | int n => cases h
    | str s2 => cases h
    | bool b => cases h
    | dict d2 => cases h

/-- Witness for `sync_tags_mutation_characterization`: with a declared
tag list present and a nested label collected, the configuration after
`sync_tags` differs from the caller's original. -/
theorem sync_tags_mutation_characterization_witness :
    ([("tag", Val.list [.str "x"]),
      ("downloadClient", Val.dict [("a", .dict [("tags", .list [.str "x"])])])] : Dict)
      ≠ [("tag", .list []),
         ("downloadClient", .dict [("a", .dict [("tags", .list [.str "x"])])])] := by
  have h := sync_tags_mutation_characterization "sonarr"
    [("tag", .list []),
     ("downloadClient", .dict [("a", .dict [("tags", .list [.str "x"])])])]
    [("tag", .list [.str "x"]),
     ("downloadClient", .dict [("a", .dict [("tags", .list [.str "x"])])])]
    (by decide) (by decide)
  intro heq
  rcases h.mp heq with h2 | h2
  · cases h2
  · cases h2

/-! ## Claims C1 and C7: the collection reconciler -/

theorem map_values_keys (f : String → Val → Except Err Val) :
    ∀ (d d2 : Dict), map_values d f = .ok d2 → d2.map Prod.fst = d.map Prod.fst := by
  intro d
  induction d with
  | nil =>
    intro d2 h
    cases h
    rfl
  | cons p rest ih =>
    intro d2 h
    obtain ⟨k, v⟩ := p
    simp only [map_values] at h
    cases hf : f k v with
    | error e =>
      rw [hf] at h
      cases h
    | ok v2 =>
      rw [hf] at h
      cases hrest : map_values rest f with
      | error e =>
        rw [hrest] at h
        cases h
      | ok r2 =>
        rw [hrest] at h
        have hd2 : d2 = (k, v2) :: r2 := by
          cases h
          rfl
        subst hd2
        simp [ih r2 hrest]

theorem map_values_alook (f : String → Val → Except Err Val) :
    ∀ (d d2 : Dict), map_values d f = .ok d2 →
    ∀ (k : String) (v : Val), alook d k = some v →
      ∃ v2, f k v = .ok v2 ∧ alook d2 k = some v2 := by
  intro d
  induction d with
  | nil =>
    intro d2 h k v hv
    simp [alook] at hv
  | cons p rest ih =>
    intro d2 h k v hv
    obtain ⟨k1, v1⟩ := p
    simp only [map_values] at h
    cases hf : f k1 v1 with
    | error e =>
      rw [hf] at h
      cases h
    | ok v2 =>
      rw [hf] at h
      cases hrest : map_values rest f with
      | error e =>
        rw [hrest] at h
        cases h
      | ok r2 =>
        rw [hrest] at h
        have hd2 : d2 = (k1, v2) :: r2 := by
          cases h
          rfl
        subst hd2
        by_cases hk : k1 = k
        · subst hk
          rw [alook_cons, if_pos rfl] at hv ⊢
          have hvv : v1 = v := by injection hv
          subst hvv
          exact ⟨v2, hf, rfl⟩
        · rw [alook_cons, if_neg hk] at hv ⊢
          exact ih r2 hrest k v hv

theorem map_values_mem_rev (f : String → Val → Except Err Val) :
    ∀ (d d2 : Dict), map_values d f = .ok d2 →
    ∀ q ∈ d2, ∃ v, (q.1, v) ∈ d ∧ f q.1 v = .ok q.2 := by
  intro d
  induction d with
  | nil =>
    intro d2 h q hq
    cases h
    cases hq
  | cons p rest ih =>
    intro d2 h q hq
    obtain ⟨k1, v1⟩ := p
    simp only [map_values] at h
    cases hf : f k1 v1 with
    | error e =>
      rw [hf] at h
      cases h
    | ok v2 =>
      rw [hf] at h
      cases hrest : map_values rest f with
      | error e =>
        rw [hrest] at h
        cases h
      | ok r2 =>
        rw [hrest] at h
        have hd2 : d2 = (k1, v2) :: r2 := by
          cases h
          rfl
        subst hd2
        rcases List.mem_cons.mp hq with hq | hq
        · subst hq
          exact ⟨v1, List.mem_cons_self _ _, hf⟩
        · obtain ⟨v, hv1, hv2⟩ := ih r2 hrest q hq
          exact ⟨v, List.mem_cons_of_mem _ hv1, hv2⟩

theorem queueDeletes_run (p : String) (c : Dict) :
    ∀ (ex : List (String × Val)) (s : St),
    (∀ q ∈ ex, (alook c q.1).isNone = true → ∃ d, q.2 = Val.dict d ∧ (alook d "id").isSome) →
    RunsTo (queueDeletes p c ex) s ()
      { s with deferred := s.deferred ++ plannedDeletes p c ex } := by
  intro ex
  induction ex with
  | nil =>
    intro s _
    show queueDeletes p c [] s = _
    simp [queueDeletes, plannedDeletes, M.pure]
  | cons q rest ih =>
    intro s hwf
    obtain ⟨name, dat⟩ := q
    show queueDeletes p c ((name, dat) :: rest) s = _
    simp only [queueDeletes]
    by_cases hmem : (alook c name).isNone
    · obtain ⟨d, hd0, hid⟩ := hwf (name, dat) (List.mem_cons_self _ _) hmem
      have hd : dat = Val.dict d := hd0
      obtain ⟨idv, hidv⟩ := Option.isSome_iff_exists.mp hid
      have hidx : indexVal dat "id" = .ok idv := by
        rw [hd]
        simp [indexVal, hidv]
      rw [if_pos hmem]
      rw [bind_ok_apply (show M.ofExcept (indexVal dat "id") s = (.ok idv, s) from by
        rw [hidx]; rfl)]
      rw [bind_ok_apply (show deferr_delete (p ++ "/" ++ pyStr idv) Val.null s
        = (Res.ok (), { s with deferred := s.deferred ++ [(p ++ "/" ++ pyStr idv, Val.null)] })
        from rfl)]
      rw [ih { s with deferred := s.deferred ++ [(p ++ "/" ++ pyStr idv, Val.null)] }
        (fun q hq hq2 => hwf q (List.mem_cons_of_mem _ hq) hq2)]
      have hplan : plannedDeletes p c ((name, dat) :: rest)
          = (p ++ "/" ++ pyStr (resId dat), Val.null) :: plannedDeletes p c rest := by
        simp [plannedDeletes, List.filter_cons, hmem]
      rw [hplan]
      have hres : resId dat = idv := by
        rw [hd]
        simp [resId, hidv]
      rw [hres]
      simp [List.append_assoc]
    · rw [if_neg hmem]
      rw [bind_ok_apply (show (M.pure () : M Unit) s = (.ok (), s) from rfl)]
      rw [ih s (fun q hq hq2 => hwf q (List.mem_cons_of_mem _ hq) hq2)]
      have hplan : plannedDeletes p c ((name, dat) :: rest) = plannedDeletes p c rest := by
        simp only [Bool.not_eq_true] at hmem
        simp [plannedDeletes, List.filter_cons, hmem]
      rw [hplan]

theorem sync_resources_attempt_eval (o : Oracle) (p : String) (existing : Dict)
    (name : String) (dat : Val) (s : St)
    (hex : ∀ q ∈ existing, ∃ d, q.2 = Val.dict d ∧ (alook d "id").isSome)
    (hdat : ∃ dd, dat = Val.dict dd) :
    sync_resources_attempt o p existing name dat s
      = ((if o.ok (plannedReq p existing name dat) then
            Res.ok (o.resp (plannedReq p existing name dat))
          else Res.err (.requestError (plannedReq p existing name dat).path)),
         { s with events := s.events ++ [.req (plannedReq p existing name dat)] }) := by
  obtain ⟨dd, hdd⟩ := hdat
  cases he : alook existing name with
  | none =>
    simp only [sync_resources_attempt, he, plannedReq, postReq, request]
    by_cases hok : o.ok ⟨.post, p, dat⟩
    · simp [hok]
    · simp [hok]
  | some e =>
    obtain ⟨ed, hed, hid⟩ := hex (name, e) (alook_mem he)
    have hede : e = Val.dict ed := hed
    obtain ⟨idv, hidv⟩ := Option.isSome_iff_exists.mp hid
    have hidx : indexVal e "id" = .ok idv := by
      rw [hede]
      simp [indexVal, hidv]
    have hres : resId e = idv := by
      rw [hede]
      simp [resId, hidv]
    simp only [sync_resources_attempt, he]
    rw [bind_ok_apply (show M.ofExcept (indexVal e "id") s = (.ok idv, s) from by
      rw [hidx]; rfl)]
    rw [bind_ok_apply (show M.ofExcept (asDict e) s = (.ok ed, s) from by
      rw [hede]; rfl)]
    rw [bind_ok_apply (show M.ofExcept (asDict dat) s = (.ok dd, s) from by
      rw [hdd]; rfl)]
    simp only [plannedReq, he, putReq, request, hres]
    have hdct : dictOf e = ed := by
      rw [hede]
      rfl
    have hdct2 : dictOf dat = dd := by
      rw [hdd]
      rfl
    rw [hdct, hdct2]
    by_cases hok : o.ok ⟨.put, p ++ "/" ++ pyStr idv, .dict (pyMerge ed dd)⟩
    · simp [hok]
    · simp [hok]

theorem sync_resources_apply_all_ok (o : Oracle) (p : String) (existing : Dict) (ae : Bool)
    (hex : ∀ q ∈ existing, ∃ d, q.2 = Val.dict d ∧ (alook d "id").isSome) :
    ∀ (l : List (String × Val)) (s : St),
    (∀ q ∈ l, ∃ dd, q.2 = Val.dict dd) →
    (∀ q ∈ l, o.ok (plannedReq p existing q.1 q.2) = true) →
    RunsTo (sync_resources_apply o p existing ae l) s ()
      { s with events := s.events ++ l.map (fun q => .req (plannedReq p existing q.1 q.2)) } := by
  intro l
  induction l with
  | nil =>
    intro s _ _
    show sync_resources_apply o p existing ae [] s = _
    simp [sync_resources_apply, M.pure]
  | cons q rest ih =>
    intro s hdicts hoks
    obtain ⟨name, dat⟩ := q
    show sync_resources_apply o p existing ae ((name, dat) :: rest) s = _
    simp only [sync_resources_apply]
    rw [sync_resources_attempt_eval o p existing name dat s hex
      (hdicts (name, dat) (List.mem_cons_self _ _))]
    rw [if_pos (hoks (name, dat) (List.mem_cons_self _ _))]
    show sync_resources_apply o p existing ae rest
      { s with events := s.events ++ [.req (plannedReq p existing name dat)] } = _
    rw [ih { s with events := s.events ++ [.req (plannedReq p existing name dat)] }
      (fun q hq => hdicts q (List.mem_cons_of_mem _ hq))
      (fun q hq => hoks q (List.mem_cons_of_mem _ hq))]
    simp [List.append_assoc]

theorem sync_resources_apply_allow_error (o : Oracle) (p : String) (existing : Dict)
    (hex : ∀ q ∈ existing, ∃ d, q.2 = Val.dict d ∧ (alook d "id").isSome) :
    ∀ (l : List (String × Val)) (s : St),
    (∀ q ∈ l, ∃ dd, q.2 = Val.dict dd) →
    RunsTo (sync_resources_apply o p existing true l) s ()
      { s with events := s.events ++ l.map (fun q => .req (plannedReq p existing q.1 q.2)) } := by
  intro l
  induction l with
  | nil =>
    intro s _
    show sync_resources_apply o p existing true [] s = _
    simp [sync_resources_apply, M.pure]
  | cons q rest ih =>
    intro s hdicts
    obtain ⟨name, dat⟩ := q
    show sync_resources_apply o p existing true ((name, dat) :: rest) s = _
    simp only [sync_resources_apply]
    rw [sync_resources_attempt_eval o p existing name dat s hex
      (hdicts (name, dat) (List.mem_cons_self _ _))]
    by_cases hok : o.ok (plannedReq p existing name dat)
    · rw [if_pos hok]
      show sync_resources_apply o p existing true rest
        { s with events := s.events ++ [.req (plannedReq p existing name dat)] } = _
      rw [ih { s with events := s.events ++ [.req (plannedReq p existing name dat)] }
        (fun q hq => hdicts q (List.mem_cons_of_mem _ hq))]
      simp [List.append_assoc]
    · rw [if_neg hok]
      show sync_resources_apply o p existing true rest
        { s with events := s.events ++ [.req (plannedReq p existing name dat)] } = _
      rw [ih { s with events := s.events ++ [.req (plannedReq p existing name dat)] }
        (fun q hq => hdicts q (List.mem_cons_of_mem _ hq))]
      simp [List.append_assoc]

theorem sync_resources_apply_first_fail (o : Oracle) (p : String) (existing : Dict)
    (hex : ∀ q ∈ existing, ∃ d, q.2 = Val.dict d ∧ (alook d "id").isSome) :
    ∀ (l1 : List (String × Val)) (kf : String) (vf : Val) (l2 : List (String × Val)) (s : St),
    (∀ q ∈ l1 ++ [(kf, vf)], ∃ dd, q.2 = Val.dict dd) →
    (∀ q ∈ l1, o.ok (plannedReq p existing q.1 q.2) = true) →
    o.ok (plannedReq p existing kf vf) = false →
    FailsTo (sync_resources_apply o p existing false (l1 ++ (kf, vf) :: l2)) s
      (.requestError (plannedReq p existing kf vf).path)
      { s with events := s.events
        ++ (l1 ++ [(kf, vf)]).map (fun q => .req (plannedReq p existing q.1 q.2)) } := by
  intro l1
  induction l1 with
  | nil =>
    intro kf vf l2 s hdicts _ hbad
    show sync_resources_apply o p existing false ((kf, vf) :: l2) s = _
    simp only [sync_resources_apply]
    rw [sync_resources_attempt_eval o p existing kf vf s hex
      (hdicts (kf, vf) (by simp))]
    rw [if_neg (by simp [hbad])]
    show ((Res.err (Err.requestError (plannedReq p existing kf vf).path), { s with
      events := s.events ++ [Ev.req (plannedReq p existing kf vf)] }) : Res Unit × St) = _
    simp
  | cons q rest ih =>
    intro kf vf l2 s hdicts hoks hbad
    obtain ⟨name, dat⟩ := q
    show sync_resources_apply o p existing false (((name, dat) :: rest) ++ (kf, vf) :: l2) s = _
    simp only [List.cons_append, sync_resources_apply]
    rw [sync_resources_attempt_eval o p existing name dat s hex
      (hdicts (name, dat) (by simp))]
    rw [if_pos (hoks (name, dat) (List.mem_cons_self _ _))]
    show sync_resources_apply o p existing false (rest ++ (kf, vf) :: l2)
      { s with events := s.events ++ [.req (plannedReq p existing name dat)] } = _
    rw [ih kf vf l2 { s with events := s.events ++ [.req (plannedReq p existing name dat)] }
      (fun q hq => hdicts q (by
        rcases List.mem_append.mp hq with h | h
        · exact List.mem_append.mpr (Or.inl (List.mem_cons_of_mem _ h))
        · exact List.mem_append.mpr (Or.inr h)))
      (fun q hq => hoks q (List.mem_cons_of_mem _ hq)) hbad]
    simp [List.append_assoc]

theorem str_append_left_cancel {a b c : String} (h : a ++ b = a ++ c) : b = c := by
  have hd := congrArg String.data h
  simp only [String.data_append] at hd
  have := List.append_cancel_left hd
  cases b
  cases c
  simp_all

theorem alook_of_mem_nodup {β : Type} {l : List (String × β)} {k : String} {a : β}
    (hnd : (l.map Prod.fst).Nodup) (hmem : (k, a) ∈ l) : alook l k = some a := by
  induction l with
  | nil => cases hmem
  | cons p rest ih =>
    obtain ⟨k1, v1⟩ := p
    simp only [List.map_cons, List.nodup_cons] at hnd
    rcases List.mem_cons.mp hmem with h | h
    · have hk : k1 = k := (congrArg Prod.fst h).symm
      have hv : v1 = a := (congrArg Prod.snd h).symm
      rw [alook_cons, if_pos hk, hv]
    · have hk : ¬ k1 = k := by
        intro hh
        subst hh
        exact hnd.1 (List.mem_map_of_mem Prod.fst h)
      rw [alook_cons, if_neg hk]
      exact ih hnd.2 h

theorem count_map_eq_one {α β : Type} [BEq β] [LawfulBEq β]
    (l : List α) (f : α → β) (x : α) (hx : x ∈ l) (hnd : l.Nodup)
    (hinj : ∀ y ∈ l, f y = f x → y = x) :
    (l.map f).count (f x) = 1 := by
  induction l with
  | nil => cases hx
  | cons a t ih =>
    simp only [List.map_cons, List.count_cons]
    rcases List.mem_cons.mp hx with hxa | hxt
    · subst hxa
      have h0 : (t.map f).count (f x) = 0 := by
        rw [List.count_eq_zero]
        intro hmem
        obtain ⟨y, hyt, hyf⟩ := List.mem_map.mp hmem
        have := hinj y (List.mem_cons_of_mem _ hyt) hyf
        subst this
        exact (List.nodup_cons.mp hnd).1 hyt
      rw [h0]
      simp
    · have hne : ¬ (f x = f a) := by
        intro hh
        have := hinj a (List.mem_cons_self _ _) hh.symm
        subst this
        exact (List.nodup_cons.mp hnd).1 hxt
      rw [ih hxt (List.nodup_cons.mp hnd).2
        (fun y hy hfy => hinj y (List.mem_cons_of_mem _ hy) hfy)]
      have hne2 : ¬ (f a = f x) := fun hh => hne hh.symm
      simp [hne2]

theorem inject_name_dict {k : String} {v w : Val} (h : inject_name k v = .ok w) :
    ∃ d, w = Val.dict d := by
  cases v with
  | dict d =>
    simp only [inject_name] at h
    injection h with h2
    exact ⟨pyMerge [("name", .str k)] d, h2.symm⟩
  | null => cases h
  | int n => cases h
  | str s => cases h
  | bool b => cases h
  | list l => cases h

theorem sync_resources_run (o : Oracle) (p : String) (c : Dict)
    (defaults : String → Val → Except Err Val) (ae : Bool) (key : String) (s : St)
    (respL : List Val) (existing c1 c2 : Dict)
    (hget : o.ok ⟨.get, p, .dict []⟩ = true)
    (hresp : o.resp ⟨.get, p, .dict []⟩ = .list respL)
    (hex : to_dict respL key = .ok existing)
    (hexwf : ∀ q ∈ existing, ∃ d, q.2 = Val.dict d ∧ (alook d "id").isSome)
    (hdef : map_values c defaults = .ok c1)
    (hinj : map_values c1 inject_name = .ok c2)
    (hoks : ∀ q ∈ c2, o.ok (plannedReq p existing q.1 q.2) = true) :
    RunsTo (sync_resources o p (.dict c) defaults ae key) s ()
      { s with
        events := s.events ++ [getEv p]
          ++ c2.map (fun q => .req (plannedReq p existing q.1 q.2)),
        deferred := s.deferred ++ plannedDeletes p c existing } := by
  have hc2dicts : ∀ q ∈ c2, ∃ dd, q.2 = Val.dict dd := by
    intro q hq
    obtain ⟨v, _, hfv⟩ := map_values_mem_rev inject_name c1 c2 hinj q hq
    exact inject_name_dict hfv
  show sync_resources o p (.dict c) defaults ae key s = _
  simp only [sync_resources]
  have hg := @RunsTo.getReq o p s hget
  rw [RunsTo] at hg
  rw [bind_ok_apply hg]
  rw [bind_ok_apply (show M.ofExcept (asList (o.resp ⟨.get, p, .dict []⟩))
    { s with events := s.events ++ [.req ⟨.get, p, .dict []⟩] }
      = (.ok respL, { s with events := s.events ++ [.req ⟨.get, p, .dict []⟩] }) from by
    rw [hresp]; rfl)]
  rw [bind_ok_apply (show M.ofExcept (to_dict respL key)
    { s with events := s.events ++ [.req ⟨.get, p, .dict []⟩] }
      = (.ok existing, { s with events := s.events ++ [.req ⟨.get, p, .dict []⟩] }) from by
    rw [hex]; rfl)]
  have hq := queueDeletes_run p c existing
    { s with events := s.events ++ [.req ⟨.get, p, .dict []⟩] }
    (fun q hq _ => hexwf q hq)
  rw [RunsTo] at hq
  rw [bind_ok_apply hq]
  rw [bind_ok_apply (show M.ofExcept (map_values c defaults) { s with events := s.events ++ [.req ⟨.get, p, .dict []⟩], deferred := s.deferred ++ plannedDeletes p c existing } = (.ok c1, { s with events := s.events ++ [.req ⟨.get, p, .dict []⟩], deferred := s.deferred ++ plannedDeletes p c existing }) from by rw [hdef]; rfl)]
  rw [bind_ok_apply (show M.ofExcept (map_values c1 inject_name) { s with events := s.events ++ [.req ⟨.get, p, .dict []⟩], deferred := s.deferred ++ plannedDeletes p c existing } = (.ok c2, { s with events := s.events ++ [.req ⟨.get, p, .dict []⟩], deferred := s.deferred ++ plannedDeletes p c existing }) from by rw [hinj]; rfl)]
  rw [sync_resources_apply_all_ok o p existing ae hexwf c2 { s with events := s.events ++ [.req ⟨.get, p, .dict []⟩], deferred := s.deferred ++ plannedDeletes p c existing } hc2dicts hoks]
  simp [getEv, List.append_assoc]

/-- C1: for a non-`None` desired collection and an existing collection
keyed by the same natural key (unique keys, unique rendered ids,
defaults that do not overwrite the injected name), `sync_resources`
runs to completion having issued, per key present in both, exactly one
update to `path/{existing id}` whose body is the existing resource's
full attribute set overlaid by the desired attributes (defaults
applied, the `name` key injected first); exactly one create per
desired-only key; and it enqueues exactly one deferred deletion per
existing-only key. -/
theorem sync_resources_create_update_delete_plan (o : Oracle) (p : String) (c : Dict)
    (defaults : String → Val → Except Err Val) (ae : Bool) (key : String) (s : St)
    (respL : List Val) (existing c1 c2 : Dict)
    (hget : o.ok ⟨.get, p, .dict []⟩ = true)
    (hresp : o.resp ⟨.get, p, .dict []⟩ = .list respL)
    (hex : to_dict respL key = .ok existing)
    (hexwf : ∀ q ∈ existing, ∃ d, q.2 = Val.dict d ∧ (alook d "id").isSome)
    (hdef : map_values c defaults = .ok c1)
    (hinj : map_values c1 inject_name = .ok c2)
    (hoks : ∀ q ∈ c2, o.ok (plannedReq p existing q.1 q.2) = true)
    (hcnd : (c.map Prod.fst).Nodup)
    (hend : (existing.map Prod.fst).Nodup)
    (hidn : (existing.map (fun q => pyStr (resId q.2))).Nodup)
    (hnames : ∀ q ∈ c2, alook (dictOf q.2) "name" = some (.str q.1)) :
    RunsTo (sync_resources o p (.dict c) defaults ae key) s ()
      { s with
        events := s.events ++ [getEv p]
          ++ c2.map (fun q => .req (plannedReq p existing q.1 q.2)),
        deferred := s.deferred ++ plannedDeletes p c existing } ∧
    (∀ k v2 e, alook c2 k = some v2 → alook existing k = some e →
      plannedReq p existing k v2
        = ⟨.put, p ++ "/" ++ pyStr (resId e), .dict (pyMerge (dictOf e) (dictOf v2))⟩ ∧
      (([getEv p] ++ c2.map (fun q => Ev.req (plannedReq p existing q.1 q.2))).count
        (.req (plannedReq p existing k v2))) = 1) ∧
    (∀ k v2, alook c2 k = some v2 → alook existing k = none →
      plannedReq p existing k v2 = ⟨.post, p, v2⟩ ∧
      (([getEv p] ++ c2.map (fun q => Ev.req (plannedReq p existing q.1 q.2))).count
        (.req (plannedReq p existing k v2))) = 1) ∧
    (∀ k e, alook existing k = some e → alook c k = none →
      (plannedDeletes p c existing).count (p ++ "/" ++ pyStr (resId e), Val.null) = 1) := by
  have hkeys2 : c2.map Prod.fst = c.map Prod.fst := by
    rw [map_values_keys inject_name c1 c2 hinj, map_values_keys defaults c c1 hdef]
  have hc2knd : (c2.map Prod.fst).Nodup := hkeys2 ▸ hcnd
  have hc2nd : c2.Nodup := List.Nodup.of_map _ hc2knd
  have hexinj : ∀ q1 ∈ existing, ∀ q2 ∈ existing,
      pyStr (resId q1.2) = pyStr (resId q2.2) → q1 = q2 := by
    intro q1 h1 q2 h2 heq
    exact List.inj_on_of_nodup_map hidn h1 h2 heq
  refine ⟨sync_resources_run o p c defaults ae key s respL existing c1 c2
    hget hresp hex hexwf hdef hinj hoks, ?_, ?_, ?_⟩
  · intro k v2 e hk he
    have hform : plannedReq p existing k v2
        = ⟨.put, p ++ "/" ++ pyStr (resId e), .dict (pyMerge (dictOf e) (dictOf v2))⟩ := by
      simp [plannedReq, he]
    refine ⟨hform, ?_⟩
    rw [List.count_append]
    have hc0 : ([getEv p].count (Ev.req (plannedReq p existing k v2))) = 0 := by
      rw [List.count_eq_zero]
      intro hmem
      rcases List.mem_singleton.mp hmem with hmem2
      rw [hform] at hmem2
      simp [getEv] at hmem2
    rw [hc0]
    have h1 : ((c2.map (fun q => Ev.req (plannedReq p existing q.1 q.2))).count
        (Ev.req (plannedReq p existing k v2))) = 1 := by
      have hx : (k, v2) ∈ c2 := alook_mem hk
      have := count_map_eq_one c2 (fun q => Ev.req (plannedReq p existing q.1 q.2))
        (k, v2) hx hc2nd ?_
      · exact this
      · intro y hy heq
        have heq2 : plannedReq p existing y.1 y.2 = plannedReq p existing k v2 := by
          have := heq
          simp only [Ev.req.injEq] at this
          exact this
        cases hey : alook existing y.1 with
        | some e2 =>
          rw [plannedReq, hey, hform] at heq2
          simp only [Req.mk.injEq] at heq2
          have hpath : p ++ "/" ++ pyStr (resId e2) = p ++ "/" ++ pyStr (resId e) :=
            heq2.2.1
          have hid2 : pyStr (resId e2) = pyStr (resId e) := by
            rw [String.append_assoc, String.append_assoc] at hpath
            have := str_append_left_cancel hpath
            exact str_append_left_cancel this
          have hpair := hexinj (y.1, e2) (alook_mem hey) (k, e) (alook_mem he) hid2
          have hk1 : y.1 = k := congrArg Prod.fst hpair
          have hmemy : (k, y.2) ∈ c2 := by
            rw [← hk1]
            exact hy
          have := alook_of_mem_nodup hc2knd hmemy
          rw [hk] at this
          have hv : y.2 = v2 := by
            injection this with hh
            exact hh.symm
          rw [Prod.ext_iff]
          exact ⟨hk1, hv⟩
        | none =>
          rw [plannedReq, hey, hform] at heq2
          simp at heq2
    rw [h1]
  · intro k v2 hk he
    have hform : plannedReq p existing k v2 = ⟨.post, p, v2⟩ := by
      simp [plannedReq, he]
    refine ⟨hform, ?_⟩
    rw [List.count_append]
    have hc0 : ([getEv p].count (Ev.req (plannedReq p existing k v2))) = 0 := by
      rw [List.count_eq_zero]
      intro hmem
      rcases List.mem_singleton.mp hmem with hmem2
      rw [hform] at hmem2
      simp [getEv] at hmem2
    rw [hc0]
    have h1 : ((c2.map (fun q => Ev.req (plannedReq p existing q.1 q.2))).count
        (Ev.req (plannedReq p existing k v2))) = 1 := by
      have hx : (k, v2) ∈ c2 := alook_mem hk
      have := count_map_eq_one c2 (fun q => Ev.req (plannedReq p existing q.1 q.2))
        (k, v2) hx hc2nd ?_
      · exact this
      · intro y hy heq
        have heq2 : plannedReq p existing y.1 y.2 = plannedReq p existing k v2 := by
          simp only [Ev.req.injEq] at heq
          exact heq
        cases hey : alook existing y.1 with
        | some e2 =>
          rw [plannedReq, hey, hform] at heq2
          simp at heq2
        | none =>
          rw [plannedReq, hey, hform] at heq2
          simp only [Req.mk.injEq] at heq2
          have hv : y.2 = v2 := heq2.2.2
          have hn1 := hnames y hy
          have hn2 := hnames (k, v2) (alook_mem hk)
          rw [hv] at hn1
          rw [hn1] at hn2
          have : Val.str y.1 = Val.str k := by injection hn2
          have hk1 : y.1 = k := by injection this
          rw [Prod.ext_iff]
          exact ⟨hk1, hv⟩
    rw [h1]
  · intro k e he hc
    have hfmem : (k, e) ∈ existing.filter (fun q => (alook c q.1).isNone) := by
      rw [List.mem_filter]
      exact ⟨alook_mem he, by simp [hc]⟩
    have hfnd : (existing.filter (fun q => (alook c q.1).isNone)).Nodup :=
      List.Nodup.filter _ (List.Nodup.of_map _ hend)
    have := count_map_eq_one (existing.filter (fun q => (alook c q.1).isNone))
      (fun q => (p ++ "/" ++ pyStr (resId q.2), Val.null))
      (k, e) hfmem hfnd ?_
    · exact this
    · intro y hy heq
      simp only [Prod.mk.injEq] at heq
      have hpath : p ++ "/" ++ pyStr (resId y.2) = p ++ "/" ++ pyStr (resId e) := heq.1
      have hid2 : pyStr (resId y.2) = pyStr (resId e) := by
        rw [String.append_assoc, String.append_assoc] at hpath
        have := str_append_left_cancel hpath
        exact str_append_left_cancel this
      exact hexinj y (List.mem_of_mem_filter hy) (k, e) (alook_mem he) hid2

/-- Witness for `sync_resources_create_update_delete_plan`: desired keys
`a` (shared with the server) and `b` (new), existing keys `a` and `z`
(the latter undesired), identity defaults. -/
theorem sync_resources_create_update_delete_plan_witness :
    (([getEv "/res"]
      ++ ([("a", Val.dict [("name", .str "a"), ("x", .int 1)]),
           ("b", Val.dict [("name", .str "b")])].map
        (fun q => Ev.req (plannedReq "/res"
          [("a", Val.dict [("name", .str "a"), ("id", .int 1)]),
           ("z", Val.dict [("name", .str "z"), ("id", .int 2)])] q.1 q.2)))).count
      (.req (plannedReq "/res"
        [("a", Val.dict [("name", .str "a"), ("id", .int 1)]),
         ("z", Val.dict [("name", .str "z"), ("id", .int 2)])] "a"
        (Val.dict [("name", .str "a"), ("x", .int 1)])))) = 1 ∧
    (([getEv "/res"]
      ++ ([("a", Val.dict [("name", .str "a"), ("x", .int 1)]),
           ("b", Val.dict [("name", .str "b")])].map
        (fun q => Ev.req (plannedReq "/res"
          [("a", Val.dict [("name", .str "a"), ("id", .int 1)]),
           ("z", Val.dict [("name", .str "z"), ("id", .int 2)])] q.1 q.2)))).count
      (.req (plannedReq "/res"
        [("a", Val.dict [("name", .str "a"), ("id", .int 1)]),
         ("z", Val.dict [("name", .str "z"), ("id", .int 2)])] "b"
        (Val.dict [("name", .str "b")])))) = 1 ∧
    ((plannedDeletes "/res"
        [("a", Val.dict [("x", .int 1)]), ("b", Val.dict [])]
        [("a", Val.dict [("name", .str "a"), ("id", .int 1)]),
         ("z", Val.dict [("name", .str "z"), ("id", .int 2)])]).count
      ("/res" ++ "/" ++ pyStr (resId (Val.dict [("name", .str "z"), ("id", .int 2)])),
        Val.null)) = 1 := by
  have h := sync_resources_create_update_delete_plan
    ⟨fun _ => .list [.dict [("name", .str "a"), ("id", .int 1)],
       .dict [("name", .str "z"), ("id", .int 2)]], fun _ => true⟩
    "/res"
    [("a", .dict [("x", .int 1)]), ("b", .dict [])]
    (fun _ v => .ok v) false "name" ⟨[], [], [], 1, []⟩
    [.dict [("name", .str "a"), ("id", .int 1)], .dict [("name", .str "z"), ("id", .int 2)]]
    [("a", .dict [("name", .str "a"), ("id", .int 1)]),
     ("z", .dict [("name", .str "z"), ("id", .int 2)])]
    [("a", .dict [("x", .int 1)]), ("b", .dict [])]
    [("a", .dict [("name", .str "a"), ("x", .int 1)]), ("b", .dict [("name", .str "b")])]
    rfl rfl (by decide)
    (by
      intro q hq
      rcases List.mem_cons.mp hq with hq1 | hq
      · exact ⟨[("name", .str "a"), ("id", .int 1)], by rw [hq1], by decide⟩
      rcases List.mem_cons.mp hq with hq1 | hq
      · exact ⟨[("name", .str "z"), ("id", .int 2)], by rw [hq1], by decide⟩
      · cases hq)
    (by decide) (by decide)
    (fun q hq => rfl)
    (by decide) (by decide) (by decide)
    (by
      intro q hq
      rcases List.mem_cons.mp hq with hq1 | hq
      · rw [hq1]
        decide
      rcases List.mem_cons.mp hq with hq1 | hq
      · rw [hq1]
        decide
      · cases hq)
  exact ⟨(h.2.1 "a" (Val.dict [("name", .str "a"), ("x", .int 1)])
      (Val.dict [("name", .str "a"), ("id", .int 1)]) (by decide) (by decide)).2,
    (h.2.2.1 "b" (Val.dict [("name", .str "b")]) (by decide) (by decide)).2,
    h.2.2.2 "z" (Val.dict [("name", .str "z"), ("id", .int 2)]) (by decide) (by decide)⟩

theorem sync_resources_setup (o : Oracle) (p : String) (c : Dict)
    (defaults : String → Val → Except Err Val) (ae : Bool) (key : String) (s : St)
    (respL : List Val) (existing c1 c2 : Dict)
    (hget : o.ok ⟨.get, p, .dict []⟩ = true)
    (hresp : o.resp ⟨.get, p, .dict []⟩ = .list respL)
    (hex : to_dict respL key = .ok existing)
    (hexwf : ∀ q ∈ existing, ∃ d, q.2 = Val.dict d ∧ (alook d "id").isSome)
    (hdef : map_values c defaults = .ok c1)
    (hinj : map_values c1 inject_name = .ok c2) :
    sync_resources o p (.dict c) defaults ae key s
      = sync_resources_apply o p existing ae c2
          { s with events := s.events ++ [getEv p],
                   deferred := s.deferred ++ plannedDeletes p c existing } := by
  simp only [sync_resources]
  have hg := @RunsTo.getReq o p s hget
  rw [RunsTo] at hg
  rw [bind_ok_apply hg]
  rw [bind_ok_apply (show M.ofExcept (asList (o.resp ⟨.get, p, .dict []⟩)) { s with events := s.events ++ [.req ⟨.get, p, .dict []⟩] } = (.ok respL, { s with events := s.events ++ [.req ⟨.get, p, .dict []⟩] }) from by rw [hresp]; rfl)]
  rw [bind_ok_apply (show M.ofExcept (to_dict respL key) { s with events := s.events ++ [.req ⟨.get, p, .dict []⟩] } = (.ok existing, { s with events := s.events ++ [.req ⟨.get, p, .dict []⟩] }) from by rw [hex]; rfl)]
  have hq := queueDeletes_run p c existing
    { s with events := s.events ++ [.req ⟨.get, p, .dict []⟩] }
    (fun q hq _ => hexwf q hq)
  rw [RunsTo] at hq
  rw [bind_ok_apply hq]
  rw [bind_ok_apply (show M.ofExcept (map_values c defaults) { s with events := s.events ++ [.req ⟨.get, p, .dict []⟩], deferred := s.deferred ++ plannedDeletes p c existing } = (.ok c1, { s with events := s.events ++ [.req ⟨.get, p, .dict []⟩], deferred := s.deferred ++ plannedDeletes p c existing }) from by rw [hdef]; rfl)]
  rw [bind_ok_apply (show M.ofExcept (map_values c1 inject_name) { s with events := s.events ++ [.req ⟨.get, p, .dict []⟩], deferred := s.deferred ++ plannedDeletes p c existing } = (.ok c2, { s with events := s.events ++ [.req ⟨.get, p, .dict []⟩], deferred := s.deferred ++ plannedDeletes p c existing }) from by rw [hinj]; rfl)]
  rfl

/-- C7: with `allowPartialFailure` set, every desired entry's
create/update request is attempted (a failure is logged and the loop
continues), the call returns normally, and the deferred deletions stay
queued; with the flag unset, the first failing request aborts the call:
the requests before and including the failing one are the only ones
issued, later desired entries are unprocessed, and the deletions
already queued for this resource type remain in the queue. -/
theorem sync_resources_partial_failure (o : Oracle) (p : String) (c : Dict)
    (defaults : String → Val → Except Err Val) (key : String) (s : St)
    (respL : List Val) (existing c1 c2 : Dict)
    (hget : o.ok ⟨.get, p, .dict []⟩ = true)
    (hresp : o.resp ⟨.get, p, .dict []⟩ = .list respL)
    (hex : to_dict respL key = .ok existing)
    (hexwf : ∀ q ∈ existing, ∃ d, q.2 = Val.dict d ∧ (alook d "id").isSome)
    (hdef : map_values c defaults = .ok c1)
    (hinj : map_values c1 inject_name = .ok c2) :
    RunsTo (sync_resources o p (.dict c) defaults true key) s ()
      { s with
        events := s.events ++ [getEv p]
          ++ c2.map (fun q => .req (plannedReq p existing q.1 q.2)),
        deferred := s.deferred ++ plannedDeletes p c existing } ∧
    (∀ (l1 : List (String × Val)) (kf : String) (vf : Val) (l2 : List (String × Val)),
      c2 = l1 ++ (kf, vf) :: l2 →
      (∀ q ∈ l1, o.ok (plannedReq p existing q.1 q.2) = true) →
      o.ok (plannedReq p existing kf vf) = false →
      FailsTo (sync_resources o p (.dict c) defaults false key) s
        (.requestError (plannedReq p existing kf vf).path)
        { s with
          events := s.events ++ [getEv p]
            ++ (l1 ++ [(kf, vf)]).map (fun q => .req (plannedReq p existing q.1 q.2)),
          deferred := s.deferred ++ plannedDeletes p c existing }) := by
  have hc2dicts : ∀ q ∈ c2, ∃ dd, q.2 = Val.dict dd := by
    intro q hq
    obtain ⟨v, _, hfv⟩ := map_values_mem_rev inject_name c1 c2 hinj q hq
    exact inject_name_dict hfv
  constructor
  · show sync_resources o p (.dict c) defaults true key s = _
    rw [sync_resources_setup o p c defaults true key s respL existing c1 c2
      hget hresp hex hexwf hdef hinj]
    rw [sync_resources_apply_allow_error o p existing hexwf c2
      { s with events := s.events ++ [getEv p],
               deferred := s.deferred ++ plannedDeletes p c existing } hc2dicts]
  · intro l1 kf vf l2 hsplit hoks1 hbad
    show sync_resources o p (.dict c) defaults false key s = _
    rw [sync_resources_setup o p c defaults false key s respL existing c1 c2
      hget hresp hex hexwf hdef hinj]
    rw [hsplit]
    rw [sync_resources_apply_first_fail o p existing hexwf l1 kf vf l2
      { s with events := s.events ++ [getEv p],
               deferred := s.deferred ++ plannedDeletes p c existing }
      (fun q hq => hc2dicts q (by
        rw [hsplit]
        rcases List.mem_append.mp hq with h | h
        · exact List.mem_append.mpr (Or.inl h)
        · exact List.mem_append.mpr (Or.inr (by
            rcases List.mem_singleton.mp h with h2
            rw [h2]
            exact List.mem_cons_self _ _))))
      hoks1 hbad]

/-- Witness for `sync_resources_partial_failure`: three desired entries
`a`, `b`, `c` where `b`'s create request fails; with the flag set the
call returns normally, without it the call raises and the queued
deletion of the undesired existing resource `z` survives. -/
theorem sync_resources_partial_failure_witness :
    (sync_resources
      ⟨fun _ => .list [.dict [("name", .str "a"), ("id", .int 1)],
         .dict [("name", .str "z"), ("id", .int 2)]],
       fun r => decide (r ≠ ⟨.post, "/res", .dict [("name", .str "b")]⟩)⟩
      "/res" (.dict [("a", .dict []), ("b", .dict []), ("c", .dict [])])
      (fun _ v => .ok v) true "name" ⟨[], [], [], 1, []⟩).1 = .ok () ∧
    (sync_resources
      ⟨fun _ => .list [.dict [("name", .str "a"), ("id", .int 1)],
         .dict [("name", .str "z"), ("id", .int 2)]],
       fun r => decide (r ≠ ⟨.post, "/res", .dict [("name", .str "b")]⟩)⟩
      "/res" (.dict [("a", .dict []), ("b", .dict []), ("c", .dict [])])
      (fun _ v => .ok v) false "name" ⟨[], [], [], 1, []⟩).1
      = .err (.requestError "/res") ∧
    (sync_resources
      ⟨fun _ => .list [.dict [("name", .str "a"), ("id", .int 1)],
         .dict [("name", .str "z"), ("id", .int 2)]],
       fun r => decide (r ≠ ⟨.post, "/res", .dict [("name", .str "b")]⟩)⟩
      "/res" (.dict [("a", .dict []), ("b", .dict []), ("c", .dict [])])
      (fun _ v => .ok v) false "name" ⟨[], [], [], 1, []⟩).2.deferred
      = [("/res/2", Val.null)] := by
  have h := sync_resources_partial_failure
    ⟨fun _ => .list [.dict [("name", .str "a"), ("id", .int 1)],
       .dict [("name", .str "z"), ("id", .int 2)]],
     fun r => decide (r ≠ ⟨.post, "/res", .dict [("name", .str "b")]⟩)⟩
    "/res" [("a", .dict []), ("b", .dict []), ("c", .dict [])]
    (fun _ v => .ok v) "name" ⟨[], [], [], 1, []⟩
    [.dict [("name", .str "a"), ("id", .int 1)], .dict [("name", .str "z"), ("id", .int 2)]]
    [("a", .dict [("name", .str "a"), ("id", .int 1)]),
     ("z", .dict [("name", .str "z"), ("id", .int 2)])]
    [("a", .dict []), ("b", .dict []), ("c", .dict [])]
    [("a", .dict [("name", .str "a")]), ("b", .dict [("name", .str "b")]),
     ("c", .dict [("name", .str "c")])]
    (by decide) rfl (by decide)
    (by
      intro q hq
      rcases List.mem_cons.mp hq with hq1 | hq
      · exact ⟨[("name", .str "a"), ("id", .int 1)], by rw [hq1], by decide⟩
      rcases List.mem_cons.mp hq with hq1 | hq
      · exact ⟨[("name", .str "z"), ("id", .int 2)], by rw [hq1], by decide⟩
      · cases hq)
    (by decide) (by decide)
  have h2 := h.2 [("a", .dict [("name", .str "a")])] "b" (.dict [("name", .str "b")])
    [("c", .dict [("name", .str "c")])] (by decide) (by decide) (by decide)
  have e1 := h.1
  rw [RunsTo] at e1
  have e2 := h2
  rw [FailsTo] at e2
  refine ⟨by rw [e1], ?_, ?_⟩
  · rw [e2]
    decide
  · rw [e2]
    decide

/-! ## Claim C4: the schema overlay in `sync_contracts` -/

theorem deep_merge_base_alook (da : Dict) (k : String) :
    ∀ db : Dict, alook (deep_merge_base da db) k
      = (alook db k).map (fun vb =>
          match alook da k with
          | some va => deep_merge va vb
          | none => vb) := by
  intro db
  induction db with
  | nil => simp [deep_merge_base, alook]
  | cons q rest ih =>
    obtain ⟨k1, vb⟩ := q
    simp only [deep_merge_base]
    by_cases hk : k1 = k
    · subst hk
      rw [alook_cons, alook_cons, if_pos rfl, if_pos rfl]
      cases hda : alook da k1 with
      | some va => simp [hda]
      | none => simp [hda]
    · rw [alook_cons, alook_cons, if_neg hk, if_neg hk]
      exact ih

theorem alook_filter_absent (db : Dict) (k : String) :
    ∀ da : Dict, alook (da.filter (fun q => (alook db q.1).isNone)) k
      = if (alook db k).isNone then alook da k else none := by
  intro da
  induction da with
  | nil => simp [alook]
  | cons q rest ih =>
    obtain ⟨k1, va⟩ := q
    rw [List.filter_cons]
    by_cases hk : k1 = k
    · subst hk
      by_cases hdb : (alook db k1).isNone
      · rw [if_pos (show (fun q => (alook db q.1).isNone) (k1, va) = true from hdb)]
        rw [if_pos hdb]
        rw [alook_cons, alook_cons, if_pos rfl, if_pos rfl]
      · rw [if_neg (show ¬ (fun q => (alook db q.1).isNone) (k1, va) = true from hdb)]
        rw [if_neg hdb]
        rw [ih, if_neg hdb]
    · by_cases hdb1 : (alook db k1).isNone
      · rw [if_pos (show (fun q => (alook db q.1).isNone) (k1, va) = true from hdb1)]
        rw [alook_cons, if_neg hk]
        rw [alook_cons, if_neg hk]
        exact ih
      · rw [if_neg (show ¬ (fun q => (alook db q.1).isNone) (k1, va) = true from hdb1)]
        rw [alook_cons, if_neg hk]
        exact ih

/-- The binding structure of a deep merge of two dicts: base values are
overlaid by winner values (recursively for the key present in both),
winner-only keys are kept. -/
theorem deep_merge_dict_alook (da db : Dict) (k : String) :
    alook (dictOf (deep_merge (.dict da) (.dict db))) k
      = match alook da k, alook db k with
        | some va, some vb => some (deep_merge va vb)
        | some va, none => some va
        | none, some vb => some vb
        | none, none => none := by
  rw [show deep_merge (.dict da) (.dict db)
    = .dict (deep_merge_base da db ++ da.filter (fun q => (alook db q.1).isNone)) from by
      rw [deep_merge]]
  rw [dictOf]
  rw [alook_append, deep_merge_base_alook, alook_filter_absent]
  cases hda : alook da k with
  | some va =>
    cases hdb : alook db k with
    | some vb => simp [hdb]
    | none => simp [hdb, hda]
  | none =>
    cases hdb : alook db k with
    | some vb => simp [hdb]
    | none => simp [hdb, hda]

theorem map_values_fails (f : String → Val → Except Err Val) :
    ∀ (d : Dict) (k : String) (v : Val) (e : Err), (k, v) ∈ d → f k v = .error e →
      ∃ e2, map_values d f = .error e2 := by
  intro d
  induction d with
  | nil =>
    intro k v e hmem _
    cases hmem
  | cons q rest ih =>
    intro k v e hmem hf
    obtain ⟨k1, v1⟩ := q
    simp only [map_values]
    rcases List.mem_cons.mp hmem with hq | hq
    · have hk : k1 = k := (congrArg Prod.fst hq).symm
      have hv : v1 = v := (congrArg Prod.snd hq).symm
      subst hk
      subst hv
      rw [hf]
      exact ⟨e, rfl⟩
    · cases hfk : f k1 v1 with
      | error e1 => exact ⟨e1, rfl⟩
      | ok v2 =>
        obtain ⟨e2, he2⟩ := ih k v e hq hf
        rw [he2]
        exact ⟨e2, rfl⟩

theorem sync_contracts_apply_all_ok (o : Oracle) (p : String) (existing : Dict)
    (hexwf : ∀ q ∈ existing, ∃ d, q.2 = Val.dict d ∧ (alook d "id").isSome) :
    ∀ (l : List (String × Val)) (s : St),
    (∀ q ∈ l, o.ok (contractReq p existing q.1 q.2) = true) →
    RunsTo (sync_contracts_apply o p existing l) s ()
      { s with events := s.events ++ l.map (fun q => .req (contractReq p existing q.1 q.2)) } := by
  intro l
  induction l with
  | nil =>
    intro s _
    show sync_contracts_apply o p existing [] s = _
    simp [sync_contracts_apply, M.pure]
  | cons q rest ih =>
    intro s hoks
    obtain ⟨name, dat⟩ := q
    show sync_contracts_apply o p existing ((name, dat) :: rest) s = _
    simp only [sync_contracts_apply]
    cases hey : alook existing name with
    | some e =>
      obtain ⟨ed, hed0, hid⟩ := hexwf (name, e) (alook_mem hey)
      have hed : e = Val.dict ed := hed0
      obtain ⟨idv, hidv⟩ := Option.isSome_iff_exists.mp hid
      have hidx : indexVal e "id" = .ok idv := by
        rw [hed]
        simp [indexVal, hidv]
      have hres : resId e = idv := by
        rw [hed]
        simp [resId, hidv]
      have hreq : contractReq p existing name dat = ⟨.put, p ++ "/" ++ pyStr idv, dat⟩ := by
        simp [contractReq, hey, hres]
      show ((do
        let eid ← M.ofExcept (indexVal e "id")
        let _ ← putReq o (p ++ "/" ++ pyStr eid) dat
        M.pure ()) >>= fun _ => sync_contracts_apply o p existing rest) s = _
      have hhead : (do
          let eid ← M.ofExcept (indexVal e "id")
          let _ ← putReq o (p ++ "/" ++ pyStr eid) dat
          M.pure () : M Unit) s
          = (Res.ok (), { s with events := s.events ++ [.req (contractReq p existing name dat)] }) := by
        rw [bind_ok_apply (show M.ofExcept (indexVal e "id") s = (.ok idv, s) from by
          rw [hidx]; rfl)]
        have hput := @RunsTo.putReq o (p ++ "/" ++ pyStr idv) dat s
          (by rw [← hreq]; exact hoks (name, dat) (List.mem_cons_self _ _))
        rw [RunsTo] at hput
        rw [bind_ok_apply hput]
        rw [hreq]
        rfl
      rw [bind_ok_apply hhead]
      rw [ih { s with events := s.events ++ [.req (contractReq p existing name dat)] }
        (fun q hq => hoks q (List.mem_cons_of_mem _ hq))]
      simp [List.append_assoc]
    | none =>
      have hreq : contractReq p existing name dat = ⟨.post, p, dat⟩ := by
        simp [contractReq, hey]
      show ((do
        let _ ← postReq o p dat
        M.pure ()) >>= fun _ => sync_contracts_apply o p existing rest) s = _
      have hhead : (do
          let _ ← postReq o p dat
          M.pure () : M Unit) s
          = (Res.ok (), { s with events := s.events ++ [.req (contractReq p existing name dat)] }) := by
        have hpost := @RunsTo.postReq o p dat s
          (by rw [← hreq]; exact hoks (name, dat) (List.mem_cons_self _ _))
        rw [RunsTo] at hpost
        rw [bind_ok_apply hpost]
        rw [hreq]
        rfl
      rw [bind_ok_apply hhead]
      rw [ih { s with events := s.events ++ [.req (contractReq p existing name dat)] }
        (fun q hq => hoks q (List.mem_cons_of_mem _ hq))]
      simp [List.append_assoc]

theorem sync_contracts_setup (o : Oracle) (p : String) (c : Dict)
    (defaults : String → Val → Except Err Val) (skey : String × String) (s : St)
    (respL srespL : List Val) (existing0 existing c1 c2 schema0 schema : Dict)
    (hget1 : o.ok ⟨.get, p, .dict []⟩ = true)
    (hresp1 : o.resp ⟨.get, p, .dict []⟩ = .list respL)
    (hex0 : to_dict respL "name" = .ok existing0)
    (hexconv : map_values existing0 (fun _ v => fields_to_map v) = .ok existing)
    (hc1 : map_values c
      (fun k v => .ok (deep_merge v ((alook existing k).getD (.dict [])))) = .ok c1)
    (hc2 : map_values c1 inject_enable_name = .ok c2)
    (hget2 : o.ok ⟨.get, p ++ "/schema", .dict []⟩ = true)
    (hresp2 : o.resp ⟨.get, p ++ "/schema", .dict []⟩ = .list srespL)
    (hs0 : to_dict srespL skey.1 = .ok schema0)
    (hsconv : map_values schema0 (fun _ v => schema_entry_conv v) = .ok schema) :
    sync_contracts o p (.dict c) defaults skey s
      = (do
          let c3 ← M.ofExcept (map_values c2 (fun _ v => schema_merge schema skey.2 v))
          let c4 ← M.ofExcept (map_values c3 inject_enable_name)
          let c5 ← M.ofExcept (map_values c4 defaults)
          let tm ← getTagMap
          let c6 ← M.ofExcept (map_values c5 (finalize_obj tm))
          queueDeletes p c6 existing
          sync_contracts_apply o p existing c6)
        { s with events := s.events ++ [Ev.req ⟨Method.get, p, Val.dict []⟩]
          ++ [Ev.req ⟨Method.get, p ++ "/schema", Val.dict []⟩] } := by
  simp only [sync_contracts]
  have hg1 := @RunsTo.getReq o p s hget1
  rw [RunsTo] at hg1
  rw [bind_ok_apply hg1]
  rw [bind_ok_apply (show M.ofExcept (asList (o.resp ⟨.get, p, .dict []⟩)) { s with events := s.events ++ [.req ⟨.get, p, .dict []⟩] } = (.ok respL, { s with events := s.events ++ [.req ⟨.get, p, .dict []⟩] }) from by rw [hresp1]; rfl)]
  rw [bind_ok_apply (show M.ofExcept (to_dict respL "name") { s with events := s.events ++ [.req ⟨.get, p, .dict []⟩] } = (.ok existing0, { s with events := s.events ++ [.req ⟨.get, p, .dict []⟩] }) from by rw [hex0]; rfl)]
  rw [bind_ok_apply (show M.ofExcept (map_values existing0 (fun _ v => fields_to_map v)) { s with events := s.events ++ [.req ⟨.get, p, .dict []⟩] } = (.ok existing, { s with events := s.events ++ [.req ⟨.get, p, .dict []⟩] }) from by rw [hexconv]; rfl)]
  rw [bind_ok_apply (show M.ofExcept (map_values c (fun k v => .ok (deep_merge v ((alook existing k).getD (.dict []))))) { s with events := s.events ++ [.req ⟨.get, p, .dict []⟩] } = (.ok c1, { s with events := s.events ++ [.req ⟨.get, p, .dict []⟩] }) from by rw [hc1]; rfl)]
  rw [bind_ok_apply (show M.ofExcept (map_values c1 inject_enable_name) { s with events := s.events ++ [.req ⟨.get, p, .dict []⟩] } = (.ok c2, { s with events := s.events ++ [.req ⟨.get, p, .dict []⟩] }) from by rw [hc2]; rfl)]
  have hg2 := @RunsTo.getReq o (p ++ "/schema")
    { s with events := s.events ++ [.req ⟨.get, p, .dict []⟩] } hget2
  rw [RunsTo] at hg2
  rw [bind_ok_apply hg2]
  rw [bind_ok_apply (show M.ofExcept (asList (o.resp ⟨.get, p ++ "/schema", .dict []⟩)) { s with events := s.events ++ [.req ⟨.get, p, .dict []⟩] ++ [.req ⟨.get, p ++ "/schema", .dict []⟩] } = (.ok srespL, { s with events := s.events ++ [.req ⟨.get, p, .dict []⟩] ++ [.req ⟨.get, p ++ "/schema", .dict []⟩] }) from by rw [hresp2]; rfl)]
  rw [bind_ok_apply (show M.ofExcept (to_dict srespL skey.1) { s with events := s.events ++ [.req ⟨.get, p, .dict []⟩] ++ [.req ⟨.get, p ++ "/schema", .dict []⟩] } = (.ok schema0, { s with events := s.events ++ [.req ⟨.get, p, .dict []⟩] ++ [.req ⟨.get, p ++ "/schema", .dict []⟩] }) from by rw [hs0]; rfl)]
  rw [bind_ok_apply (show M.ofExcept (map_values schema0 (fun _ v => schema_entry_conv v)) { s with events := s.events ++ [.req ⟨.get, p, .dict []⟩] ++ [.req ⟨.get, p ++ "/schema", .dict []⟩] } = (.ok schema, { s with events := s.events ++ [.req ⟨.get, p, .dict []⟩] ++ [.req ⟨.get, p ++ "/schema", .dict []⟩] }) from by rw [hsconv]; rfl)]

/-- C4: In `sync_contracts`, (a) when every later pipeline stage
succeeds, the run issues exactly the two collection/schema fetches, one
create/update per finalized entry, and defers the undesired deletions;
(b) every merged entry whose `schemaKeyPair[1]` attribute value names a
schema entry is bound, after the overlay stage, to its deep merge over
that schema entry with the entry winning, so every schema-defined field
the entry did not set takes the schema's value; (c) an entry whose
`schemaKeyPair[1]` value is not a key of the schema map makes the whole
call fail. -/
theorem sync_contracts_schema_overlay (o : Oracle) (p : String) (c : Dict)
    (defaults : String → Val → Except Err Val) (skey : String × String) (s : St)
    (respL srespL : List Val) (existing0 existing c1 c2 schema0 schema : Dict)
    (hget1 : o.ok ⟨.get, p, .dict []⟩ = true)
    (hresp1 : o.resp ⟨.get, p, .dict []⟩ = .list respL)
    (hex0 : to_dict respL "name" = .ok existing0)
    (hexconv : map_values existing0 (fun _ v => fields_to_map v) = .ok existing)
    (hc1 : map_values c
      (fun k v => .ok (deep_merge v ((alook existing k).getD (.dict [])))) = .ok c1)
    (hc2 : map_values c1 inject_enable_name = .ok c2)
    (hget2 : o.ok ⟨.get, p ++ "/schema", .dict []⟩ = true)
    (hresp2 : o.resp ⟨.get, p ++ "/schema", .dict []⟩ = .list srespL)
    (hs0 : to_dict srespL skey.1 = .ok schema0)
    (hsconv : map_values schema0 (fun _ v => schema_entry_conv v) = .ok schema)
    (hexwf : ∀ q ∈ existing, ∃ d, q.2 = Val.dict d ∧ (alook d "id").isSome) :
    (∀ c3 c4 c5 c6 : Dict,
      map_values c2 (fun _ v => schema_merge schema skey.2 v) = .ok c3 →
      map_values c3 inject_enable_name = .ok c4 →
      map_values c4 defaults = .ok c5 →
      map_values c5 (finalize_obj s.tagMap) = .ok c6 →
      (∀ q ∈ c6, o.ok (contractReq p existing q.1 q.2) = true) →
      RunsTo (sync_contracts o p (.dict c) defaults skey) s ()
        { s with
          events := s.events ++ [getEv p, getEv (p ++ "/schema")]
            ++ c6.map (fun q => Ev.req (contractReq p existing q.1 q.2)),
          deferred := s.deferred ++ plannedDeletes p c6 existing })
    ∧
    (∀ (c3 : Dict) (k : String) (v : Val) (d : Dict) (ks : String) (sv : Val),
      map_values c2 (fun _ v => schema_merge schema skey.2 v) = .ok c3 →
      alook c2 k = some v → v = .dict d → alook d skey.2 = some (.str ks) →
      alook schema ks = some sv →
      alook c3 k = some (deep_merge v sv) ∧
      (∀ (fk : String) (fv : Val), alook (dictOf sv) fk = some fv →
        alook d fk = none → alook (dictOf (deep_merge v sv)) fk = some fv))
    ∧
    (∀ (k : String) (v : Val) (d : Dict) (ks : String),
      (k, v) ∈ c2 → v = .dict d → alook d skey.2 = some (.str ks) →
      alook schema ks = none →
      ∃ e s2, FailsTo (sync_contracts o p (.dict c) defaults skey) s e s2) := by
  refine ⟨?_, ?_, ?_⟩
  · intro c3 c4 c5 c6 hc3 hc4 hc5 hc6 hoks
    rw [RunsTo]
    rw [sync_contracts_setup o p c defaults skey s respL srespL existing0 existing c1 c2
      schema0 schema hget1 hresp1 hex0 hexconv hc1 hc2 hget2 hresp2 hs0 hsconv]
    rw [bind_ok_apply (show M.ofExcept (map_values c2 (fun _ v => schema_merge schema skey.2 v)) { s with events := s.events ++ [Ev.req ⟨Method.get, p, Val.dict []⟩] ++ [Ev.req ⟨Method.get, p ++ "/schema", Val.dict []⟩] } = (.ok c3, { s with events := s.events ++ [Ev.req ⟨Method.get, p, Val.dict []⟩] ++ [Ev.req ⟨Method.get, p ++ "/schema", Val.dict []⟩] }) from by rw [hc3]; rfl)]
    rw [bind_ok_apply (show M.ofExcept (map_values c3 inject_enable_name) { s with events := s.events ++ [Ev.req ⟨Method.get, p, Val.dict []⟩] ++ [Ev.req ⟨Method.get, p ++ "/schema", Val.dict []⟩] } = (.ok c4, { s with events := s.events ++ [Ev.req ⟨Method.get, p, Val.dict []⟩] ++ [Ev.req ⟨Method.get, p ++ "/schema", Val.dict []⟩] }) from by rw [hc4]; rfl)]
    rw [bind_ok_apply (show M.ofExcept (map_values c4 defaults) { s with events := s.events ++ [Ev.req ⟨Method.get, p, Val.dict []⟩] ++ [Ev.req ⟨Method.get, p ++ "/schema", Val.dict []⟩] } = (.ok c5, { s with events := s.events ++ [Ev.req ⟨Method.get, p, Val.dict []⟩] ++ [Ev.req ⟨Method.get, p ++ "/schema", Val.dict []⟩] }) from by rw [hc5]; rfl)]
    rw [bind_ok_apply (show getTagMap { s with events := s.events ++ [Ev.req ⟨Method.get, p, Val.dict []⟩] ++ [Ev.req ⟨Method.get, p ++ "/schema", Val.dict []⟩] } = (.ok s.tagMap, { s with events := s.events ++ [Ev.req ⟨Method.get, p, Val.dict []⟩] ++ [Ev.req ⟨Method.get, p ++ "/schema", Val.dict []⟩] }) from rfl)]
    rw [bind_ok_apply (show M.ofExcept (map_values c5 (finalize_obj s.tagMap)) { s with events := s.events ++ [Ev.req ⟨Method.get, p, Val.dict []⟩] ++ [Ev.req ⟨Method.get, p ++ "/schema", Val.dict []⟩] } = (.ok c6, { s with events := s.events ++ [Ev.req ⟨Method.get, p, Val.dict []⟩] ++ [Ev.req ⟨Method.get, p ++ "/schema", Val.dict []⟩] }) from by rw [hc6]; rfl)]
    have hqd := queueDeletes_run p c6 existing
      { s with events := s.events ++ [Ev.req ⟨Method.get, p, Val.dict []⟩] ++ [Ev.req ⟨Method.get, p ++ "/schema", Val.dict []⟩] }
      (fun q hq _ => hexwf q hq)
    rw [RunsTo] at hqd
    rw [bind_ok_apply hqd]
    have happ := sync_contracts_apply_all_ok o p existing hexwf c6
      { { s with events := s.events ++ [Ev.req ⟨Method.get, p, Val.dict []⟩] ++ [Ev.req ⟨Method.get, p ++ "/schema", Val.dict []⟩] } with deferred := s.deferred ++ plannedDeletes p c6 existing }
      hoks
    rw [RunsTo] at happ
    rw [happ]
    simp [getEv, List.append_assoc]
  · intro c3 k v d ks sv hc3 hk hd hks hsv
    obtain ⟨v2, hfv2, halook⟩ :=
      map_values_alook (fun _ v => schema_merge schema skey.2 v) c2 c3 hc3 k v hk
    have hsm : schema_merge schema skey.2 v = .ok (deep_merge v sv) := by
      subst hd
      simp [schema_merge, hks, hsv]
    have hv2 : v2 = deep_merge v sv := Except.ok.inj (hfv2.symm.trans hsm)
    refine ⟨hv2 ▸ halook, ?_⟩
    intro fk fv hfk hnone
    cases sv with
    | dict sd =>
      rw [hd]
      rw [deep_merge_dict_alook d sd fk]
      rw [hnone]
      rw [show alook (dictOf (Val.dict sd)) fk = alook sd fk from rfl] at hfk
      rw [hfk]
    | null => simp [dictOf, alook] at hfk
    | int n => simp [dictOf, alook] at hfk
    | str t => simp [dictOf, alook] at hfk
    | bool b => simp [dictOf, alook] at hfk
    | list xs => simp [dictOf, alook] at hfk
  · intro k v d ks hmem hd hks hsn
    have hsm : schema_merge schema skey.2 v = .error (.keyError ks) := by
      subst hd
      simp [schema_merge, hks, hsn]
    obtain ⟨e2, he2⟩ :=
      map_values_fails (fun _ v => schema_merge schema skey.2 v) c2 k v (.keyError ks) hmem hsm
    refine ⟨e2,
      { s with events := s.events ++ [Ev.req ⟨Method.get, p, Val.dict []⟩] ++ [Ev.req ⟨Method.get, p ++ "/schema", Val.dict []⟩] }, ?_⟩
    rw [FailsTo]
    rw [sync_contracts_setup o p c defaults skey s respL srespL existing0 existing c1 c2
      schema0 schema hget1 hresp1 hex0 hexconv hc1 hc2 hget2 hresp2 hs0 hsconv]
    exact bind_err_apply (show M.ofExcept (map_values c2 (fun _ v => schema_merge schema skey.2 v)) { s with events := s.events ++ [Ev.req ⟨Method.get, p, Val.dict []⟩] ++ [Ev.req ⟨Method.get, p ++ "/schema", Val.dict []⟩] } = (.err e2, { s with events := s.events ++ [Ev.req ⟨Method.get, p, Val.dict []⟩] ++ [Ev.req ⟨Method.get, p ++ "/schema", Val.dict []⟩] }) from by rw [he2]; rfl)

theorem sync_contracts_schema_overlay_witness :
    RunsTo
      (sync_contracts
        ⟨fun r => if r.path = "/notification/schema"
            then .list [.dict [("implementation", .str "Email"),
              ("fields", .list [.dict [("name", .str "to"), ("value", .str "x")]])]]
            else .list [],
          fun _ => true⟩
        "/notification"
        (.dict [("n1", .dict [("implementation", .str "Email")])])
        (fun _ v => .ok v) ("implementation", "implementation"))
      ⟨[], [], [], 1, []⟩ ()
      { (⟨[], [], [], 1, []⟩ : St) with
        events := (⟨[], [], [], 1, []⟩ : St).events
          ++ [getEv "/notification", getEv ("/notification" ++ "/schema")]
          ++ ([("n1", Val.dict [("enable", Val.bool true), ("name", Val.str "n1"),
                ("implementation", Val.str "Email"),
                ("fields", Val.list [Val.dict [("name", Val.str "to"), ("value", Val.str "x")]]),
                ("tags", Val.list [])])].map
              (fun q => Ev.req (contractReq "/notification" [] q.1 q.2))),
        deferred := (⟨[], [], [], 1, []⟩ : St).deferred
          ++ plannedDeletes "/notification"
            [("n1", Val.dict [("enable", Val.bool true), ("name", Val.str "n1"),
              ("implementation", Val.str "Email"),
              ("fields", Val.list [Val.dict [("name", Val.str "to"), ("value", Val.str "x")]]),
              ("tags", Val.list [])])] [] } := by
  have hdm1 : deep_merge (Val.dict [("implementation", Val.str "Email")]) (Val.dict [])
      = Val.dict [("implementation", Val.str "Email")] := by
    simp [deep_merge, deep_merge_base, alook]
  have hdm2 : deep_merge
      (Val.dict [("enable", Val.bool true), ("name", Val.str "n1"),
        ("implementation", Val.str "Email")])
      (Val.dict [("implementation", Val.str "Email"), ("fields", Val.dict [("to", Val.str "x")])])
      = Val.dict [("implementation", Val.str "Email"), ("fields", Val.dict [("to", Val.str "x")]),
        ("enable", Val.bool true), ("name", Val.str "n1")] := by
    simp [deep_merge, deep_merge_base, alook]
  have hc1 : map_values [("n1", Val.dict [("implementation", Val.str "Email")])]
      (fun k v => Except.ok (deep_merge v ((alook ([] : Dict) k).getD (Val.dict []))))
      = Except.ok [("n1", Val.dict [("implementation", Val.str "Email")])] := by
    have hstep : map_values [("n1", Val.dict [("implementation", Val.str "Email")])]
        (fun k v => Except.ok (deep_merge v ((alook ([] : Dict) k).getD (Val.dict []))))
        = Except.ok [("n1", deep_merge (Val.dict [("implementation", Val.str "Email")])
            (Val.dict []))] := rfl
    rw [hstep, hdm1]
  have hc3 : map_values [("n1", Val.dict [("enable", Val.bool true), ("name", Val.str "n1"),
        ("implementation", Val.str "Email")])]
      (fun _ v => schema_merge [("Email", Val.dict [("implementation", Val.str "Email"),
        ("fields", Val.dict [("to", Val.str "x")])])] ("implementation", "implementation").2 v)
      = Except.ok [("n1", Val.dict [("implementation", Val.str "Email"),
        ("fields", Val.dict [("to", Val.str "x")]),
        ("enable", Val.bool true), ("name", Val.str "n1")])] := by
    have hstep : map_values [("n1", Val.dict [("enable", Val.bool true), ("name", Val.str "n1"),
          ("implementation", Val.str "Email")])]
        (fun _ v => schema_merge [("Email", Val.dict [("implementation", Val.str "Email"),
          ("fields", Val.dict [("to", Val.str "x")])])] ("implementation", "implementation").2 v)
        = Except.ok [("n1", deep_merge
            (Val.dict [("enable", Val.bool true), ("name", Val.str "n1"),
              ("implementation", Val.str "Email")])
            (Val.dict [("implementation", Val.str "Email"),
              ("fields", Val.dict [("to", Val.str "x")])]))] := rfl
    rw [hstep, hdm2]
  have h := sync_contracts_schema_overlay
    ⟨fun r => if r.path = "/notification/schema"
        then .list [.dict [("implementation", .str "Email"),
          ("fields", .list [.dict [("name", .str "to"), ("value", .str "x")]])]]
        else .list [],
      fun _ => true⟩
    "/notification"
    [("n1", Val.dict [("implementation", Val.str "Email")])]
    (fun _ v => .ok v) ("implementation", "implementation") ⟨[], [], [], 1, []⟩
    [] [.dict [("implementation", .str "Email"),
      ("fields", .list [.dict [("name", .str "to"), ("value", .str "x")]])]]
    [] []
    [("n1", Val.dict [("implementation", Val.str "Email")])]
    [("n1", Val.dict [("enable", Val.bool true), ("name", Val.str "n1"),
      ("implementation", Val.str "Email")])]
    [("Email", Val.dict [("implementation", Val.str "Email"),
      ("fields", Val.list [Val.dict [("name", Val.str "to"), ("value", Val.str "x")]])])]
    [("Email", Val.dict [("implementation", Val.str "Email"),
      ("fields", Val.dict [("to", Val.str "x")])])]
    rfl (by decide) (by decide) rfl hc1 rfl rfl (by decide) (by decide) (by decide)
    (fun q hq => absurd hq (List.not_mem_nil q))
  exact h.1
    [("n1", Val.dict [("implementation", Val.str "Email"),
      ("fields", Val.dict [("to", Val.str "x")]),
      ("enable", Val.bool true), ("name", Val.str "n1")])]
    [("n1", Val.dict [("enable", Val.bool true), ("name", Val.str "n1"),
      ("implementation", Val.str "Email"), ("fields", Val.dict [("to", Val.str "x")])])]
    [("n1", Val.dict [("enable", Val.bool true), ("name", Val.str "n1"),
      ("implementation", Val.str "Email"), ("fields", Val.dict [("to", Val.str "x")])])]
    [("n1", Val.dict [("enable", Val.bool true), ("name", Val.str "n1"),
      ("implementation", Val.str "Email"),
      ("fields", Val.list [Val.dict [("name", Val.str "to"), ("value", Val.str "x")]]),
      ("tags", Val.list [])])]
    hc3 rfl rfl rfl (fun _ _ => rfl)

theorem listStarts_append (l : List Char) : ∀ t : List Char, listStarts l (l ++ t) = true := by
  induction l with
  | nil => intro t; rfl
  | cons a as ih => intro t; simp [listStarts, ih]

theorem strStarts_append (p t : String) : strStarts p (p ++ t) = true := by
  show listStarts p.data (p ++ t).data = true
  rw [String.data_append]
  exact listStarts_append p.data t.data

theorem phaseOk_ne_drain {e : Ev} (h : phaseOk e = true) : (e != Ev.drain) = true := by
  cases e with
  | drain => simp [phaseOk] at h
  | req r => rfl

theorem emits_preserve {α : Type} {m : M α} (P : Ev → Bool)
    (h : ∀ s, ((m s).2).events = s.events) : EmitsOnly m P := by
  intro s
  refine ⟨[], ?_, ?_⟩
  · rw [h s]
    simp
  · intro e he
    cases he

theorem emits_bind {α β : Type} {x : M α} {f : α → M β} {P : Ev → Bool}
    (hx : EmitsOnly x P) (hf : ∀ a, EmitsOnly (f a) P) : EmitsOnly (x >>= f) P := by
  intro s
  obtain ⟨δ1, h1, hp1⟩ := hx s
  cases hres : x s with
  | mk r s1 =>
    have h1s : s1.events = s.events ++ δ1 := by
      rw [hres] at h1
      exact h1
    cases r with
    | ok a =>
      obtain ⟨δ2, h2, hp2⟩ := hf a s1
      refine ⟨δ1 ++ δ2, ?_, ?_⟩
      · rw [show (x >>= f) s = f a s1 from bind_ok_apply hres]
        rw [h2, h1s]
        simp [List.append_assoc]
      · intro e he
        rcases List.mem_append.mp he with h | h
        · exact hp1 e h
        · exact hp2 e h
    | err er =>
      refine ⟨δ1, ?_, hp1⟩
      rw [show (x >>= f) s = (.err er, s1) from bind_err_apply hres]
      exact h1s

theorem emits_ite {α : Type} {c : Prop} [Decidable c] {x y : M α} {P : Ev → Bool}
    (hx : EmitsOnly x P) (hy : EmitsOnly y P) : EmitsOnly (if c then x else y) P := by
  by_cases h : c
  · rw [if_pos h]; exact hx
  · rw [if_neg h]; exact hy

theorem emits_pure {α : Type} (a : α) (P : Ev → Bool) : EmitsOnly (M.pure a) P :=
  emits_preserve P (fun _ => rfl)

theorem emits_pure_m {α : Type} (a : α) (P : Ev → Bool) : EmitsOnly (pure a : M α) P :=
  emits_preserve P (fun _ => rfl)

theorem emits_ofExcept {α : Type} (x : Except Err α) (P : Ev → Bool) :
    EmitsOnly (M.ofExcept x) P := by
  apply emits_preserve
  intro s
  cases x with
  | ok a => rfl
  | error e => rfl

theorem emits_throw {α : Type} (e : Err) (P : Ev → Bool) : EmitsOnly (M.throw e : M α) P :=
  emits_preserve P (fun _ => rfl)

theorem emits_getTagMap (P : Ev → Bool) : EmitsOnly getTagMap P :=
  emits_preserve P (fun _ => rfl)

theorem emits_getDeferred (P : Ev → Bool) : EmitsOnly getDeferred P :=
  emits_preserve P (fun _ => rfl)

theorem emits_setTagMap (m : List (String × Int)) (P : Ev → Bool) :
    EmitsOnly (setTagMap m) P :=
  emits_preserve P (fun _ => rfl)

theorem emits_deferr (p : String) (b : Val) (P : Ev → Bool) :
    EmitsOnly (deferr_delete p b) P :=
  emits_preserve P (fun _ => rfl)

theorem emits_request {o : Oracle} {m : Method} {p : String} {b : Val} {P : Ev → Bool}
    (h : P (Ev.req ⟨m, p, b⟩) = true) : EmitsOnly (request o m p b) P := by
  intro s
  refine ⟨[Ev.req ⟨m, p, b⟩], ?_, ?_⟩
  · show ((request o m p b s).2).events = _
    simp only [request]
    by_cases hok : o.ok ⟨m, p, b⟩ = true
    · rw [if_pos hok]
    · rw [if_neg hok]
  · intro e he
    rcases List.mem_singleton.mp he with rfl
    exact h

theorem emits_getTagsReq {o : Oracle} {P : Ev → Bool} (h : P getTagEv = true) :
    EmitsOnly (getTagsReq o) P := by
  intro s
  refine ⟨[getTagEv], ?_, ?_⟩
  · show ((getTagsReq o s).2).events = _
    simp only [getTagsReq]
    by_cases hok : o.ok ⟨.get, "/tag", .dict []⟩ = true
    · rw [if_pos hok]
      rfl
    · rw [if_neg hok]
      rfl
  · intro e he
    rcases List.mem_singleton.mp he with rfl
    exact h

theorem emits_postTagReq {o : Oracle} {t : String} {P : Ev → Bool} (h : P (postEv t) = true) :
    EmitsOnly (postTagReq o t) P := by
  intro s
  refine ⟨[postEv t], ?_, ?_⟩
  · show ((postTagReq o t s).2).events = _
    simp only [postTagReq]
    by_cases hok : o.ok ⟨.post, "/tag", .dict [("label", .str t)]⟩ = true
    · rw [if_pos hok]
      rfl
    · rw [if_neg hok]
      rfl
  · intro e he
    rcases List.mem_singleton.mp he with rfl
    exact h

theorem phaseOk_get (p : String) : phaseOk (Ev.req ⟨.get, p, .dict []⟩) = true := rfl

theorem phaseOk_put (p : String) (b : Val) : phaseOk (Ev.req ⟨.put, p, b⟩) = true := rfl

theorem phaseOk_post (p : String) (b : Val) : phaseOk (Ev.req ⟨.post, p, b⟩) = true := rfl

theorem phaseOk_del_rootFolder (t : String) :
    phaseOk (Ev.req ⟨.delete, "/rootFolder/" ++ t, .dict []⟩) = true := by
  show strStarts "/rootFolder/" ("/rootFolder/" ++ t) = true
  exact strStarts_append _ _

theorem emits_pingReq (o : Oracle) : EmitsOnly (pingReq o) phaseOk := by
  apply emits_bind (emits_request (phaseOk_get _))
  intro _
  exact emits_pure () phaseOk

theorem emits_postMissingTags (o : Oracle) (ex : List String) :
    ∀ ls, EmitsOnly (postMissingTags o ex ls) phaseOk := by
  intro ls
  induction ls with
  | nil => exact emits_pure () phaseOk
  | cons t rest ih =>
    simp only [postMissingTags]
    apply emits_ite
    · apply emits_bind (emits_pure () phaseOk)
      intro _
      exact ih
    · apply emits_bind (emits_postTagReq rfl)
      intro _
      exact ih

theorem emits_sync_tags (o : Oracle) (ty : String) (cfg : Dict) :
    EmitsOnly (sync_tags o ty cfg) phaseOk := by
  apply emits_bind (emits_ofExcept _ _)
  intro tags
  apply emits_bind (emits_getTagsReq rfl)
  intro existing
  apply emits_bind (emits_ofExcept _ _)
  intro labels
  apply emits_bind (emits_postMissingTags o _ labels)
  intro _
  apply emits_bind (emits_getTagsReq rfl)
  intro ts
  exact emits_setTagMap _ _

theorem emits_queueDeletes (p : String) (c : Dict) :
    ∀ l, EmitsOnly (queueDeletes p c l) phaseOk := by
  intro l
  induction l with
  | nil => exact emits_pure () phaseOk
  | cons q rest ih =>
    obtain ⟨name, dat⟩ := q
    simp only [queueDeletes]
    apply emits_ite
    · apply emits_bind (emits_ofExcept _ _)
      intro idv
      apply emits_bind (emits_deferr _ _ _)
      intro _
      exact ih
    · apply emits_bind (emits_pure () phaseOk)
      intro _
      exact ih

theorem emits_attempt (o : Oracle) (p : String) (ex : Dict) (name : String) (dat : Val) :
    EmitsOnly (sync_resources_attempt o p ex name dat) phaseOk := by
  simp only [sync_resources_attempt]
  cases h : alook ex name with
  | some e =>
    apply emits_bind (emits_ofExcept _ _)
    intro eid
    apply emits_bind (emits_ofExcept _ _)
    intro eD
    apply emits_bind (emits_ofExcept _ _)
    intro datD
    exact emits_request (phaseOk_put _ _)
  | none => exact emits_request (phaseOk_post _ _)

theorem emits_apply (o : Oracle) (p : String) (ex : Dict) (ae : Bool) :
    ∀ l, EmitsOnly (sync_resources_apply o p ex ae l) phaseOk := by
  intro l
  induction l with
  | nil => exact emits_pure () phaseOk
  | cons q rest ih =>
    obtain ⟨name, dat⟩ := q
    intro s
    have hred : sync_resources_apply o p ex ae ((name, dat) :: rest) s
        = match sync_resources_attempt o p ex name dat s with
          | (.ok _, s1) => sync_resources_apply o p ex ae rest s1
          | (.err e, s1) =>
            if ae then sync_resources_apply o p ex ae rest s1 else (.err e, s1) := rfl
    obtain ⟨δ1, h1, hp1⟩ := emits_attempt o p ex name dat s
    cases hres : sync_resources_attempt o p ex name dat s with
    | mk r s1 =>
      have h1s : s1.events = s.events ++ δ1 := by
        rw [hres] at h1
        exact h1
      rw [hres] at hred
      cases r with
      | ok v =>
        obtain ⟨δ2, h2, hp2⟩ := ih s1
        refine ⟨δ1 ++ δ2, ?_, ?_⟩
        · rw [hred]
          show ((sync_resources_apply o p ex ae rest s1).2).events = _
          rw [h2, h1s]
          simp [List.append_assoc]
        · intro e he
          rcases List.mem_append.mp he with hh | hh
          · exact hp1 e hh
          · exact hp2 e hh
      | err er =>
        by_cases hae : ae = true
        · obtain ⟨δ2, h2, hp2⟩ := ih s1
          refine ⟨δ1 ++ δ2, ?_, ?_⟩
          · rw [hred]
            show (((if ae then sync_resources_apply o p ex ae rest s1
                else (Res.err er, s1))).2).events = _
            rw [if_pos hae, h2, h1s]
            simp [List.append_assoc]
          · intro e he
            rcases List.mem_append.mp he with hh | hh
            · exact hp1 e hh
            · exact hp2 e hh
        · refine ⟨δ1, ?_, hp1⟩
          rw [hred]
          show (((if ae then sync_resources_apply o p ex ae rest s1
              else (Res.err er, s1))).2).events = _
          rw [if_neg hae]
          exact h1s

theorem emits_sync_resources (o : Oracle) (p : String) (cfg : Val)
    (defaults : String → Val → Except Err Val) (ae : Bool) (key : String) :
    EmitsOnly (sync_resources o p cfg defaults ae key) phaseOk := by
  cases cfg with
  | dict c =>
    simp only [sync_resources]
    apply emits_bind (emits_request (phaseOk_get _))
    intro resp
    apply emits_bind (emits_ofExcept _ _)
    intro respL
    apply emits_bind (emits_ofExcept _ _)
    intro existing
    apply emits_bind (emits_queueDeletes p c existing)
    intro _
    apply emits_bind (emits_ofExcept _ _)
    intro c1
    apply emits_bind (emits_ofExcept _ _)
    intro c2
    exact emits_apply o p existing ae c2
  | null => exact emits_pure () phaseOk
  | int n => exact emits_throw _ phaseOk
  | str t => exact emits_throw _ phaseOk
  | bool b => exact emits_throw _ phaseOk
  | list xs => exact emits_throw _ phaseOk

theorem emits_contracts_apply (o : Oracle) (p : String) (ex : Dict) :
    ∀ l, EmitsOnly (sync_contracts_apply o p ex l) phaseOk := by
  intro l
  induction l with
  | nil => exact emits_pure () phaseOk
  | cons q rest ih =>
    obtain ⟨name, dat⟩ := q
    simp only [sync_contracts_apply]
    apply emits_bind ?_ (fun _ => ih)
    cases h : alook ex name with
    | some e =>
      apply emits_bind (emits_ofExcept _ _)
      intro eid
      apply emits_bind (emits_request (phaseOk_put _ _))
      intro _
      exact emits_pure () phaseOk
    | none =>
      apply emits_bind (emits_request (phaseOk_post _ _))
      intro _
      exact emits_pure () phaseOk

theorem emits_sync_contracts (o : Oracle) (p : String) (cfg : Val)
    (defaults : String → Val → Except Err Val) (skey : String × String) :
    EmitsOnly (sync_contracts o p cfg defaults skey) phaseOk := by
  cases cfg with
  | dict c =>
    simp only [sync_contracts]
    apply emits_bind (emits_request (phaseOk_get _))
    intro resp
    apply emits_bind (emits_ofExcept _ _)
    intro respL
    apply emits_bind (emits_ofExcept _ _)
    intro existing0
    apply emits_bind (emits_ofExcept _ _)
    intro existing
    apply emits_bind (emits_ofExcept _ _)
    intro c1
    apply emits_bind (emits_ofExcept _ _)
    intro c2
    apply emits_bind (emits_request (phaseOk_get _))
    intro sresp
    apply emits_bind (emits_ofExcept _ _)
    intro srespL
    apply emits_bind (emits_ofExcept _ _)
    intro schema0
    apply emits_bind (emits_ofExcept _ _)
    intro schema
    apply emits_bind (emits_ofExcept _ _)
    intro c3
    apply emits_bind (emits_ofExcept _ _)
    intro c4
    apply emits_bind (emits_ofExcept _ _)
    intro c5
    apply emits_bind (emits_getTagMap _)
    intro tm
    apply emits_bind (emits_ofExcept _ _)
    intro c6
    apply emits_bind (emits_queueDeletes p c6 existing)
    intro _
    exact emits_contracts_apply o p existing c6
  | null => exact emits_pure () phaseOk
  | int n => exact emits_throw _ phaseOk
  | str t => exact emits_throw _ phaseOk
  | bool b => exact emits_throw _ phaseOk
  | list xs => exact emits_throw _ phaseOk

theorem emits_qdLoop (o : Oracle) (qmap : Dict) :
    ∀ l, EmitsOnly (qdLoop o qmap l) phaseOk := by
  intro l
  induction l with
  | nil => exact emits_pure () phaseOk
  | cons q rest ih =>
    obtain ⟨name, x⟩ := q
    simp only [qdLoop]
    apply emits_bind (emits_ofExcept _ _)
    intro qv
    apply emits_bind (emits_ofExcept _ _)
    intro qid
    apply emits_bind (emits_request (phaseOk_put _ _))
    intro _
    exact ih

theorem emits_qualityDefPhase (o : Oracle) (qd : Val) :
    EmitsOnly (qualityDefPhase o qd) phaseOk := by
  simp only [qualityDefPhase]
  apply emits_bind (emits_request (phaseOk_get _))
  intro resp
  apply emits_bind (emits_ofExcept _ _)
  intro respL
  apply emits_bind (emits_ofExcept _ _)
  intro qmap
  cases qd with
  | dict d => exact emits_qdLoop o qmap d
  | null => exact emits_throw _ phaseOk
  | int n => exact emits_throw _ phaseOk
  | str t => exact emits_throw _ phaseOk
  | bool b => exact emits_throw _ phaseOk
  | list xs => exact emits_throw _ phaseOk

theorem emits_rfDeleteLoop (o : Oracle) (c : Dict) :
    ∀ l, EmitsOnly (rfDeleteLoop o c l) phaseOk := by
  intro l
  induction l with
  | nil => exact emits_pure () phaseOk
  | cons q rest ih =>
    obtain ⟨name, dat⟩ := q
    simp only [rfDeleteLoop]
    apply emits_ite
    · apply emits_bind (emits_ofExcept _ _)
      intro idv
      apply emits_bind (emits_request (phaseOk_del_rootFolder _))
      intro _
      apply emits_bind (emits_pure () phaseOk)
      intro _
      exact ih
    · apply emits_bind (emits_pure () phaseOk)
      intro _
      exact ih

theorem emits_rfPostLoop (o : Oracle) (ex : Dict) :
    ∀ l, EmitsOnly (rfPostLoop o ex l) phaseOk := by
  intro l
  induction l with
  | nil => exact emits_pure () phaseOk
  | cons q rest ih =>
    obtain ⟨name, dat⟩ := q
    simp only [rfPostLoop]
    apply emits_ite
    · apply emits_bind (emits_request (phaseOk_post _ _))
      intro _
      apply emits_bind (emits_pure () phaseOk)
      intro _
      exact ih
    · apply emits_bind (emits_pure () phaseOk)
      intro _
      exact ih

theorem emits_rootFolderPhase (o : Oracle) (rf : Val) :
    EmitsOnly (rootFolderPhase o rf) phaseOk := by
  simp only [rootFolderPhase]
  apply emits_bind (emits_ofExcept _ _)
  intro names
  apply emits_bind (emits_request (phaseOk_get _))
  intro resp
  apply emits_bind (emits_ofExcept _ _)
  intro respL
  apply emits_bind (emits_ofExcept _ _)
  intro existing
  apply emits_bind (emits_rfDeleteLoop o _ existing)
  intro _
  exact emits_rfPostLoop o existing _

theorem emits_lidarrRootPhase (o : Oracle) (cfg : Dict) :
    EmitsOnly (lidarrRootPhase o cfg) phaseOk := by
  simp only [lidarrRootPhase]
  apply emits_bind (emits_request (phaseOk_get _))
  intro qresp
  apply emits_bind (emits_ofExcept _ _)
  intro qrespL
  apply emits_bind (emits_ofExcept _ _)
  intro qpm
  apply emits_bind (emits_request (phaseOk_get _))
  intro mresp
  apply emits_bind (emits_ofExcept _ _)
  intro mrespL
  apply emits_bind (emits_ofExcept _ _)
  intro mpm
  apply emits_bind (emits_getTagMap _)
  intro tm
  apply emits_bind (emits_ofExcept _ _)
  intro rf
  exact emits_sync_resources o _ rf _ false "name"

theorem emits_postEach (o : Oracle) (r : String) :
    ∀ l, EmitsOnly (postEach o r l) phaseOk := by
  intro l
  induction l with
  | nil => exact emits_pure () phaseOk
  | cons b rest ih =>
    simp only [postEach]
    apply emits_bind (emits_request (phaseOk_post _ _))
    intro _
    exact ih

mutual

theorem emits_recursive_sync (o : Oracle) (obj : Val) (r : String) :
    EmitsOnly (recursive_sync o obj r) phaseOk := by
  cases obj with
  | list xs =>
    rw [show recursive_sync o (.list xs) r = postEach o r xs from by rw [recursive_sync]]
    exact emits_postEach o r xs
  | dict d =>
    rw [show recursive_sync o (.dict d) r
        = (if d.any (fun p => ! isContainer p.2) || (alook d "__req").isSome then do
            let cur ← getReq o r
            let _ ← putReq o r (deep_merge (.dict (del_keys d ["__req"])) cur)
            M.pure ()
          else recursive_sync_children o r d) from by rw [recursive_sync]]
    apply emits_ite
    · apply emits_bind (emits_request (phaseOk_get _))
      intro cur
      apply emits_bind (emits_request (phaseOk_put _ _))
      intro _
      exact emits_pure () phaseOk
    · exact emits_recursive_sync_children o r d
  | null =>
    rw [show recursive_sync o .null r
        = M.throw (.typeError "settings node is not iterable") from by
          rw [recursive_sync]
          all_goals exact fun _ h => Val.noConfusion h]
    exact emits_throw _ phaseOk
  | int n =>
    rw [show recursive_sync o (.int n) r
        = M.throw (.typeError "settings node is not iterable") from by
          rw [recursive_sync]
          all_goals exact fun _ h => Val.noConfusion h]
    exact emits_throw _ phaseOk
  | str t =>
    rw [show recursive_sync o (.str t) r
        = M.throw (.typeError "settings node is not iterable") from by
          rw [recursive_sync]
          all_goals exact fun _ h => Val.noConfusion h]
    exact emits_throw _ phaseOk
  | bool b =>
    rw [show recursive_sync o (.bool b) r
        = M.throw (.typeError "settings node is not iterable") from by
          rw [recursive_sync]
          all_goals exact fun _ h => Val.noConfusion h]
    exact emits_throw _ phaseOk
termination_by sizeOf obj

theorem emits_recursive_sync_children (o : Oracle) (r : String) :
    ∀ l : List (String × Val), EmitsOnly (recursive_sync_children o r l) phaseOk := by
  intro l
  match l with
  | [] =>
    rw [show recursive_sync_children o r [] = M.pure () from by rw [recursive_sync_children]]
    exact emits_pure () phaseOk
  | (k, v) :: rest =>
    simp only [recursive_sync_children]
    apply emits_bind (emits_recursive_sync o v (r ++ "/" ++ k))
    intro _
    exact emits_recursive_sync_children o r rest
termination_by l => sizeOf l

end

theorem emits_prowlarrPhase (o : Oracle) (cfg : Dict) :
    EmitsOnly (prowlarrPhase o cfg) phaseOk := by
  simp only [prowlarrPhase]
  apply emits_bind (emits_ofExcept _ _)
  intro ap
  apply emits_bind (emits_sync_resources o _ ap _ false "name")
  intro _
  apply emits_bind (emits_request (phaseOk_get _))
  intro presp
  apply emits_bind (emits_ofExcept _ _)
  intro prespL
  apply emits_bind (emits_ofExcept _ _)
  intro pm
  apply emits_bind (emits_ofExcept _ _)
  intro ix
  apply emits_bind (emits_sync_contracts o _ ix _ _)
  intro _
  apply emits_bind (emits_ofExcept _ _)
  intro apps
  apply emits_bind (emits_sync_contracts o _ apps _ _)
  intro _
  apply emits_bind (emits_ofExcept _ _)
  intro ipx
  exact emits_sync_contracts o _ ipx _ _

theorem emits_formatProfilePhase (o : Oracle) (cfg : Dict) :
    EmitsOnly (formatProfilePhase o cfg) phaseOk := by
  simp only [formatProfilePhase]
  apply emits_bind (emits_ofExcept _ _)
  intro cf
  apply emits_bind (emits_sync_resources o _ cf _ true "name")
  intro _
  apply emits_bind (emits_request (phaseOk_get _))
  intro formats
  apply emits_bind (emits_ofExcept _ _)
  intro formatsL
  apply emits_bind (emits_ofExcept _ _)
  intro qp
  exact emits_sync_resources o _ qp _ true "name"


theorem takeWhile_mem {α : Type} (p : α → Bool) :
    ∀ (l : List α) (e : α), e ∈ l.takeWhile p → e ∈ l := by
  intro l
  induction l with
  | nil => intro e he; exact he
  | cons a rest ih =>
    intro e he
    cases ha : p a with
    | true =>
      rw [show (a :: rest).takeWhile p = a :: rest.takeWhile p from by
        simp [List.takeWhile, ha]] at he
      rcases List.mem_cons.mp he with hh | hh
      · rw [hh]; exact List.mem_cons_self a rest
      · exact List.mem_cons_of_mem a (ih e hh)
    | false =>
      rw [show (a :: rest).takeWhile p = [] from by simp [List.takeWhile, ha]] at he
      cases he

theorem takeWhile_append_all {α : Type} (p : α → Bool) :
    ∀ (l1 l2 : List α), (∀ a ∈ l1, p a = true) →
    (l1 ++ l2).takeWhile p = l1 ++ l2.takeWhile p := by
  intro l1
  induction l1 with
  | nil => intro l2 _; simp
  | cons a rest ih =>
    intro l2 h
    have ha : p a = true := h a (List.mem_cons_self a rest)
    rw [List.cons_append]
    rw [show (a :: (rest ++ l2)).takeWhile p = a :: (rest ++ l2).takeWhile p from by
      simp [List.takeWhile, ha]]
    rw [ih l2 (fun b hb => h b (List.mem_cons_of_mem a hb))]
    rfl

theorem drainLoop_run : ∀ (l : List (String × Val)) (s : St),
    drainLoop l s = (.ok (), { s with events := s.events ++ l.map (fun q => Ev.req ⟨.delete, q.1, if q.2 = Val.null then .dict [] else q.2⟩) }) := by
  intro l
  induction l with
  | nil =>
    intro s
    simp [drainLoop, M.pure]
  | cons q rest ih =>
    intro s
    obtain ⟨p, b⟩ := q
    simp only [drainLoop]
    rw [ih]
    simp [List.append_assoc]

theorem shape_ite {c : Prop} [Decidable c] {x y : M Unit}
    (hx : SyncShape x) (hy : SyncShape y) : SyncShape (if c then x else y) := by
  by_cases h : c
  · rw [if_pos h]; exact hx
  · rw [if_neg h]; exact hy

theorem shape_drainPhase : SyncShape drainPhase := by
  intro s
  have hrun : drainPhase s = (.ok (), { s with events := (s.events ++ [Ev.drain]) ++ s.deferred.map (fun q => Ev.req ⟨.delete, q.1, if q.2 = Val.null then .dict [] else q.2⟩) }) := by
    rw [show drainPhase s = drainLoop s.deferred { s with events := s.events ++ [Ev.drain] } from rfl]
    rw [drainLoop_run]
  refine ⟨Ev.drain :: s.deferred.map (fun q => Ev.req ⟨.delete, q.1, if q.2 = Val.null then .dict [] else q.2⟩), ?_, ?_, ?_⟩
  · rw [hrun]
    simp
  · have ht : (Ev.drain :: s.deferred.map (fun q => Ev.req ⟨.delete, q.1, if q.2 = Val.null then .dict [] else q.2⟩)).takeWhile (fun e => e != Ev.drain) = [] := rfl
    rw [ht]
    intro e he
    cases he
  · rw [hrun]
    show (Ev.drain :: s.deferred.map (fun q => Ev.req ⟨.delete, q.1, if q.2 = Val.null then .dict [] else q.2⟩)).count Ev.drain = 1
    rw [List.count_cons_self]
    rw [List.count_eq_zero.mpr]
    intro hmem
    obtain ⟨q, _, hq⟩ := List.mem_map.mp hmem
    exact Ev.noConfusion hq

theorem shape_step {α : Type} {x : M α} {f : α → M Unit}
    (hx : EmitsOnly x phaseOk) (hf : ∀ a, SyncShape (f a)) : SyncShape (x >>= f) := by
  intro s
  obtain ⟨δ1, h1, hp1⟩ := hx s
  have hδ1ne : ∀ e ∈ δ1, (e != Ev.drain) = true := fun e he => phaseOk_ne_drain (hp1 e he)
  have hδ1nodrain : Ev.drain ∉ δ1 := by
    intro hmem
    have := hδ1ne Ev.drain hmem
    simp at this
  cases hres : x s with
  | mk r s1 =>
    have h1s : s1.events = s.events ++ δ1 := by
      rw [hres] at h1
      exact h1
    cases r with
    | ok a =>
      obtain ⟨δ2, h2, hp2, hc2⟩ := hf a s1
      refine ⟨δ1 ++ δ2, ?_, ?_, ?_⟩
      · rw [show (x >>= f) s = f a s1 from bind_ok_apply hres, h2, h1s]
        simp [List.append_assoc]
      · rw [takeWhile_append_all _ δ1 δ2 hδ1ne]
        intro e he
        rcases List.mem_append.mp he with hh | hh
        · exact hp1 e hh
        · exact hp2 e hh
      · rw [show (x >>= f) s = f a s1 from bind_ok_apply hres]
        cases hr2 : (f a s1).1 with
        | ok b =>
          rw [hr2] at hc2
          show (δ1 ++ δ2).count Ev.drain = 1
          rw [List.count_append, List.count_eq_zero.mpr hδ1nodrain]
          simpa using hc2
        | err er =>
          rw [hr2] at hc2
          show (δ1 ++ δ2).count Ev.drain = 0
          rw [List.count_append, List.count_eq_zero.mpr hδ1nodrain]
          simpa using hc2
    | err er =>
      refine ⟨δ1, ?_, ?_, ?_⟩
      · rw [show (x >>= f) s = (.err er, s1) from bind_err_apply hres]
        exact h1s
      · intro e he
        exact hp1 e (takeWhile_mem _ δ1 e he)
      · rw [show (x >>= f) s = (.err er, s1) from bind_err_apply hres]
        show δ1.count Ev.drain = 0
        exact List.count_eq_zero.mpr hδ1nodrain

theorem shape_syncTail6 (o : Oracle) (cfg : Dict) : SyncShape (syncTail6 o cfg) := by
  simp only [syncTail6]
  apply shape_step (emits_ofExcept _ _)
  intro nt
  apply shape_step (emits_sync_contracts o _ nt _ _)
  intro _
  apply shape_step (emits_ofExcept _ _)
  intro cv
  apply shape_step (emits_recursive_sync o cv _)
  intro _
  exact shape_drainPhase

theorem shape_syncTail5 (o : Oracle) (ty : String) (cfg : Dict) :
    SyncShape (syncTail5 o ty cfg) := by
  simp only [syncTail5]
  apply shape_ite
  · apply shape_step (emits_lidarrRootPhase o cfg)
    intro _
    exact shape_syncTail6 o cfg
  · apply shape_step (emits_pure () phaseOk)
    intro _
    exact shape_syncTail6 o cfg

theorem shape_syncTail4 (o : Oracle) (ty : String) (cfg : Dict) :
    SyncShape (syncTail4 o ty cfg) := by
  simp only [syncTail4]
  apply shape_ite
  · apply shape_step (emits_ofExcept _ _)
    intro rf
    apply shape_ite
    · apply shape_step (emits_pure () phaseOk)
      intro _
      exact shape_syncTail5 o ty cfg
    · apply shape_step (emits_rootFolderPhase o rf)
      intro _
      exact shape_syncTail5 o ty cfg
  · apply shape_step (emits_pure () phaseOk)
    intro _
    exact shape_syncTail5 o ty cfg

theorem shape_syncTail3 (o : Oracle) (ty : String) (cfg : Dict) :
    SyncShape (syncTail3 o ty cfg) := by
  simp only [syncTail3]
  apply shape_ite
  · apply shape_step (emits_formatProfilePhase o cfg)
    intro _
    exact shape_syncTail4 o ty cfg
  · apply shape_step (emits_pure () phaseOk)
    intro _
    exact shape_syncTail4 o ty cfg

theorem shape_syncTail2 (o : Oracle) (ty : String) (cfg : Dict) :
    SyncShape (syncTail2 o ty cfg) := by
  simp only [syncTail2]
  apply shape_ite
  · apply shape_step (emits_ofExcept _ _)
    intro qd
    apply shape_step (emits_qualityDefPhase o qd)
    intro _
    exact shape_syncTail3 o ty cfg
  · apply shape_step (emits_pure () phaseOk)
    intro _
    exact shape_syncTail3 o ty cfg

theorem shape_syncTail1 (o : Oracle) (ty : String) (cfg : Dict) :
    SyncShape (syncTail1 o ty cfg) := by
  simp only [syncTail1]
  apply shape_ite
  · apply shape_step (emits_prowlarrPhase o cfg)
    intro _
    exact shape_syncTail2 o ty cfg
  · apply shape_step (emits_pure () phaseOk)
    intro _
    exact shape_syncTail2 o ty cfg

theorem sync_eq_tails (o : Oracle) (ty : String) (compileF : Dict → Dict) (cfg0 : Dict) :
    sync o ty compileF cfg0 = (do
      pingReq o
      sync_tags o ty (if ty = "sonarr" ∨ ty = "radarr" then compileF (apply_cfg_defaults cfg0)
        else apply_cfg_defaults cfg0)
      let dc ← M.ofExcept (idx (if ty = "sonarr" ∨ ty = "radarr"
        then compileF (apply_cfg_defaults cfg0) else apply_cfg_defaults cfg0) "downloadClient")
      sync_contracts o "/downloadClient" dc (fun _ v => Except.ok v)
        ("implementation", "implementation")
      syncTail1 o ty (if ty = "sonarr" ∨ ty = "radarr" then compileF (apply_cfg_defaults cfg0)
        else apply_cfg_defaults cfg0)) := rfl

theorem sync_shape (o : Oracle) (ty : String) (compileF : Dict → Dict) (cfg0 : Dict) :
    SyncShape (sync o ty compileF cfg0) := by
  rw [sync_eq_tails]
  apply shape_step (emits_pingReq o)
  intro _
  apply shape_step (emits_sync_tags o ty _)
  intro _
  apply shape_step (emits_ofExcept _ _)
  intro dc
  apply shape_step (emits_sync_contracts o _ dc _ _)
  intro _
  exact shape_syncTail1 o ty _

/-- C2 (amended): in every sync run, every delete request issued before
the drain loop targets an immediate `/rootFolder/{id}` path - the
Sonarr/Radarr root-folder block (`arr.py:600-603`) deletes undesired
folders at once; every other resource type's undesired resources are
only ever enqueued for deferred deletion, and their deletes appear only
after the drain marker. -/
theorem sync_predrain_deletes_only_rootfolder (o : Oracle) (ty : String)
    (compileF : Dict → Dict) (cfg0 : Dict) (s : St) :
    ∃ δ : List Ev, ((sync o ty compileF cfg0 s).2).events = s.events ++ δ ∧
      ∀ r : Req, Ev.req r ∈ δ.takeWhile (fun e => e != Ev.drain) →
        r.method = Method.delete → strStarts "/rootFolder/" r.path = true := by
  obtain ⟨δ, h1, h2, _⟩ := sync_shape o ty compileF cfg0 s
  refine ⟨δ, h1, ?_⟩
  intro r hm hdel
  have hpo := h2 (Ev.req r) hm
  obtain ⟨m, p, b⟩ := r
  have hm2 : m = Method.delete := hdel
  rw [hm2] at hpo
  exact hpo

set_option maxHeartbeats 2000000 in
/-- C2 counterexample: a Sonarr run with one desired root-folder path
and one undesired existing folder deletes the undesired folder
immediately (trace position 6), before the root-folder create, before
the config update and before the drain marker. -/
theorem sync_immediate_delete_counterexample :
    sync
      ⟨fun r => if r.path = "/rootFolder"
          then .list [.dict [("path", .str "/old"), ("id", .int 1)]] else .list [],
        fun _ => true⟩
      "sonarr" (fun c => c)
      [("rootFolder", .list [.str "/data"]), ("config", .list [.dict [("k", .int 1)]])]
      ⟨[], [], [], 1, []⟩
      = (.ok (), ⟨[
        Ev.req ⟨Method.get, "/ping", Val.dict []⟩,
        Ev.req ⟨Method.get, "/tag", Val.dict []⟩,
        Ev.req ⟨Method.get, "/tag", Val.dict []⟩,
        Ev.req ⟨Method.get, "/qualityDefinition", Val.dict []⟩,
        Ev.req ⟨Method.get, "/customformat", Val.dict []⟩,
        Ev.req ⟨Method.get, "/rootFolder", Val.dict []⟩,
        Ev.req ⟨Method.delete, "/rootFolder/1", Val.dict []⟩,
        Ev.req ⟨Method.post, "/rootFolder", Val.dict [("path", Val.str "/data")]⟩,
        Ev.req ⟨Method.post, "/config", Val.dict [("k", Val.int 1)]⟩,
        Ev.drain], [], [], 1, []⟩) := by
  have hstep : sync
      ⟨fun r => if r.path = "/rootFolder"
          then .list [.dict [("path", .str "/old"), ("id", .int 1)]] else .list [],
        fun _ => true⟩
      "sonarr" (fun c => c)
      [("rootFolder", .list [.str "/data"]), ("config", .list [.dict [("k", .int 1)]])]
      ⟨[], [], [], 1, []⟩
      = (recursive_sync
          ⟨fun r => if r.path = "/rootFolder"
              then .list [.dict [("path", .str "/old"), ("id", .int 1)]] else .list [],
            fun _ => true⟩
          (Val.list [Val.dict [("k", Val.int 1)]]) "/config" >>= fun _ => drainPhase)
        ⟨[
          Ev.req ⟨Method.get, "/ping", Val.dict []⟩,
          Ev.req ⟨Method.get, "/tag", Val.dict []⟩,
          Ev.req ⟨Method.get, "/tag", Val.dict []⟩,
          Ev.req ⟨Method.get, "/qualityDefinition", Val.dict []⟩,
          Ev.req ⟨Method.get, "/customformat", Val.dict []⟩,
          Ev.req ⟨Method.get, "/rootFolder", Val.dict []⟩,
          Ev.req ⟨Method.delete, "/rootFolder/1", Val.dict []⟩,
          Ev.req ⟨Method.post, "/rootFolder", Val.dict [("path", Val.str "/data")]⟩],
          [], [], 1, []⟩ := rfl
  rw [hstep]
  rw [show recursive_sync
      ⟨fun r => if r.path = "/rootFolder"
          then .list [.dict [("path", .str "/old"), ("id", .int 1)]] else .list [],
        fun _ => true⟩
      (Val.list [Val.dict [("k", Val.int 1)]]) "/config"
      = postEach
        ⟨fun r => if r.path = "/rootFolder"
            then .list [.dict [("path", .str "/old"), ("id", .int 1)]] else .list [],
          fun _ => true⟩
        "/config" [Val.dict [("k", Val.int 1)]] from by rw [recursive_sync]]
  decide

/-- C3 (amended): in every sync run the drain marker (the loop at
`arr.py:662`) is reached exactly once when every phase ran to
completion, and never when some phase raised - nothing catches a
phase's exception, so a raise skips the drain entirely. -/
theorem sync_drains_once_iff_returns (o : Oracle) (ty : String)
    (compileF : Dict → Dict) (cfg0 : Dict) (s : St) :
    ∃ δ : List Ev, ((sync o ty compileF cfg0 s).2).events = s.events ++ δ ∧
      (match (sync o ty compileF cfg0 s).1 with
       | .ok _ => δ.count Ev.drain = 1
       | .err _ => δ.count Ev.drain = 0) := by
  obtain ⟨δ, h1, _, h3⟩ := sync_shape o ty compileF cfg0 s
  exact ⟨δ, h1, h3⟩

/-- C3 counterexample: a Sonarr run whose notification phase raises (the
desired notification collection is not a mapping) never reaches the
drain loop - the trace carries no drain marker and the deferred
deletion queued by the custom-format phase is still in the queue. -/
theorem sync_raise_skips_drain_counterexample :
    sync
      ⟨fun r => if r.path = "/customformat"
          then .list [.dict [("name", .str "x"), ("id", .int 7)]] else .list [],
        fun _ => true⟩
      "sonarr" (fun c => c)
      [("customFormat", .dict []), ("notification", .int 5)]
      ⟨[], [], [], 1, []⟩
      = (.err (.typeError "desired collection is not a mapping"), ⟨[
        Ev.req ⟨Method.get, "/ping", Val.dict []⟩,
        Ev.req ⟨Method.get, "/tag", Val.dict []⟩,
        Ev.req ⟨Method.get, "/tag", Val.dict []⟩,
        Ev.req ⟨Method.get, "/qualityDefinition", Val.dict []⟩,
        Ev.req ⟨Method.get, "/customformat", Val.dict []⟩,
        Ev.req ⟨Method.get, "/customformat", Val.dict []⟩],
        [("/customformat/7", Val.null)], [], 1, []⟩) := by
  decide
